import Mathlib

/-!
# MersenneScan: a decimal big-integer kernel and the Lucas-Lehmer test

A shallow embedding of `src/mersenne.c`.

* `struct Bigint { int n; int digits[MAX_DIGITS]; }` becomes a record of a
  digit count `n` and an array `digits` of integers.  The count is a
  natural number: the source never drives it below zero (`compress` stops at
  index 0, `shift_left` returns at `n == 0`).  Digits are mathematical integers,
  so a borrow that leaves `-1` in a cell is represented as such.
* The array `digits[MAX_DIGITS]` is a list of exactly `MAX_DIGITS` cells.  An
  access at an index outside the array is undefined in C; the model reads 0
  there and drops the write, and the theorems carry the capacity bounds under
  which no such access is made.
* A local `Bigint c;` is uninitialised in C.  Its indeterminate contents are the
  parameter `u` of every function that declares such a local.
* `for` loops with a fixed trip count are folds (`forUp`); loops that count
  downwards or leave early are structural recursions on the counter; the `while`
  loops of `mod_big` take a bound on the number of iterations of a loop and
  return `none` when it is exhausted.
* C integer division and remainder truncate towards zero: `Int.tdiv`, `Int.tmod`.
-/

namespace MersenneScan

/-! ## Data model -/

/-- The capacity `#define MAX_DIGITS 350`. -/
def MAX_DIGITS : Nat := 350

/-- The array type `int [MAX_DIGITS]`. -/
structure Digits where
  cells : List Int
  size_eq : cells.length = MAX_DIGITS

/-- The array read `d[i]`. -/
def Digits.get (d : Digits) (i : Nat) : Int :=
  d.cells.getD i 0

/-- The array assignment `d[i] = v`. -/
def store (d : Digits) (i : Nat) (v : Int) : Digits :=
  { cells := d.cells.set i v, size_eq := by rw [List.length_set]; exact d.size_eq }

/-- The record `Bigint`: `n` active digits, stored little endian in `digits`. -/
structure Bigint where
  n : Nat
  digits : Digits

/-- The loop `for (t = 0; t < k; t++) s = body(t, s);`. -/
def forUp {σ : Type} (body : Nat → σ → σ) : Nat → σ → σ
  | 0, s => s
  | k + 1, s => body k (forUp body k s)

/-! ## compress -/

/-- The loop of `compress`, entered with `i + 1` as first argument: while the
digit at `i` is zero and `i != 0` the count is decremented, otherwise return. -/
def compress_loop : Nat → Bigint → Bigint
  | 0, a => a
  | i + 1, a =>
    if a.digits.get i = 0 ∧ i ≠ 0 then compress_loop i { a with n := a.n - 1 } else a

/-- Function `compress`: trims high-order zero digits. -/
def compress (a : Bigint) : Bigint :=
  compress_loop a.n a

/-! ## digit_to_big -/

/-- Function `digit_to_big`: `b.n = 1; b.digits[0] = a;` on an uninitialised `b`. -/
def digit_to_big (u : Digits) (a : Int) : Bigint :=
  { n := 1, digits := store u 0 a }

/-! ## mult_big -/

/-- Body of the inner loop of `mult_big` at column `j = i + t`; the state is
the digit array of `c` and the running carry. -/
def mult_step (a : Bigint) (bi : Int) (i t : Nat) (s : Digits × Int) :
    Digits × Int :=
  let j := i + t
  let val := s.1.get j + bi * a.digits.get (j - i) + s.2
  (store s.1 j (Int.tmod val 10), Int.tdiv val 10)

/-- Body of the outer loop of `mult_big` for row `i`: the inner loop over
`j = i .. a.n + i - 1`, then the fold of a positive carry into column `a.n + i`. -/
def mult_row (a b : Bigint) (i : Nat) (c : Digits) : Digits :=
  let s := forUp (mult_step a (b.digits.get i) i) a.n (c, 0)
  let j := i + a.n
  if s.2 > 0 then
    let val := s.1.get j + s.2
    store s.1 j (Int.tmod val 10)
  else s.1

/-- Function `mult_big`: schoolbook multiplication followed by `compress`. -/
def mult_big (u : Digits) (a b : Bigint) : Bigint :=
  let n := a.n + b.n
  let c0 := forUp (fun i c => store c i 0) n u
  compress { n := n, digits := forUp (mult_row a b) b.n c0 }

/-! ## sub_big -/

/-- Body of the first loop of `sub_big` (`j < b.n`); the state is the working
copy of `a.digits` and the digit array of `c`. -/
def sub_step1 (b : Bigint) (j : Nat) (s : Digits × Digits) :
    Digits × Digits :=
  let aDigit := s.1.get j
  if b.digits.get j > aDigit then
    (store s.1 (j + 1) (s.1.get (j + 1) - 1), store s.2 j (aDigit + 10 - b.digits.get j))
  else
    (s.1, store s.2 j (aDigit - b.digits.get j))

/-- Body of the second loop of `sub_big` (`while (j < a.n)`) at `j = off + t`. -/
def sub_step2 (off t : Nat) (s : Digits × Digits) :
    Digits × Digits :=
  let j := off + t
  let ad :=
    if s.1.get j < 0 then
      let ad1 := store s.1 j (s.1.get j + 10)
      store ad1 (j + 1) (ad1.get (j + 1) - 1)
    else s.1
  (ad, store s.2 j (ad.get j))

/-- Function `sub_big`: digit-wise subtraction with borrow written into the
by-value copy of `a`, followed by `compress`. -/
def sub_big (u : Digits) (a b : Bigint) : Bigint :=
  let s1 := forUp (sub_step1 b) b.n (a.digits, u)
  let s2 := forUp (sub_step2 b.n) (a.n - b.n) s1
  compress { n := a.n, digits := s2.2 }

/-! ## pow_big -/

/-- Function `pow_big`: `b = a; for (i = 1; i < p; i++) b = mult_big(b, a);`. -/
def pow_big (u : Digits) (a : Bigint) (p : Nat) : Bigint :=
  forUp (fun _ b => mult_big u b a) (p - 1) a

/-! ## compare_big -/

/-- The scan of `compare_big`, entered with `i + 1` as first argument, from the
high-order digit downwards. -/
def compare_loop (a b : Bigint) : Nat → Int
  | 0 => 0
  | i + 1 =>
    if a.digits.get i > b.digits.get i then 1
    else if a.digits.get i < b.digits.get i then -1
    else compare_loop a b i

/-- Function `compare_big`. -/
def compare_big (a b : Bigint) : Int :=
  if a.n < b.n then -1
  else if a.n > b.n then 1
  else compare_loop a b a.n

/-! ## shift_right and shift_left -/

/-- The copy loop of `shift_right`, `for (i = a->n; i > 0; i--) digits[i] = digits[i-1];`,
entered with `i` as first argument. -/
def shift_right_loop : Nat → Digits → Digits
  | 0, d => d
  | i + 1, d => shift_right_loop i (store d (i + 1) (d.get i))

/-- Function `shift_right` (multiply by ten). -/
def shift_right (a : Bigint) : Bigint :=
  { n := a.n + 1, digits := store (shift_right_loop a.n a.digits) 0 0 }

/-- Function `shift_left` (divide by ten). -/
def shift_left (a : Bigint) : Bigint :=
  if a.n = 0 then a
  else
    let d := forUp (fun i d => store d i (d.get (i + 1))) (a.n - 1) a.digits
    { n := a.n - 1, digits := store d (a.n - 1) 0 }

/-! ## mod_big -/

/-- First loop of `mod_big`: `while (compare_big(a, b) == 1) shift_right(&b);`.
The first argument bounds the number of tests of the loop condition. -/
def mod_scale : Nat → Bigint → Bigint → Option Bigint
  | 0, _, _ => none
  | fuel + 1, a, b =>
    if compare_big a b = 1 then mod_scale fuel a (shift_right b) else some b

/-- Inner loop of `mod_big`: `while (compare_big(a, b) != -1) a = sub_big(a, b);`. -/
def mod_inner (u : Digits) : Nat → Bigint → Bigint → Option Bigint
  | 0, _, _ => none
  | fuel + 1, a, b =>
    if compare_big a b ≠ -1 then mod_inner u fuel (sub_big u a b) b else some a

/-- Outer loop of `mod_big`: `while (compare_big(b, original_b) != -1)` run the
inner loop, then `shift_left(&b)`.  `lim` bounds each inner loop. -/
def mod_outer (u : Digits) (lim : Nat) (original_b : Bigint) :
    Nat → Bigint → Bigint → Option Bigint
  | 0, _, _ => none
  | fuel + 1, a, b =>
    if compare_big b original_b ≠ -1 then
      match mod_inner u lim a b with
      | none => none
      | some a1 => mod_outer u lim original_b fuel a1 (shift_left b)
    else some a

/-- Function `mod_big`; `fuel` bounds the tests of the condition of each loop. -/
def mod_big (u : Digits) (fuel : Nat) (a b : Bigint) : Option Bigint :=
  match mod_scale fuel a b with
  | none => none
  | some b1 => mod_outer u fuel b fuel a (shift_left b1)

/-! ## LLT, is_small_prime -/

/-- The loop of `LLT` run `k` times from `s`. -/
def LLT_loop (u : Digits) (fuel : Nat) (two Mp : Bigint) : Nat → Bigint → Option Bigint
  | 0, s => some s
  | k + 1, s =>
    match LLT_loop u fuel two Mp k s with
    | none => none
    | some s1 => mod_big u fuel (sub_big u (mult_big u s1 s1) two) Mp

/-- Function `LLT`: 1 when `2^p - 1` is reported prime, 0 otherwise. -/
def LLT (u : Digits) (fuel : Nat) (p : Nat) : Option Int :=
  let zero := digit_to_big u 0
  let one := digit_to_big u 1
  let two := digit_to_big u 2
  let Mp := sub_big u (pow_big u two p) one
  let s := digit_to_big u 4
  match LLT_loop u fuel two Mp (p - 2) s with
  | none => none
  | some s1 => if compare_big s1 zero = 0 then some 1 else some 0

/-- The loop of `is_small_prime` from `i`, with `k` values of `i` left to try. -/
def is_small_prime_loop (p : Nat) : Nat → Nat → Int
  | 0, _ => 1
  | k + 1, i => if p % i = 0 then 0 else is_small_prime_loop p k (i + 1)

/-- Function `is_small_prime`: trial division by `i = 2 .. p - 2`. -/
def is_small_prime (p : Nat) : Int :=
  is_small_prime_loop p (p - 1 - 2) 2

/-! ## print_big, main -/

/-- The loop of `print_big`, entered with `c + 1` as first argument:
`printf("%d", b.digits[c])` from the high-order digit downwards. -/
def print_loop (b : Bigint) : Nat → String
  | 0 => ""
  | c + 1 => toString (b.digits.get c) ++ print_loop b c

/-- Function `print_big`: the text it writes. -/
def print_big (b : Bigint) : String :=
  print_loop b b.n ++ "\n"

/-- The text `main` writes for a `p` that passed `is_small_prime`, after the
heading `Testing p = %d `. -/
def main_test (u : Digits) (fuel p : Nat) : Option String :=
  if p % 2 ≠ 0 then
    match LLT u fuel p with
    | none => none
    | some is_prime =>
      if is_prime ≠ 0 then
        some ("found prime Mp = "
          ++ print_big (sub_big u (pow_big u (digit_to_big u 2) p) (digit_to_big u 1)))
      else some "Mp not prime\n"
  else some "found prime p = 2\n"

/-- Body of the loop of `main`: the text written for one `p`. -/
def main_body (u : Digits) (fuel p : Nat) : Option String :=
  if is_small_prime p ≠ 0 then
    match main_test u fuel p with
    | none => none
    | some t => some ("Testing p = " ++ toString p ++ " " ++ t)
  else some ""

/-- The loop of `main` over `p = 2 .. 2 + k - 1`: the text written. -/
def main_loop (u : Digits) (fuel : Nat) : Nat → Option String
  | 0 => some ""
  | k + 1 =>
    match main_loop u fuel k with
    | none => none
    | some out =>
      match main_body u fuel (2 + k) with
      | none => none
      | some t => some (out ++ t)

/-- Function `main`: the text written for `p = 2 .. 549`. -/
def main (u : Digits) (fuel : Nat) : Option String :=
  main_loop u fuel 548

/-! ## Specification vocabulary -/

/-- The sum of `d i * 10 ^ i` over `i < k`. -/
def digitsVal (d : Digits) : Nat → Int
  | 0 => 0
  | k + 1 => digitsVal d k + d.get k * 10 ^ k

/-- The integer a Bigint represents: the sum of `digits[i] * 10^i` over `i < n`. -/
def value (x : Bigint) : Int :=
  digitsVal x.digits x.n

/-- Well-formed: at least one active digit, the active digits are cells of the
array, and every active digit is in 0..9. -/
def wellFormed (x : Bigint) : Prop :=
  1 ≤ x.n ∧ x.n ≤ MAX_DIGITS ∧ ∀ i, i < x.n → 0 ≤ x.digits.get i ∧ x.digits.get i ≤ 9

/-- Normalised: no high-order zero digit unless the length is 1. -/
def normalised (x : Bigint) : Prop :=
  1 < x.n → x.digits.get (x.n - 1) ≠ 0

/-- A digit array whose cells below `N` are decimal digits. -/
def digitsOk (d : Digits) (N : Nat) : Prop :=
  ∀ k, k < N → 0 ≤ d.get k ∧ d.get k ≤ 9

/-- Invariant of the two loops of `sub_big` on entry to column `j`: a borrow
`β` is pending on column `j` of the working copy of `a`, the columns above are
untouched, and the columns of `c` below `j` hold `a - Bj + β * 10^j`. -/
def subInv (a : Bigint) (j : Nat) (Bj : Int) (s : Digits × Digits) : Prop :=
  ∃ β : Int, (β = 0 ∨ β = 1) ∧ (j < a.n → s.1.get j = a.digits.get j - β) ∧
    (∀ k, j < k → s.1.get k = a.digits.get k) ∧ digitsOk s.2 j ∧
    digitsVal s.2 j = digitsVal a.digits j - Bj + β * 10 ^ j

instance (x : Bigint) : Decidable (wellFormed x) := by
  unfold wellFormed; infer_instance

instance (x : Bigint) : Decidable (normalised x) := by
  unfold normalised; infer_instance

/-- Three-way comparison of two integers, with the result convention of
`compare_big`. -/
def cmp (x y : Int) : Int :=
  if x < y then -1 else if x = y then 0 else 1

/-- The value `mod_big` computes from the values of its arguments: the
remainder, except that equal arguments give the argument itself. -/
def modv (x y : Int) : Int :=
  if x = y then x else x % y

/-- The loop of `LLT` on values: `k` rounds of `s <- modv (s * s - 2) M` from
`s`, or `none` when some round would call `sub_big` with `s * s < 2`. -/
def llt_iter (M : Int) : Nat → Int → Option Int
  | 0, s => some s
  | k + 1, s =>
    match llt_iter M k s with
    | none => none
    | some s1 => if 2 ≤ s1 * s1 then some (modv (s1 * s1 - 2) M) else none

/-- The verdict of `LLT` computed on values. -/
def llt_verdict (p : Nat) : Option Int :=
  match llt_iter (2 ^ p - 1) (p - 2) 4 with
  | none => none
  | some r => some (if r = 0 then 1 else 0)

/-- The value `val` computed by the body of the inner loop of `mult_big` at
column `j = i + t` in state `s`: `c.digits[j] + b.digits[i] * a.digits[j-i] + carry`. -/
def mult_val (a : Bigint) (bi : Int) (i t : Nat) (s : Digits × Int) : Int :=
  s.1.get (i + t) + bi * a.digits.get (i + t - i) + s.2

/-- The value `val` of `mult_big(a, b)` at row `i`, column `i + t`: `mult_val` in
the state reached after `i` rows and `t` columns. -/
def mult_val_at (u : Digits) (a b : Bigint) (i t : Nat) : Int :=
  mult_val a (b.digits.get i) i t
    (forUp (mult_step a (b.digits.get i) i) t
      (forUp (mult_row a b) i (forUp (fun i c => store c i 0) (a.n + b.n) u), 0))

/-- The working denominator of `mod_big` on entry to its outer loop: `b` after
the scaling loop and the `shift_left` that follows it. -/
def mod_prepare (fuel : Nat) (a b : Bigint) : Option Bigint :=
  match mod_scale fuel a b with
  | none => none
  | some b1 => some (shift_left b1)

/-- The Lucas-Lehmer residues modulo `M`: `s_0 = 4`, `s_(k+1) = (s_k^2 - 2) mod M`. -/
def ll_residue (M : Int) : Nat → Int
  | 0 => 4
  | k + 1 => (ll_residue M k * ll_residue M k - 2) % M

/-- A fuel-indexed computation returns `r`: every large enough bound on the
loop iterations yields `r`. -/
def Returns {α : Type} (f : Nat → Option α) (r : α) : Prop :=
  ∃ N, ∀ fuel, N ≤ fuel → f fuel = some r

/-- An array of zeros, a possible content of an uninitialised local. -/
def zeros : Digits :=
  { cells := List.replicate MAX_DIGITS 0, size_eq := List.length_replicate _ _ }

/-- A Bigint built from a list of digits, low-order digit first. -/
def ofDigits (l : List Int) : Bigint :=
  { n := l.length, digits := forUp (fun i d => store d i (l.getD i 0)) l.length zeros }

/-! ## The checked model

The same functions with every array access checked against the bounds of the
array and every length written to a field `n` checked against `MAX_DIGITS`: a
function of this section returns `none` as soon as an index that is read or
written reaches `MAX_DIGITS` or a Bigint longer than `MAX_DIGITS` is built (and,
for the fuel-indexed loops, when the bound on the iterations is exhausted). -/

/-- Checked read `d[i]`: `none` when `i` is not an index of the array. -/
def rd (d : Digits) (i : Nat) : Option Int :=
  if i < MAX_DIGITS then some (d.get i) else none

/-- Checked assignment `d[i] = v`: `none` when `i` is not an index of the array. -/
def wr (d : Digits) (i : Nat) (v : Int) : Option Digits :=
  if i < MAX_DIGITS then some (store d i v) else none

/-- Checked length: a Bigint with `n` above the capacity is not built. -/
def mk_big (n : Nat) (d : Digits) : Option Bigint :=
  if n ≤ MAX_DIGITS then some { n := n, digits := d } else none

/-- The loop `for (t = 0; t < k; t++) s = body(t, s);` with a body that can fail. -/
def forUpM {σ : Type} (body : Nat → σ → Option σ) : Nat → σ → Option σ
  | 0, s => some s
  | k + 1, s => (forUpM body k s).bind (body k)

/-- Checked loop of `compress`. -/
def compress_loop_chk : Nat → Bigint → Option Bigint
  | 0, a => some a
  | i + 1, a =>
    (rd a.digits i).bind fun x =>
      if x = 0 ∧ i ≠ 0 then compress_loop_chk i { a with n := a.n - 1 } else some a

/-- Checked `compress`. -/
def compress_chk (a : Bigint) : Option Bigint :=
  compress_loop_chk a.n a

/-- Checked `digit_to_big`. -/
def digit_to_big_chk (u : Digits) (a : Int) : Option Bigint :=
  (wr u 0 a).bind fun d => mk_big 1 d

/-- Checked body of the inner loop of `mult_big`. -/
def mult_step_chk (a b : Bigint) (i t : Nat) (s : Digits × Int) : Option (Digits × Int) :=
  (rd s.1 (i + t)).bind fun cj =>
  (rd b.digits i).bind fun bi =>
  (rd a.digits (i + t - i)).bind fun aj =>
  (wr s.1 (i + t) (Int.tmod (cj + bi * aj + s.2) 10)).bind fun c =>
  some (c, Int.tdiv (cj + bi * aj + s.2) 10)

/-- Checked body of the outer loop of `mult_big`. -/
def mult_row_chk (a b : Bigint) (i : Nat) (c : Digits) : Option Digits :=
  (forUpM (mult_step_chk a b i) a.n (c, 0)).bind fun s =>
  if s.2 > 0 then
    (rd s.1 (i + a.n)).bind fun cj => wr s.1 (i + a.n) (Int.tmod (cj + s.2) 10)
  else some s.1

/-- Checked `mult_big`. -/
def mult_big_chk (u : Digits) (a b : Bigint) : Option Bigint :=
  (mk_big (a.n + b.n) u).bind fun c =>
  (forUpM (fun i d => wr d i 0) c.n c.digits).bind fun c0 =>
  (forUpM (mult_row_chk a b) b.n c0).bind fun d =>
  compress_chk { n := c.n, digits := d }

/-- Checked body of the first loop of `sub_big`. -/
def sub_step1_chk (b : Bigint) (j : Nat) (s : Digits × Digits) : Option (Digits × Digits) :=
  (rd s.1 j).bind fun aDigit =>
  (rd b.digits j).bind fun bj =>
  if bj > aDigit then
    (rd s.1 (j + 1)).bind fun a1 =>
    (wr s.1 (j + 1) (a1 - 1)).bind fun ad =>
    (wr s.2 j (aDigit + 10 - bj)).bind fun c => some (ad, c)
  else
    (wr s.2 j (aDigit - bj)).bind fun c => some (s.1, c)

/-- Checked body of the second loop of `sub_big`. -/
def sub_step2_chk (off t : Nat) (s : Digits × Digits) : Option (Digits × Digits) :=
  (rd s.1 (off + t)).bind fun aj =>
  (if aj < 0 then
    (wr s.1 (off + t) (aj + 10)).bind fun ad1 =>
    (rd ad1 (off + t + 1)).bind fun a1 => wr ad1 (off + t + 1) (a1 - 1)
  else some s.1).bind fun ad =>
  (rd ad (off + t)).bind fun v =>
  (wr s.2 (off + t) v).bind fun c => some (ad, c)

/-- Checked `sub_big`. -/
def sub_big_chk (u : Digits) (a b : Bigint) : Option Bigint :=
  (mk_big a.n u).bind fun c =>
  (forUpM (sub_step1_chk b) b.n (a.digits, c.digits)).bind fun s1 =>
  (forUpM (sub_step2_chk b.n) (a.n - b.n) s1).bind fun s2 =>
  compress_chk { n := c.n, digits := s2.2 }

/-- Checked `pow_big`. -/
def pow_big_chk (u : Digits) (a : Bigint) (p : Nat) : Option Bigint :=
  forUpM (fun _ b => mult_big_chk u b a) (p - 1) a

/-- Checked scan of `compare_big`. -/
def compare_loop_chk (a b : Bigint) : Nat → Option Int
  | 0 => some 0
  | i + 1 =>
    (rd a.digits i).bind fun x =>
    (rd b.digits i).bind fun y =>
      if x > y then some 1
      else if x < y then some (-1)
      else compare_loop_chk a b i

/-- Checked `compare_big`. -/
def compare_big_chk (a b : Bigint) : Option Int :=
  if a.n < b.n then some (-1)
  else if a.n > b.n then some 1
  else compare_loop_chk a b a.n

/-- Checked copy loop of `shift_right`. -/
def shift_right_loop_chk : Nat → Digits → Option Digits
  | 0, d => some d
  | i + 1, d =>
    (rd d i).bind fun x => (wr d (i + 1) x).bind fun d1 => shift_right_loop_chk i d1

/-- Checked `shift_right`. -/
def shift_right_chk (a : Bigint) : Option Bigint :=
  (shift_right_loop_chk a.n a.digits).bind fun d =>
  (wr d 0 0).bind fun d0 => mk_big (a.n + 1) d0

/-- Checked `shift_left`. -/
def shift_left_chk (a : Bigint) : Option Bigint :=
  if a.n = 0 then some a
  else
    (forUpM (fun i d => (rd d (i + 1)).bind fun x => wr d i x) (a.n - 1) a.digits).bind fun d =>
    (wr d (a.n - 1) 0).bind fun d1 => mk_big (a.n - 1) d1

/-- Checked first loop of `mod_big`. -/
def mod_scale_chk : Nat → Bigint → Bigint → Option Bigint
  | 0, _, _ => none
  | fuel + 1, a, b =>
    (compare_big_chk a b).bind fun c =>
      if c = 1 then (shift_right_chk b).bind fun b1 => mod_scale_chk fuel a b1 else some b

/-- Checked inner loop of `mod_big`. -/
def mod_inner_chk (u : Digits) : Nat → Bigint → Bigint → Option Bigint
  | 0, _, _ => none
  | fuel + 1, a, b =>
    (compare_big_chk a b).bind fun c =>
      if c ≠ -1 then (sub_big_chk u a b).bind fun a1 => mod_inner_chk u fuel a1 b else some a

/-- Checked outer loop of `mod_big`. -/
def mod_outer_chk (u : Digits) (lim : Nat) (original_b : Bigint) :
    Nat → Bigint → Bigint → Option Bigint
  | 0, _, _ => none
  | fuel + 1, a, b =>
    (compare_big_chk b original_b).bind fun c =>
      if c ≠ -1 then
        (mod_inner_chk u lim a b).bind fun a1 =>
        (shift_left_chk b).bind fun b1 => mod_outer_chk u lim original_b fuel a1 b1
      else some a

/-- Checked `mod_big`. -/
def mod_big_chk (u : Digits) (fuel : Nat) (a b : Bigint) : Option Bigint :=
  (mod_scale_chk fuel a b).bind fun b1 =>
  (shift_left_chk b1).bind fun b2 => mod_outer_chk u fuel b fuel a b2

/-- Checked loop of `LLT`. -/
def LLT_loop_chk (u : Digits) (fuel : Nat) (two Mp : Bigint) : Nat → Bigint → Option Bigint
  | 0, s => some s
  | k + 1, s =>
    (LLT_loop_chk u fuel two Mp k s).bind fun s1 =>
    (mult_big_chk u s1 s1).bind fun s2 =>
    (sub_big_chk u s2 two).bind fun s3 => mod_big_chk u fuel s3 Mp

/-- Checked `LLT`. -/
def LLT_chk (u : Digits) (fuel : Nat) (p : Nat) : Option Int :=
  (digit_to_big_chk u 0).bind fun zero =>
  (digit_to_big_chk u 1).bind fun one =>
  (digit_to_big_chk u 2).bind fun two =>
  (pow_big_chk u two p).bind fun Mp0 =>
  (sub_big_chk u Mp0 one).bind fun Mp =>
  (digit_to_big_chk u 4).bind fun s =>
  (LLT_loop_chk u fuel two Mp (p - 2) s).bind fun s1 =>
  (compare_big_chk s1 zero).bind fun c => if c = 0 then some 1 else some 0

/-! ## Arrays and folds -/

theorem get_store (d : Digits) (i k : Nat) (v : Int) :
    (store d i v).get k = if k = i ∧ i < MAX_DIGITS then v else d.get k := by
  have hlen := d.size_eq
  simp only [Digits.get, store, List.getD_eq_getElem?_getD, List.getElem?_set]
  by_cases hik : i = k
  · subst hik
    by_cases hi : i < MAX_DIGITS
    · simp [hi, hlen]
    · have : d.cells.length ≤ i := by omega
      simp [hi, hlen, List.getElem?_eq_none this]
  · have hki : ¬ k = i := fun h => hik h.symm
    simp [hik, hki]

theorem get_store_same (d : Digits) (i : Nat) (v : Int) (hi : i < MAX_DIGITS) :
    (store d i v).get i = v := by
  simp [get_store, hi]

theorem get_store_ne (d : Digits) (i k : Nat) (v : Int) (hk : k ≠ i) :
    (store d i v).get k = d.get k := by
  simp [get_store, hk]

theorem forUp_zero {σ : Type} (body : Nat → σ → σ) (s : σ) : forUp body 0 s = s := rfl

theorem forUp_succ {σ : Type} (body : Nat → σ → σ) (k : Nat) (s : σ) :
    forUp body (k + 1) s = body k (forUp body k s) := rfl

/-! ## The value of a digit array -/

theorem digitsVal_succ (d : Digits) (k : Nat) :
    digitsVal d (k + 1) = digitsVal d k + d.get k * 10 ^ k := rfl

theorem digitsVal_congr (d e : Digits) (k : Nat) (h : ∀ i, i < k → d.get i = e.get i) :
    digitsVal d k = digitsVal e k := by
  induction k with
  | zero => rfl
  | succ k ih =>
    rw [digitsVal_succ, digitsVal_succ, ih (fun i hi => h i (by omega)), h k (by omega)]

theorem digitsVal_store_ge (d : Digits) (i k : Nat) (v : Int) (hik : k ≤ i) :
    digitsVal (store d i v) k = digitsVal d k :=
  digitsVal_congr _ _ _ (fun j hj => get_store_ne d i j v (by omega))

theorem digitsVal_store_lt (d : Digits) (i k : Nat) (v : Int) (hik : i < k)
    (hi : i < MAX_DIGITS) :
    digitsVal (store d i v) k = digitsVal d k + (v - d.get i) * 10 ^ i := by
  induction k with
  | zero => omega
  | succ k ih =>
    rw [digitsVal_succ, digitsVal_succ]
    by_cases hk : i = k
    · subst hk
      rw [digitsVal_store_ge d i i v (le_refl _), get_store_same d i v hi]
      ring
    · rw [ih (by omega), get_store_ne d i k v (fun h => hk h.symm)]
      ring

theorem digitsVal_zero (d : Digits) (k : Nat) (h : ∀ i, i < k → d.get i = 0) :
    digitsVal d k = 0 := by
  induction k with
  | zero => rfl
  | succ k ih =>
    rw [digitsVal_succ, ih (fun i hi => h i (by omega)), h k (by omega)]
    simp

theorem digitsVal_nonneg (d : Digits) (k : Nat) (h : ∀ i, i < k → 0 ≤ d.get i) :
    0 ≤ digitsVal d k := by
  induction k with
  | zero => exact le_refl _
  | succ k ih =>
    rw [digitsVal_succ]
    have h1 := ih (fun i hi => h i (by omega))
    have h2 := h k (by omega)
    positivity

theorem digitsVal_lt (d : Digits) (k : Nat) (h : ∀ i, i < k → d.get i ≤ 9) :
    digitsVal d k < 10 ^ k := by
  induction k with
  | zero => simp [digitsVal]
  | succ k ih =>
    rw [digitsVal_succ]
    have h1 := ih (fun i hi => h i (by omega))
    have h2 := h k (by omega)
    have h3 : (0 : Int) < 10 ^ k := by positivity
    have h4 : d.get k * 10 ^ k ≤ 9 * 10 ^ k := by nlinarith
    rw [pow_succ]
    linarith

theorem digitsVal_ge_top (d : Digits) (k : Nat) (h : ∀ i, i < k + 1 → 0 ≤ d.get i)
    (htop : d.get k ≠ 0) : 10 ^ k ≤ digitsVal d (k + 1) := by
  rw [digitsVal_succ]
  have h1 := digitsVal_nonneg d k (fun i hi => h i (by omega))
  have h2 : 1 ≤ d.get k := by
    have := h k (by omega)
    omega
  have h3 : (0 : Int) < 10 ^ k := by positivity
  nlinarith

/-! ## compress -/

theorem compress_loop_spec (k : Nat) : ∀ a : Bigint, a.n = k →
    (compress_loop k a).digits = a.digits ∧ (compress_loop k a).n ≤ a.n ∧
    (1 ≤ a.n → 1 ≤ (compress_loop k a).n) ∧
    digitsVal a.digits (compress_loop k a).n = digitsVal a.digits a.n ∧
    (1 < (compress_loop k a).n → a.digits.get ((compress_loop k a).n - 1) ≠ 0) := by
  induction k with
  | zero =>
    intro a ha
    have e : compress_loop 0 a = a := rfl
    rw [e]
    refine ⟨rfl, le_refl _, fun h => h, rfl, fun h => by omega⟩
  | succ i ih =>
    intro a ha
    have e : compress_loop (i + 1) a =
        if a.digits.get i = 0 ∧ i ≠ 0 then compress_loop i { a with n := a.n - 1 } else a := rfl
    rw [e]
    by_cases hc : a.digits.get i = 0 ∧ i ≠ 0
    · rw [if_pos hc]
      have hn : ({ a with n := a.n - 1 } : Bigint).n = i := by simp; omega
      obtain ⟨h1, h2, h3, h4, h5⟩ := ih { a with n := a.n - 1 } hn
      simp only at h1 h2 h3 h4 h5
      refine ⟨h1, by omega, fun _ => h3 (by omega), ?_, h5⟩
      have : a.n - 1 = i := by omega
      rw [h4, this, ha, digitsVal_succ, hc.1]
      simp
    · rw [if_neg hc]
      refine ⟨rfl, le_refl _, fun h => h, rfl, fun h => ?_⟩
      have : a.n - 1 = i := by omega
      rw [this]
      intro h0
      exact hc ⟨h0, by omega⟩

theorem compress_digits (a : Bigint) : (compress a).digits = a.digits :=
  (compress_loop_spec a.n a rfl).1

theorem compress_n_le (a : Bigint) : (compress a).n ≤ a.n :=
  (compress_loop_spec a.n a rfl).2.1

theorem compress_n_pos (a : Bigint) (h : 1 ≤ a.n) : 1 ≤ (compress a).n :=
  (compress_loop_spec a.n a rfl).2.2.1 h

theorem compress_value (a : Bigint) : value (compress a) = value a := by
  unfold value
  rw [compress_digits]
  exact (compress_loop_spec a.n a rfl).2.2.2.1

theorem compress_normalised (a : Bigint) : normalised (compress a) := by
  unfold normalised
  rw [compress_digits]
  exact (compress_loop_spec a.n a rfl).2.2.2.2

theorem compress_wellFormed (a : Bigint) (h1 : 1 ≤ a.n) (h2 : a.n ≤ MAX_DIGITS)
    (h3 : ∀ i, i < a.n → 0 ≤ a.digits.get i ∧ a.digits.get i ≤ 9) :
    wellFormed (compress a) := by
  refine ⟨compress_n_pos a h1, le_trans (compress_n_le a) h2, fun i hi => ?_⟩
  rw [compress_digits]
  exact h3 i (lt_of_lt_of_le hi (compress_n_le a))

/-! ## Values of well-formed numbers -/

theorem value_nonneg (x : Bigint) (h : wellFormed x) : 0 ≤ value x :=
  digitsVal_nonneg _ _ (fun i hi => (h.2.2 i hi).1)

theorem value_lt (x : Bigint) (h : wellFormed x) : value x < 10 ^ x.n :=
  digitsVal_lt _ _ (fun i hi => (h.2.2 i hi).2)

theorem value_ge (x : Bigint) (h : wellFormed x) (hn : normalised x) (h1 : 1 < x.n) :
    10 ^ (x.n - 1) ≤ value x := by
  have hk : x.n = (x.n - 1) + 1 := by omega
  unfold value
  rw [hk]
  apply digitsVal_ge_top
  · intro i hi
    exact (h.2.2 i (by omega)).1
  · simpa using hn h1

/-- A normalised number below `10 ^ m` has at most `m` digits. -/
theorem n_le_of_value_lt (x : Bigint) (h : wellFormed x) (hn : normalised x) (m : Nat)
    (hm : 1 ≤ m) (hv : value x < 10 ^ m) : x.n ≤ m := by
  by_contra hc
  have h1 : 1 < x.n := by omega
  have h2 := value_ge x h hn h1
  have h3 : (10 : Int) ^ m ≤ 10 ^ (x.n - 1) :=
    pow_le_pow_right₀ (by norm_num) (by omega)
  omega

/-- The length of a normalised number is monotone in its value. -/
theorem n_le_of_value_le (x y : Bigint) (hx : wellFormed x) (hxn : normalised x)
    (hy : wellFormed y) (hv : value x ≤ value y) : x.n ≤ y.n :=
  n_le_of_value_lt x hx hxn y.n hy.1 (lt_of_le_of_lt hv (value_lt y hy))

/-! ## compare_big -/

theorem cmp_self (x : Int) : cmp x x = 0 := by simp [cmp]

theorem cmp_add_right (x y c : Int) : cmp (x + c) (y + c) = cmp x y := by
  unfold cmp
  split_ifs <;> first | rfl | (exfalso; omega)

theorem compare_loop_spec (a b : Bigint) (k : Nat)
    (ha : ∀ i, i < k → 0 ≤ a.digits.get i ∧ a.digits.get i ≤ 9)
    (hb : ∀ i, i < k → 0 ≤ b.digits.get i ∧ b.digits.get i ≤ 9) :
    compare_loop a b k = cmp (digitsVal a.digits k) (digitsVal b.digits k) := by
  induction k with
  | zero => simp [compare_loop, cmp, digitsVal]
  | succ k ih =>
    have iha := ih (fun i hi => ha i (by omega)) (fun i hi => hb i (by omega))
    have a0 := digitsVal_nonneg a.digits k (fun i hi => (ha i (by omega)).1)
    have a1 := digitsVal_lt a.digits k (fun i hi => (ha i (by omega)).2)
    have b0 := digitsVal_nonneg b.digits k (fun i hi => (hb i (by omega)).1)
    have b1 := digitsVal_lt b.digits k (fun i hi => (hb i (by omega)).2)
    have hp : (0 : Int) < 10 ^ k := by positivity
    simp only [compare_loop, digitsVal_succ]
    by_cases h1 : a.digits.get k > b.digits.get k
    · rw [if_pos h1]
      have : b.digits.get k * 10 ^ k + 10 ^ k ≤ a.digits.get k * 10 ^ k := by nlinarith
      unfold cmp
      rw [if_neg (by linarith), if_neg (by linarith)]
    · rw [if_neg h1]
      by_cases h2 : a.digits.get k < b.digits.get k
      · rw [if_pos h2]
        have : a.digits.get k * 10 ^ k + 10 ^ k ≤ b.digits.get k * 10 ^ k := by nlinarith
        unfold cmp
        rw [if_pos (by linarith)]
      · rw [if_neg h2, iha]
        have he : a.digits.get k = b.digits.get k := by omega
        rw [he, cmp_add_right]

/-- On well-formed, normalised numbers `compare_big` is the order of the values. -/
theorem compare_big_eq_cmp (a b : Bigint) (ha : wellFormed a) (han : normalised a)
    (hb : wellFormed b) (hbn : normalised b) :
    compare_big a b = cmp (value a) (value b) := by
  unfold compare_big
  by_cases h1 : a.n < b.n
  · rw [if_pos h1]
    have h2 := value_ge b hb hbn (by have := ha.1; omega)
    have h3 := value_lt a ha
    have h4 : (10 : Int) ^ a.n ≤ 10 ^ (b.n - 1) :=
      pow_le_pow_right₀ (by norm_num) (by omega)
    unfold cmp
    rw [if_pos (by linarith)]
  · rw [if_neg h1]
    by_cases h2 : a.n > b.n
    · rw [if_pos h2]
      have h3 := value_ge a ha han (by have := hb.1; omega)
      have h4 := value_lt b hb
      have h5 : (10 : Int) ^ b.n ≤ 10 ^ (a.n - 1) :=
        pow_le_pow_right₀ (by norm_num) (by omega)
      unfold cmp
      rw [if_neg (by linarith), if_neg (by linarith)]
    · rw [if_neg h2]
      have he : b.n = a.n := by omega
      rw [compare_loop_spec a b a.n ha.2.2 (fun i hi => hb.2.2 i (by omega))]
      unfold value
      rw [he]

/-! ## mult_big -/

theorem zero_loop_get (u : Digits) (N : Nat) (hN : N ≤ MAX_DIGITS) (k : Nat) (hk : k < N) :
    (forUp (fun i c => store c i 0) N u).get k = 0 := by
  induction N with
  | zero => omega
  | succ N ih =>
    rw [forUp_succ]
    by_cases h : k = N
    · subst h
      exact get_store_same _ _ _ (by omega)
    · rw [get_store_ne _ _ _ _ h]
      exact ih (by omega) (by omega)

theorem mult_step_fst (a : Bigint) (bi : Int) (i t : Nat) (s : Digits × Int) :
    (mult_step a bi i t s).1 =
      store s.1 (i + t) (Int.tmod (s.1.get (i + t) + bi * a.digits.get (i + t - i) + s.2) 10) := rfl

theorem mult_step_snd (a : Bigint) (bi : Int) (i t : Nat) (s : Digits × Int) :
    (mult_step a bi i t s).2 =
      Int.tdiv (s.1.get (i + t) + bi * a.digits.get (i + t - i) + s.2) 10 := rfl

/-- Invariant of the inner loop of `mult_big` after `t` columns of row `i`. -/
theorem mult_inner_spec (a : Bigint) (bi : Int) (i N : Nat) (c : Digits)
    (hN : N ≤ MAX_DIGITS) (hiN : i + a.n < N)
    (ha : digitsOk a.digits a.n) (hbi : 0 ≤ bi ∧ bi ≤ 9) (hc : digitsOk c N)
    (t : Nat) (ht : t ≤ a.n) :
    digitsOk (forUp (mult_step a bi i) t (c, 0)).1 N ∧
    (0 ≤ (forUp (mult_step a bi i) t (c, 0)).2 ∧ (forUp (mult_step a bi i) t (c, 0)).2 ≤ 9) ∧
    digitsVal (forUp (mult_step a bi i) t (c, 0)).1 N
        + (forUp (mult_step a bi i) t (c, 0)).2 * 10 ^ (i + t)
      = digitsVal c N + bi * digitsVal a.digits t * 10 ^ i ∧
    (∀ k, i + t ≤ k → (forUp (mult_step a bi i) t (c, 0)).1.get k = c.get k) := by
  induction t with
  | zero =>
    refine ⟨hc, ⟨le_refl _, by show (0 : Int) ≤ 9; norm_num⟩, ?_, fun k _ => rfl⟩
    simp [forUp, digitsVal]
  | succ t ih =>
    obtain ⟨h1, h2, h3, h4⟩ := ih (by omega)
    rw [forUp_succ]
    generalize forUp (mult_step a bi i) t (c, 0) = s at h1 h2 h3 h4
    rw [mult_step_fst, mult_step_snd]
    have hj : i + t < N := by omega
    have hjm : i + t < MAX_DIGITS := by omega
    have hsub : i + t - i = t := by omega
    rw [hsub]
    have hat := ha t (by omega)
    have hcj := h1 (i + t) hj
    have hp0 : 0 ≤ bi * a.digits.get t := mul_nonneg hbi.1 hat.1
    have hp1 : bi * a.digits.get t ≤ 81 := by nlinarith [hbi.1, hbi.2, hat.1, hat.2]
    have hv0 : 0 ≤ s.1.get (i + t) + bi * a.digits.get t + s.2 := by linarith [hcj.1, h2.1]
    have hv1 : s.1.get (i + t) + bi * a.digits.get t + s.2 ≤ 99 := by linarith [hcj.2, h2.2]
    rw [Int.tmod_eq_emod hv0 (by norm_num), Int.tdiv_eq_ediv hv0 (by norm_num)]
    generalize hval : s.1.get (i + t) + bi * a.digits.get t + s.2 = val at hv0 hv1
    refine ⟨?_, ⟨by omega, by omega⟩, ?_, ?_⟩
    · intro k hk
      rw [get_store]
      by_cases hkj : k = i + t
      · rw [if_pos ⟨hkj, hjm⟩]
        omega
      · rw [if_neg (fun h => hkj h.1)]
        exact h1 k hk
    · rw [digitsVal_store_lt _ _ _ _ hj hjm, digitsVal_succ]
      have e1 : (10 : Int) ^ (i + (t + 1)) = 10 * 10 ^ (i + t) := by
        rw [← add_assoc, pow_succ]; ring
      have e2 : (10 : Int) ^ (i + t) = 10 ^ i * 10 ^ t := pow_add _ _ _
      have e3 : val % 10 + 10 * (val / 10) = val := Int.emod_add_ediv val 10
      rw [e1]
      have e4 : digitsVal s.1 N + (val % 10 - s.1.get (i + t)) * 10 ^ (i + t)
          + val / 10 * (10 * 10 ^ (i + t))
          = digitsVal s.1 N + s.2 * 10 ^ (i + t)
            + ((val % 10 + 10 * (val / 10)) - s.1.get (i + t) - s.2) * 10 ^ (i + t) := by ring
      rw [e4, e3, h3, ← hval, e2]
      ring
    · intro k hk
      rw [get_store_ne _ _ _ _ (by omega)]
      exact h4 k (by omega)

/-- One row of `mult_big` adds `b[i] * a * 10^i` to the value of `c`. -/
theorem mult_row_spec (a b : Bigint) (i N : Nat) (c : Digits)
    (hN : N ≤ MAX_DIGITS) (hiN : i + a.n < N)
    (ha : digitsOk a.digits a.n) (hbi : 0 ≤ b.digits.get i ∧ b.digits.get i ≤ 9)
    (hc : digitsOk c N) (hz : ∀ k, i + a.n ≤ k → k < N → c.get k = 0) :
    digitsOk (mult_row a b i c) N ∧
    digitsVal (mult_row a b i c) N
      = digitsVal c N + b.digits.get i * digitsVal a.digits a.n * 10 ^ i ∧
    (∀ k, i + a.n + 1 ≤ k → k < N → (mult_row a b i c).get k = 0) := by
  obtain ⟨h1, h2, h3, h4⟩ :=
    mult_inner_spec a (b.digits.get i) i N c hN hiN ha hbi hc a.n (le_refl _)
  have e : mult_row a b i c =
      if (forUp (mult_step a (b.digits.get i) i) a.n (c, 0)).2 > 0 then
        store (forUp (mult_step a (b.digits.get i) i) a.n (c, 0)).1 (i + a.n)
          (Int.tmod ((forUp (mult_step a (b.digits.get i) i) a.n (c, 0)).1.get (i + a.n)
            + (forUp (mult_step a (b.digits.get i) i) a.n (c, 0)).2) 10)
      else (forUp (mult_step a (b.digits.get i) i) a.n (c, 0)).1 := rfl
  rw [e]
  generalize forUp (mult_step a (b.digits.get i) i) a.n (c, 0) = s at h1 h2 h3 h4
  have hj : i + a.n < MAX_DIGITS := by omega
  have hcj : s.1.get (i + a.n) = 0 := by
    rw [h4 _ (le_refl _)]
    exact hz _ (le_refl _) hiN
  by_cases hcarry : s.2 > 0
  · rw [if_pos hcarry, hcj, zero_add, Int.tmod_eq_emod h2.1 (by norm_num)]
    have hm : s.2 % 10 = s.2 := by omega
    rw [hm]
    refine ⟨?_, ?_, ?_⟩
    · intro k hk
      rw [get_store]
      by_cases hkj : k = i + a.n
      · rw [if_pos ⟨hkj, hj⟩]
        exact h2
      · rw [if_neg (fun h => hkj h.1)]
        exact h1 k hk
    · rw [digitsVal_store_lt _ _ _ _ hiN hj, hcj, ← h3]
      ring
    · intro k hk hkN
      rw [get_store_ne _ _ _ _ (by omega), h4 k (by omega)]
      exact hz k (by omega) hkN
  · rw [if_neg hcarry]
    have h0 : s.2 = 0 := by omega
    rw [h0] at h3
    refine ⟨h1, ?_, ?_⟩
    · rw [← h3]; ring
    · intro k hk hkN
      rw [h4 k (by omega)]
      exact hz k (by omega) hkN

/-- Invariant of the outer loop of `mult_big` after `i` rows. -/
theorem mult_outer_spec (u : Digits) (a b : Bigint) (hN : a.n + b.n ≤ MAX_DIGITS)
    (ha : digitsOk a.digits a.n) (hb : digitsOk b.digits b.n) (i : Nat) (hi : i ≤ b.n) :
    digitsOk (forUp (mult_row a b) i (forUp (fun i c => store c i 0) (a.n + b.n) u))
      (a.n + b.n) ∧
    digitsVal (forUp (mult_row a b) i (forUp (fun i c => store c i 0) (a.n + b.n) u))
      (a.n + b.n) = digitsVal a.digits a.n * digitsVal b.digits i ∧
    (∀ k, i + a.n ≤ k → k < a.n + b.n →
      (forUp (mult_row a b) i (forUp (fun i c => store c i 0) (a.n + b.n) u)).get k = 0) := by
  induction i with
  | zero =>
    have hz := zero_loop_get u (a.n + b.n) hN
    refine ⟨fun k hk => by rw [forUp_zero, hz k hk]; norm_num, ?_, fun k _ hk => hz k hk⟩
    rw [forUp_zero, digitsVal_zero _ _ hz]
    simp [digitsVal]
  | succ i ih =>
    obtain ⟨h1, h2, h3⟩ := ih (by omega)
    rw [forUp_succ]
    generalize forUp (mult_row a b) i (forUp (fun i c => store c i 0) (a.n + b.n) u) = c
      at h1 h2 h3
    obtain ⟨g1, g2, g3⟩ := mult_row_spec a b i (a.n + b.n) c hN (by omega) ha
      (hb i (by omega)) h1 h3
    refine ⟨g1, ?_, fun k hk hkN => g3 k (by omega) hkN⟩
    rw [g2, h2, digitsVal_succ]
    ring

theorem mult_big_eq (u : Digits) (a b : Bigint) :
    mult_big u a b = compress (Bigint.mk (a.n + b.n)
      (forUp (mult_row a b) b.n (forUp (fun i c => store c i 0) (a.n + b.n) u))) := rfl

/-- Functional correctness and invariants of `mult_big`. -/
theorem mult_big_spec (u : Digits) (a b : Bigint) (ha : wellFormed a) (hb : wellFormed b)
    (hN : a.n + b.n ≤ MAX_DIGITS) :
    wellFormed (mult_big u a b) ∧ normalised (mult_big u a b) ∧
    value (mult_big u a b) = value a * value b := by
  obtain ⟨h1, h2, _⟩ := mult_outer_spec u a b hN ha.2.2 hb.2.2 b.n (le_refl _)
  rw [mult_big_eq]
  refine ⟨compress_wellFormed _ ?_ hN h1, compress_normalised _, ?_⟩
  · have := ha.1
    show 1 ≤ a.n + b.n
    omega
  · rw [compress_value]
    exact h2

theorem mult_big_n_le (u : Digits) (a b : Bigint) : (mult_big u a b).n ≤ a.n + b.n := by
  rw [mult_big_eq]
  exact compress_n_le _

/-! ## sub_big -/

theorem sub_step1_eq (b : Bigint) (j : Nat) (s : Digits × Digits) :
    sub_step1 b j s =
      if b.digits.get j > s.1.get j then
        (store s.1 (j + 1) (s.1.get (j + 1) - 1),
          store s.2 j (s.1.get j + 10 - b.digits.get j))
      else (s.1, store s.2 j (s.1.get j - b.digits.get j)) := rfl

theorem sub_step2_eq (off t : Nat) (s : Digits × Digits) :
    sub_step2 off t s =
      if s.1.get (off + t) < 0 then
        (store (store s.1 (off + t) (s.1.get (off + t) + 10)) (off + t + 1)
            ((store s.1 (off + t) (s.1.get (off + t) + 10)).get (off + t + 1) - 1),
          store s.2 (off + t)
            ((store (store s.1 (off + t) (s.1.get (off + t) + 10)) (off + t + 1)
              ((store s.1 (off + t) (s.1.get (off + t) + 10)).get (off + t + 1) - 1)).get
                (off + t)))
      else (s.1, store s.2 (off + t) (s.1.get (off + t))) := by
  by_cases h : s.1.get (off + t) < 0
  · simp only [sub_step2, if_pos h]
  · simp only [sub_step2, if_neg h]

theorem digitsOk_store (d : Digits) (j : Nat) (v : Int) (hd : digitsOk d j)
    (hj : j < MAX_DIGITS) (hv : 0 ≤ v ∧ v ≤ 9) : digitsOk (store d j v) (j + 1) := by
  intro k hk
  rw [get_store]
  by_cases hkj : k = j
  · rw [if_pos ⟨hkj, hj⟩]
    exact hv
  · rw [if_neg (fun h => hkj h.1)]
    exact hd k (by omega)

theorem digitsVal_store_top (d : Digits) (j : Nat) (v : Int) (hj : j < MAX_DIGITS) :
    digitsVal (store d j v) (j + 1) = digitsVal d j + v * 10 ^ j := by
  rw [digitsVal_succ, digitsVal_store_ge d j j v (le_refl _), get_store_same d j v hj]

/-- One column of the first loop of `sub_big` keeps the invariant. -/
theorem sub_step1_inv (a b : Bigint) (j : Nat) (s : Digits × Digits)
    (ha : wellFormed a) (hb : wellFormed b) (hj : j < b.n) (hba : b.n ≤ a.n)
    (h : subInv a j (digitsVal b.digits j) s) :
    subInv a (j + 1) (digitsVal b.digits (j + 1)) (sub_step1 b j s) := by
  obtain ⟨β, hβ, h1, h2, h3, h4⟩ := h
  have hja : j < a.n := by omega
  have hjm : j < MAX_DIGITS := lt_of_lt_of_le hja ha.2.1
  have haj := ha.2.2 j hja
  have hbj := hb.2.2 j hj
  have h1 := h1 hja
  have hp : (10 : Int) ^ (j + 1) = 10 * 10 ^ j := by rw [pow_succ]; ring
  rw [sub_step1_eq]
  by_cases hc : b.digits.get j > s.1.get j
  · rw [if_pos hc]
    refine ⟨1, Or.inr rfl, fun hj1 => ?_, fun k hk => ?_, ?_, ?_⟩
    · show (store s.1 (j + 1) (s.1.get (j + 1) - 1)).get (j + 1) = _
      rw [get_store_same _ _ _ (lt_of_lt_of_le hj1 ha.2.1), h2 (j + 1) (by omega)]
    · show (store s.1 (j + 1) (s.1.get (j + 1) - 1)).get k = _
      rw [get_store_ne _ _ _ _ (by omega)]
      exact h2 k (by omega)
    · exact digitsOk_store _ _ _ h3 hjm (by rcases hβ with r | r <;> omega)
    · show digitsVal (store s.2 j (s.1.get j + 10 - b.digits.get j)) (j + 1) = _
      rw [digitsVal_store_top _ _ _ hjm, h4, h1, digitsVal_succ, digitsVal_succ, hp]
      ring
  · rw [if_neg hc]
    refine ⟨0, Or.inl rfl, fun _ => ?_, fun k hk => ?_, ?_, ?_⟩
    · show s.1.get (j + 1) = _
      rw [h2 (j + 1) (by omega)]; ring
    · exact h2 k (by omega)
    · exact digitsOk_store _ _ _ h3 hjm (by rcases hβ with r | r <;> omega)
    · show digitsVal (store s.2 j (s.1.get j - b.digits.get j)) (j + 1) = _
      rw [digitsVal_store_top _ _ _ hjm, h4, h1, digitsVal_succ, digitsVal_succ]
      ring

/-- One column of the second loop of `sub_big` keeps the invariant. -/
theorem sub_step2_inv (a : Bigint) (off t : Nat) (B : Int) (s : Digits × Digits)
    (ha : wellFormed a) (hj : off + t < a.n)
    (h : subInv a (off + t) B s) :
    subInv a (off + (t + 1)) B (sub_step2 off t s) := by
  obtain ⟨β, hβ, h1, h2, h3, h4⟩ := h
  have hjm : off + t < MAX_DIGITS := lt_of_lt_of_le hj ha.2.1
  have haj := ha.2.2 _ hj
  have h1 := h1 hj
  have hp : (10 : Int) ^ (off + t + 1) = 10 * 10 ^ (off + t) := by rw [pow_succ]; ring
  rw [sub_step2_eq, ← add_assoc]
  by_cases hc : s.1.get (off + t) < 0
  · rw [if_pos hc]
    have e1 : (store s.1 (off + t) (s.1.get (off + t) + 10)).get (off + t + 1)
        = s.1.get (off + t + 1) := get_store_ne _ _ _ _ (by omega)
    have e2 : (store (store s.1 (off + t) (s.1.get (off + t) + 10)) (off + t + 1)
        ((store s.1 (off + t) (s.1.get (off + t) + 10)).get (off + t + 1) - 1)).get (off + t)
        = s.1.get (off + t) + 10 := by
      rw [get_store_ne _ _ _ _ (by omega), get_store_same _ _ _ hjm]
    rw [e2, e1]
    refine ⟨1, Or.inr rfl, fun hj1 => ?_, fun k hk => ?_, ?_, ?_⟩
    · show (store _ (off + t + 1) (s.1.get (off + t + 1) - 1)).get (off + t + 1) = _
      rw [get_store_same _ _ _ (lt_of_lt_of_le hj1 ha.2.1), h2 _ (by omega)]
    · show (store (store s.1 (off + t) _) (off + t + 1) _).get k = _
      rw [get_store_ne _ _ _ _ (by omega), get_store_ne _ _ _ _ (by omega)]
      exact h2 k (by omega)
    · exact digitsOk_store _ _ _ h3 hjm (by rcases hβ with r | r <;> omega)
    · show digitsVal (store s.2 (off + t) (s.1.get (off + t) + 10)) (off + t + 1) = _
      rw [digitsVal_store_top _ _ _ hjm, h4, h1, digitsVal_succ, hp]
      ring
  · rw [if_neg hc]
    refine ⟨0, Or.inl rfl, fun _ => ?_, fun k hk => ?_, ?_, ?_⟩
    · show s.1.get (off + t + 1) = _
      rw [h2 _ (by omega)]; ring
    · exact h2 k (by omega)
    · exact digitsOk_store _ _ _ h3 hjm (by rcases hβ with r | r <;> omega)
    · show digitsVal (store s.2 (off + t) (s.1.get (off + t))) (off + t + 1) = _
      rw [digitsVal_store_top _ _ _ hjm, h4, h1, digitsVal_succ]
      ring

theorem sub_loop1_inv (u : Digits) (a b : Bigint) (ha : wellFormed a) (hb : wellFormed b)
    (hba : b.n ≤ a.n) (j : Nat) (hj : j ≤ b.n) :
    subInv a j (digitsVal b.digits j) (forUp (sub_step1 b) j (a.digits, u)) := by
  induction j with
  | zero =>
    refine ⟨0, Or.inl rfl, fun _ => ?_, fun k _ => rfl, fun k hk => by omega, ?_⟩
    · show a.digits.get 0 = _
      ring
    · simp [forUp, digitsVal]
  | succ j ih =>
    rw [forUp_succ]
    exact sub_step1_inv a b j _ ha hb (by omega) hba (ih (by omega))

theorem sub_loop2_inv (a : Bigint) (off : Nat) (B : Int) (s : Digits × Digits)
    (ha : wellFormed a) (h : subInv a off B s) (t : Nat) (ht : off + t ≤ a.n) :
    subInv a (off + t) B (forUp (sub_step2 off) t s) := by
  induction t with
  | zero => exact h
  | succ t ih =>
    rw [forUp_succ]
    exact sub_step2_inv a off t B _ ha (by omega) (ih (by omega))

theorem sub_big_eq (u : Digits) (a b : Bigint) :
    sub_big u a b = compress (Bigint.mk a.n
      (forUp (sub_step2 b.n) (a.n - b.n) (forUp (sub_step1 b) b.n (a.digits, u))).2) := rfl

/-- Functional correctness and invariants of `sub_big` when `b.n ≤ a.n`. -/
theorem sub_big_spec_of_le (u : Digits) (a b : Bigint) (ha : wellFormed a)
    (hb : wellFormed b) (hba : b.n ≤ a.n) (hv : value b ≤ value a) :
    wellFormed (sub_big u a b) ∧ normalised (sub_big u a b) ∧
    value (sub_big u a b) = value a - value b := by
  have h1 := sub_loop1_inv u a b ha hb hba b.n (le_refl _)
  have h2 := sub_loop2_inv a b.n _ _ ha h1 (a.n - b.n) (by omega)
  have e : b.n + (a.n - b.n) = a.n := by omega
  rw [e] at h2
  obtain ⟨β, hβ, -, -, h3, h4⟩ := h2
  rw [sub_big_eq]
  generalize (forUp (sub_step2 b.n) (a.n - b.n) (forUp (sub_step1 b) b.n (a.digits, u))).2 = c
    at h3 h4
  have hlt := digitsVal_lt c a.n (fun i hi => (h3 i hi).2)
  have hA := value_lt a ha
  have hB := value_nonneg b hb
  unfold value at hA hB hv
  have hβ0 : β = 0 := by
    rcases hβ with r | r
    · exact r
    · rw [r] at h4
      linarith
  rw [hβ0] at h4
  refine ⟨compress_wellFormed _ ha.1 ha.2.1 h3, compress_normalised _, ?_⟩
  rw [compress_value]
  unfold value
  show digitsVal c a.n = _
  rw [h4]
  ring

/-- Functional correctness and invariants of `sub_big` on normalised arguments. -/
theorem sub_big_spec (u : Digits) (a b : Bigint) (ha : wellFormed a)
    (hb : wellFormed b) (hbn : normalised b) (hv : value b ≤ value a) :
    wellFormed (sub_big u a b) ∧ normalised (sub_big u a b) ∧
    value (sub_big u a b) = value a - value b :=
  sub_big_spec_of_le u a b ha hb (n_le_of_value_le b a hb hbn ha hv) hv

/-- A well-formed, normalised number of value 0 is the one-digit zero. -/
theorem zero_of_value_eq_zero (x : Bigint) (h : wellFormed x) (hn : normalised x)
    (hv : value x = 0) : x.n = 1 ∧ x.digits.get 0 = 0 := by
  have h1 : x.n = 1 := by
    have := n_le_of_value_lt x h hn 1 (le_refl _) (by rw [hv]; norm_num)
    have := h.1
    omega
  refine ⟨h1, ?_⟩
  unfold value at hv
  rw [h1] at hv
  simpa [digitsVal] using hv

/-! ## shift_right -/

theorem shift_right_loop_get (n : Nat) : ∀ (d : Digits), n < MAX_DIGITS → ∀ k,
    (shift_right_loop n d).get k = if 1 ≤ k ∧ k ≤ n then d.get (k - 1) else d.get k := by
  induction n with
  | zero =>
    intro d _ k
    have e : shift_right_loop 0 d = d := rfl
    rw [e, if_neg (by omega)]
  | succ i ih =>
    intro d hi k
    have e : shift_right_loop (i + 1) d = shift_right_loop i (store d (i + 1) (d.get i)) := rfl
    rw [e, ih _ (by omega) k]
    by_cases h1 : 1 ≤ k ∧ k ≤ i
    · rw [if_pos h1, if_pos ⟨h1.1, by omega⟩, get_store_ne _ _ _ _ (by omega)]
    · rw [if_neg h1]
      by_cases h2 : k = i + 1
      · subst h2
        rw [if_pos ⟨by omega, le_refl _⟩, get_store_same _ _ _ hi]
        rfl
      · rw [if_neg (by omega), get_store_ne _ _ _ _ h2]

theorem shift_right_n (a : Bigint) : (shift_right a).n = a.n + 1 := rfl

theorem shift_right_get_zero (a : Bigint) : (shift_right a).digits.get 0 = 0 :=
  get_store_same _ _ _ (by decide)

theorem shift_right_get_succ (a : Bigint) (ha : a.n < MAX_DIGITS) (k : Nat) (hk : k < a.n) :
    (shift_right a).digits.get (k + 1) = a.digits.get k := by
  show (store (shift_right_loop a.n a.digits) 0 0).get (k + 1) = _
  rw [get_store_ne _ _ _ _ (by omega), shift_right_loop_get a.n a.digits ha,
    if_pos ⟨by omega, by omega⟩]
  rfl

theorem digitsVal_shift (d e : Digits) (m : Nat) (h0 : e.get 0 = 0)
    (h : ∀ k, k < m → e.get (k + 1) = d.get k) :
    digitsVal e (m + 1) = 10 * digitsVal d m := by
  induction m with
  | zero => simp [digitsVal, h0]
  | succ m ih =>
    rw [digitsVal_succ, ih (fun k hk => h k (by omega)), h m (by omega), digitsVal_succ,
      pow_succ]
    ring

theorem shift_right_value (a : Bigint) (ha : a.n < MAX_DIGITS) :
    value (shift_right a) = 10 * value a :=
  digitsVal_shift a.digits (shift_right a).digits a.n (shift_right_get_zero a)
    (shift_right_get_succ a ha)

theorem shift_right_wellFormed (a : Bigint) (ha : wellFormed a) (hn : a.n < MAX_DIGITS) :
    wellFormed (shift_right a) := by
  refine ⟨by rw [shift_right_n]; omega, by rw [shift_right_n]; omega, fun i hi => ?_⟩
  rw [shift_right_n] at hi
  cases i with
  | zero => rw [shift_right_get_zero]; norm_num
  | succ k =>
    rw [shift_right_get_succ a hn k (by omega)]
    exact ha.2.2 k (by omega)

/-- The high-order digit of a normalised number with a positive value is not 0. -/
theorem top_ne_zero (a : Bigint) (ha : wellFormed a) (han : normalised a)
    (hv : 0 < value a) : a.digits.get (a.n - 1) ≠ 0 := by
  by_cases h1 : 1 < a.n
  · exact han h1
  · have h2 : a.n = 1 := by have := ha.1; omega
    intro h0
    unfold value at hv
    rw [h2] at hv h0
    simp [digitsVal] at hv h0
    omega

theorem shift_right_normalised (a : Bigint) (ha : wellFormed a) (han : normalised a)
    (hv : 0 < value a) (hn : a.n < MAX_DIGITS) : normalised (shift_right a) := by
  intro _
  have h1 := ha.1
  have e : (shift_right a).n - 1 = (a.n - 1) + 1 := by rw [shift_right_n]; omega
  rw [e, shift_right_get_succ a hn (a.n - 1) (by omega)]
  exact top_ne_zero a ha han hv

/-! ## shift_left -/

theorem shift_left_loop_get (d : Digits) (m : Nat) (hm : m ≤ MAX_DIGITS) : ∀ k,
    (forUp (fun i d => store d i (d.get (i + 1))) m d).get k =
      if k < m then d.get (k + 1) else d.get k := by
  induction m with
  | zero =>
    intro k
    rw [forUp_zero, if_neg (by omega)]
  | succ m ih =>
    intro k
    rw [forUp_succ]
    show (store _ m ((forUp (fun i d => store d i (d.get (i + 1))) m d).get (m + 1))).get k = _
    have e1 : (forUp (fun i d => store d i (d.get (i + 1))) m d).get (m + 1) = d.get (m + 1) := by
      rw [ih (by omega) (m + 1), if_neg (by omega)]
    by_cases h : k = m
    · subst h
      rw [get_store_same _ _ _ (by omega), e1, if_pos (by omega)]
    · rw [get_store_ne _ _ _ _ h, ih (by omega) k]
      by_cases h2 : k < m
      · rw [if_pos h2, if_pos (by omega)]
      · rw [if_neg h2, if_neg (by omega)]

theorem shift_left_eq (a : Bigint) (h : a.n ≠ 0) :
    shift_left a = Bigint.mk (a.n - 1)
      (store (forUp (fun i d => store d i (d.get (i + 1))) (a.n - 1) a.digits) (a.n - 1) 0) := by
  unfold shift_left
  rw [if_neg h]

theorem shift_left_n (a : Bigint) : (shift_left a).n = a.n - 1 := by
  by_cases h : a.n = 0
  · unfold shift_left
    rw [if_pos h, h]
  · rw [shift_left_eq a h]

theorem shift_left_get (a : Bigint) (h1 : 1 ≤ a.n) (h2 : a.n ≤ MAX_DIGITS) (k : Nat)
    (hk : k < a.n - 1) : (shift_left a).digits.get k = a.digits.get (k + 1) := by
  rw [shift_left_eq a (by omega)]
  show (store _ (a.n - 1) 0).get k = _
  rw [get_store_ne _ _ _ _ (by omega), shift_left_loop_get _ _ (by omega), if_pos hk]

theorem shift_left_get_top (a : Bigint) (h1 : 1 ≤ a.n) (h2 : a.n ≤ MAX_DIGITS) :
    (shift_left a).digits.get (a.n - 1) = 0 := by
  rw [shift_left_eq a (by omega)]
  exact get_store_same _ _ _ (by omega)

theorem digitsVal_shift_down (d e : Digits) (m : Nat)
    (h : ∀ k, k < m → e.get k = d.get (k + 1)) :
    digitsVal d (m + 1) = 10 * digitsVal e m + d.get 0 := by
  induction m with
  | zero => simp [digitsVal]
  | succ m ih =>
    rw [digitsVal_succ, ih (fun k hk => h k (by omega)), digitsVal_succ, h m (by omega),
      pow_succ]
    ring

/-- The number `shift_left` leaves when the argument has at least two digits. -/
theorem shift_left_spec (a : Bigint) (ha : wellFormed a) (h2 : 2 ≤ a.n) :
    wellFormed (shift_left a) ∧ (normalised a → normalised (shift_left a)) ∧
    value a = 10 * value (shift_left a) + a.digits.get 0 := by
  have hn := shift_left_n a
  have hg := shift_left_get a ha.1 ha.2.1
  refine ⟨⟨by omega, by have := ha.2.1; omega, fun i hi => ?_⟩, fun han _ => ?_, ?_⟩
  · rw [hn] at hi
    rw [hg i hi]
    exact ha.2.2 _ (by omega)
  · have e : (shift_left a).n - 1 = a.n - 2 := by omega
    rw [e, hg _ (by omega)]
    have e2 : a.n - 2 + 1 = a.n - 1 := by omega
    rw [e2]
    exact han (by omega)
  · unfold value
    rw [hn]
    have e : a.n = (a.n - 1) + 1 := by omega
    rw [e]
    exact digitsVal_shift_down a.digits (shift_left a).digits (a.n - 1) hg

/-- Dividing a multiple of ten: `shift_left` of a number of value `10 * V`. -/
theorem shift_left_value_of_mul (a : Bigint) (ha : wellFormed a) (h2 : 2 ≤ a.n) (V : Int)
    (hV : value a = 10 * V) : value (shift_left a) = V := by
  have h := (shift_left_spec a ha h2).2.2
  have h0 := ha.2.2 0 (by omega)
  omega

/-! ## mod_big -/

theorem cmp_eq_one_iff (x y : Int) : cmp x y = 1 ↔ y < x := by
  unfold cmp
  by_cases h1 : x < y
  · rw [if_pos h1]
    exact ⟨fun h => absurd h (by decide), fun h => by omega⟩
  · rw [if_neg h1]
    by_cases h2 : x = y
    · rw [if_pos h2]
      exact ⟨fun h => absurd h (by decide), fun h => by omega⟩
    · rw [if_neg h2]
      exact ⟨fun _ => by omega, fun _ => rfl⟩

theorem cmp_ne_neg_one_iff (x y : Int) : cmp x y ≠ -1 ↔ y ≤ x := by
  unfold cmp
  by_cases h1 : x < y
  · rw [if_pos h1]
    exact ⟨fun h => absurd rfl h, fun h => by omega⟩
  · rw [if_neg h1]
    by_cases h2 : x = y
    · rw [if_pos h2]
      exact ⟨fun _ => by omega, fun _ => by decide⟩
    · rw [if_neg h2]
      exact ⟨fun _ => by omega, fun _ => by decide⟩

theorem cmp_eq_zero_iff (x y : Int) : cmp x y = 0 ↔ x = y := by
  unfold cmp
  by_cases h1 : x < y
  · rw [if_pos h1]
    exact ⟨fun h => absurd h (by decide), fun h => by omega⟩
  · rw [if_neg h1]
    by_cases h2 : x = y
    · rw [if_pos h2]
      exact ⟨fun _ => h2, fun _ => rfl⟩
    · rw [if_neg h2]
      exact ⟨fun h => absurd h (by decide), fun h => absurd h h2⟩

theorem cmp_eq_neg_one_iff (x y : Int) : cmp x y = -1 ↔ x < y := by
  unfold cmp
  by_cases h1 : x < y
  · rw [if_pos h1]
    exact ⟨fun _ => h1, fun _ => rfl⟩
  · rw [if_neg h1]
    by_cases h2 : x = y
    · rw [if_pos h2]
      exact ⟨fun h => absurd h (by decide), fun h => absurd h h1⟩
    · rw [if_neg h2]
      exact ⟨fun h => absurd h (by decide), fun h => absurd h h1⟩

theorem mod_scale_succ (fuel : Nat) (a b : Bigint) :
    mod_scale (fuel + 1) a b =
      if compare_big a b = 1 then mod_scale fuel a (shift_right b) else some b := rfl

/-- The scaling loop of `mod_big` stops at the first `b * 10^k` not below `a`,
provided that number fits the array. -/
theorem mod_scale_spec (a : Bigint) (ha : wellFormed a) (han : normalised a)
    (fuel : Nat) : ∀ b : Bigint, wellFormed b → normalised b →
    0 < value b → value a ≤ value b * 10 ^ (MAX_DIGITS - b.n) →
    1 ≤ fuel → a.n + 2 ≤ fuel + b.n →
    ∃ b1 k, mod_scale fuel a b = some b1 ∧ wellFormed b1 ∧ normalised b1 ∧
      value b1 = value b * 10 ^ k ∧ b1.n = b.n + k ∧ value a ≤ value b1 ∧
      (k = 0 ∨ value b * 10 ^ (k - 1) < value a) := by
  induction fuel with
  | zero => intro b _ _ _ _ h; omega
  | succ fuel ih =>
    intro b hb hbn hv hcap _ hf
    rw [mod_scale_succ, compare_big_eq_cmp a b ha han hb hbn]
    by_cases hc : cmp (value a) (value b) = 1
    · rw [if_pos hc]
      have hlt := (cmp_eq_one_iff _ _).1 hc
      have hn : b.n ≤ a.n := n_le_of_value_le b a hb hbn ha (le_of_lt hlt)
      have hbm : b.n < MAX_DIGITS := by
        by_contra hge
        have e : MAX_DIGITS - b.n = 0 := by omega
        rw [e] at hcap
        simp at hcap
        omega
      have hsv := shift_right_value b hbm
      have hcap2 : value a ≤ value (shift_right b) * 10 ^ (MAX_DIGITS - (shift_right b).n) := by
        have e : MAX_DIGITS - b.n = (MAX_DIGITS - (b.n + 1)) + 1 := by omega
        rw [e, pow_succ] at hcap
        rw [hsv, shift_right_n]
        linarith
      obtain ⟨b1, k, h1, h2, h3, h4, h5, h6, h7⟩ :=
        ih (shift_right b) (shift_right_wellFormed b hb hbm)
          (shift_right_normalised b hb hbn hv hbm) (by rw [hsv]; omega) hcap2 (by omega)
          (by rw [shift_right_n]; omega)
      refine ⟨b1, k + 1, h1, h2, h3, ?_, ?_, h6, Or.inr ?_⟩
      · rw [h4, hsv, pow_succ]; ring
      · rw [h5, shift_right_n]; omega
      · rcases Nat.eq_zero_or_pos k with hk | hk
        · subst hk
          simpa using hlt
        · rcases h7 with r | r
          · omega
          · have e : k + 1 - 1 = (k - 1) + 1 := by omega
            rw [e, pow_succ]
            rw [hsv] at r
            linarith
    · rw [if_neg hc]
      refine ⟨b, 0, rfl, hb, hbn, by simp, rfl, ?_, Or.inl rfl⟩
      by_contra hlt
      exact hc ((cmp_eq_one_iff _ _).2 (by omega))

theorem mod_inner_succ (u : Digits) (fuel : Nat) (a b : Bigint) :
    mod_inner u (fuel + 1) a b =
      if compare_big a b ≠ -1 then mod_inner u fuel (sub_big u a b) b else some a := rfl

/-- The subtraction loop of `mod_big` leaves the remainder of `a` by `b`. -/
theorem mod_inner_spec (u : Digits) (b : Bigint) (hb : wellFormed b) (hbn : normalised b)
    (fuel : Nat) : ∀ a : Bigint, wellFormed a → normalised a →
    value a < fuel * value b →
    ∃ r, mod_inner u fuel a b = some r ∧ wellFormed r ∧ normalised r ∧
      value r = value a % value b ∧ value r < value b := by
  induction fuel with
  | zero =>
    intro a ha _ h
    have := value_nonneg a ha
    simp at h
    omega
  | succ fuel ih =>
    intro a ha han hf
    rw [mod_inner_succ, compare_big_eq_cmp a b ha han hb hbn]
    by_cases hc : cmp (value a) (value b) ≠ -1
    · rw [if_pos hc]
      have hle := (cmp_ne_neg_one_iff _ _).1 hc
      obtain ⟨s1, s2, s3⟩ := sub_big_spec u a b ha hb hbn hle
      have hf2 : value (sub_big u a b) < fuel * value b := by
        rw [s3]
        push_cast at hf
        linarith
      obtain ⟨r, r1, r2, r3, r4, r5⟩ := ih (sub_big u a b) s1 s2 hf2
      refine ⟨r, r1, r2, r3, ?_, r5⟩
      rw [r4, s3]
      exact Int.emod_sub_cancel _ _
    · rw [if_neg hc]
      have hlt : value a < value b := by
        by_contra h
        exact hc ((cmp_ne_neg_one_iff _ _).2 (by omega))
      refine ⟨a, rfl, ha, han, ?_, hlt⟩
      exact (Int.emod_eq_of_lt (value_nonneg a ha) hlt).symm

theorem mod_outer_succ (u : Digits) (lim : Nat) (ob : Bigint) (fuel : Nat) (a b : Bigint) :
    mod_outer u lim ob (fuel + 1) a b =
      if compare_big b ob ≠ -1 then
        match mod_inner u lim a b with
        | none => none
        | some a1 => mod_outer u lim ob fuel a1 (shift_left b)
      else some a := rfl

/-- With `b` shorter than `ob` the outer loop of `mod_big` is not entered. -/
theorem mod_outer_exit (u : Digits) (lim : Nat) (ob : Bigint) (fuel : Nat) (a b : Bigint)
    (hf : 1 ≤ fuel) (hn : b.n < ob.n) : mod_outer u lim ob fuel a b = some a := by
  obtain ⟨f1, rfl⟩ : ∃ f1, fuel = f1 + 1 := ⟨fuel - 1, by omega⟩
  have hc : compare_big b ob = -1 := by
    unfold compare_big
    rw [if_pos hn]
  rw [mod_outer_succ, hc, if_neg (by decide)]

/-- The outer loop of `mod_big`, entered with `b = ob * 10^j`, leaves the
remainder of `a` by `ob`. -/
theorem mod_outer_spec (u : Digits) (lim : Nat) (hlim : 11 ≤ lim) (ob : Bigint)
    (hob : wellFormed ob) (hobn : normalised ob) (hv : 0 < value ob) (j : Nat) :
    ∀ (fuel : Nat) (a b : Bigint), j + 2 ≤ fuel → wellFormed a → normalised a →
    wellFormed b → normalised b → value b = value ob * 10 ^ j → b.n = ob.n + j →
    value a ≤ 10 * value b →
    ∃ r, mod_outer u lim ob fuel a b = some r ∧ wellFormed r ∧ normalised r ∧
      value r = value a % value ob ∧ value r < value ob := by
  induction j with
  | zero =>
    intro fuel a b hf ha han hb hbn hbv hbl hab
    obtain ⟨f1, rfl⟩ : ∃ f1, fuel = f1 + 1 := ⟨fuel - 1, by omega⟩
    have hbv0 : value b = value ob := by simpa using hbv
    rw [mod_outer_succ, compare_big_eq_cmp b ob hb hbn hob hobn,
      if_pos ((cmp_ne_neg_one_iff _ _).2 (by omega))]
    have hl : (11 : Int) ≤ lim := by exact_mod_cast hlim
    obtain ⟨r, r1, r2, r3, r4, r5⟩ :=
      mod_inner_spec u b hb hbn lim a ha han (by nlinarith)
    rw [r1]
    refine ⟨r, ?_, r2, r3, by rw [r4, hbv0], by rw [← hbv0]; exact r5⟩
    exact mod_outer_exit u lim ob f1 r (shift_left b) (by omega)
      (by rw [shift_left_n]; have := hob.1; omega)
  | succ j ih =>
    intro fuel a b hf ha han hb hbn hbv hbl hab
    obtain ⟨f1, rfl⟩ : ∃ f1, fuel = f1 + 1 := ⟨fuel - 1, by omega⟩
    have hp : (0 : Int) < 10 ^ j := by positivity
    have hbpos : 0 < value b := by rw [hbv]; positivity
    have hge : value ob ≤ value b := by
      rw [hbv, pow_succ]
      nlinarith
    rw [mod_outer_succ, compare_big_eq_cmp b ob hb hbn hob hobn,
      if_pos ((cmp_ne_neg_one_iff _ _).2 hge)]
    have hl : (11 : Int) ≤ lim := by exact_mod_cast hlim
    obtain ⟨r, r1, r2, r3, r4, r5⟩ :=
      mod_inner_spec u b hb hbn lim a ha han (by nlinarith)
    rw [r1]
    have hb2 : 2 ≤ b.n := by have := hob.1; omega
    obtain ⟨s1, s2, _⟩ := shift_left_spec b hb hb2
    have s3 : value (shift_left b) = value ob * 10 ^ j :=
      shift_left_value_of_mul b hb hb2 _ (by rw [hbv, pow_succ]; ring)
    obtain ⟨q, q1, q2, q3, q4, q5⟩ := ih f1 r (shift_left b) (by omega) r2 r3 s1 (s2 hbn) s3
      (by rw [shift_left_n]; omega)
      (by rw [s3]; rw [hbv, pow_succ] at r5; linarith)
    refine ⟨q, q1, q2, q3, ?_, q5⟩
    rw [q4, r4]
    exact Int.emod_emod_of_dvd _ (by rw [hbv]; exact Dvd.intro _ rfl)

theorem mod_big_eq (u : Digits) (fuel : Nat) (a b : Bigint) :
    mod_big u fuel a b =
      match mod_scale fuel a b with
      | none => none
      | some b1 => mod_outer u fuel b fuel a (shift_left b1) := rfl

/-- What `mod_big` returns on well-formed, normalised arguments with `b > 0`:
the remainder of `a` by `b`, except that `a` itself is returned when `a = b`. -/
theorem mod_big_spec_gen (u : Digits) (a b : Bigint) (ha : wellFormed a)
    (han : normalised a) (hb : wellFormed b) (hbn : normalised b) (hv : 0 < value b)
    (hcap : value a ≤ value b * 10 ^ (MAX_DIGITS - b.n))
    (fuel : Nat) (hf : a.n + 12 ≤ fuel) :
    ∃ r, mod_big u fuel a b = some r ∧ wellFormed r ∧ normalised r ∧
      value r = modv (value a) (value b) := by
  obtain ⟨b1, k, h1, h2, h3, h4, h5, h6, h7⟩ :=
    mod_scale_spec a ha han fuel b hb hbn hv hcap (by omega) (by omega)
  rw [mod_big_eq, h1]
  show ∃ r, mod_outer u fuel b fuel a (shift_left b1) = some r ∧ _
  rcases Nat.eq_zero_or_pos k with hk | hk
  · subst hk
    have hle : value a ≤ value b := by simpa [h4] using h6
    refine ⟨a, mod_outer_exit u fuel b fuel a (shift_left b1) (by omega)
      (by rw [shift_left_n]; have := hb.1; omega), ha, han, ?_⟩
    unfold modv
    by_cases he : value a = value b
    · rw [if_pos he]
    · rw [if_neg he]
      exact (Int.emod_eq_of_lt (value_nonneg a ha) (by omega)).symm
  · have h7 : value b * 10 ^ (k - 1) < value a := by
      rcases h7 with r | r
      · omega
      · exact r
    have e : k = (k - 1) + 1 := by omega
    have hp : (0 : Int) < 10 ^ (k - 1) := by positivity
    have hb2 : 2 ≤ b1.n := by have := hb.1; omega
    obtain ⟨s1, s2, _⟩ := shift_left_spec b1 h2 hb2
    have s3 : value (shift_left b1) = value b * 10 ^ (k - 1) :=
      shift_left_value_of_mul b1 h2 hb2 _ (by rw [h4]; nth_rewrite 1 [e]; rw [pow_succ]; ring)
    have s4 : (shift_left b1).n = b.n + (k - 1) := by rw [shift_left_n]; omega
    have hkn : (shift_left b1).n ≤ a.n :=
      n_le_of_value_le _ a s1 (s2 h3) ha (by rw [s3]; exact le_of_lt h7)
    obtain ⟨q, q1, q2, q3, q4, _⟩ := mod_outer_spec u fuel (by omega) b hb hbn hv (k - 1)
      fuel a (shift_left b1) (by have := hb.1; omega) ha han s1 (s2 h3) s3 s4
      (by rw [s3]; rw [h4] at h6; nth_rewrite 1 [e] at h6; rw [pow_succ] at h6; linarith)
    refine ⟨q, q1, q2, q3, ?_⟩
    have hne : value a ≠ value b := by
      intro he
      rw [he] at h7
      nlinarith
    unfold modv
    rw [if_neg hne, q4]

/-- A number shorter than the array is below every positive `b` scaled to the
full length of the array. -/
theorem scaled_fits_of_lt (a b : Bigint) (ha : wellFormed a) (hb : wellFormed b)
    (hbn : normalised b) (hv : 0 < value b) (hcap : a.n < MAX_DIGITS) :
    value a ≤ value b * 10 ^ (MAX_DIGITS - b.n) := by
  have h1 := value_lt a ha
  have h2 : (10 : Int) ^ a.n ≤ 10 ^ (MAX_DIGITS - 1) :=
    pow_le_pow_right₀ (by norm_num) (by omega)
  have h3 : (10 : Int) ^ (b.n - 1) ≤ value b := by
    by_cases h : 1 < b.n
    · exact value_ge b hb hbn h
    · have e : b.n - 1 = 0 := by omega
      rw [e]
      simp
      omega
  have h4 : (10 : Int) ^ (MAX_DIGITS - 1) = 10 ^ (b.n - 1) * 10 ^ (MAX_DIGITS - b.n) := by
    rw [← pow_add]
    congr 1
    have := hb.1
    have := hb.2.1
    omega
  have h5 : (0 : Int) < 10 ^ (MAX_DIGITS - b.n) := by positivity
  nlinarith

theorem mod_big_spec (u : Digits) (a b : Bigint) (ha : wellFormed a) (han : normalised a)
    (hb : wellFormed b) (hbn : normalised b) (hv : 0 < value b) (hcap : a.n < MAX_DIGITS)
    (fuel : Nat) (hf : a.n + 12 ≤ fuel) :
    ∃ r, mod_big u fuel a b = some r ∧ wellFormed r ∧ normalised r ∧
      value r = modv (value a) (value b) :=
  mod_big_spec_gen u a b ha han hb hbn hv (scaled_fits_of_lt a b ha hb hbn hv hcap) fuel hf

/-- When the first test of the scaling loop fails, `mod_big` returns `a` itself. -/
theorem mod_big_of_not_gt (u : Digits) (fuel : Nat) (a b : Bigint)
    (h1 : compare_big a b ≠ 1) (hn : 1 ≤ b.n) : mod_big u (fuel + 1) a b = some a := by
  rw [mod_big_eq, mod_scale_succ, if_neg h1]
  exact mod_outer_exit u (fuel + 1) b (fuel + 1) a (shift_left b) (by omega)
    (by rw [shift_left_n]; omega)

/-! ### More fuel does not change the result -/

theorem mod_scale_mono (fuel : Nat) : ∀ (a b r : Bigint) (fuel2 : Nat),
    mod_scale fuel a b = some r → fuel ≤ fuel2 → mod_scale fuel2 a b = some r := by
  induction fuel with
  | zero =>
    intro a b r fuel2 h _
    exact absurd h (by simp [mod_scale])
  | succ fuel ih =>
    intro a b r fuel2 h hle
    obtain ⟨f2, rfl⟩ : ∃ f2, fuel2 = f2 + 1 := ⟨fuel2 - 1, by omega⟩
    rw [mod_scale_succ] at h ⊢
    by_cases hc : compare_big a b = 1
    · rw [if_pos hc] at h ⊢
      exact ih a (shift_right b) r f2 h (by omega)
    · rw [if_neg hc] at h ⊢
      exact h

theorem mod_inner_mono (u : Digits) (fuel : Nat) : ∀ (a b r : Bigint) (fuel2 : Nat),
    mod_inner u fuel a b = some r → fuel ≤ fuel2 → mod_inner u fuel2 a b = some r := by
  induction fuel with
  | zero =>
    intro a b r fuel2 h _
    exact absurd h (by simp [mod_inner])
  | succ fuel ih =>
    intro a b r fuel2 h hle
    obtain ⟨f2, rfl⟩ : ∃ f2, fuel2 = f2 + 1 := ⟨fuel2 - 1, by omega⟩
    rw [mod_inner_succ] at h ⊢
    by_cases hc : compare_big a b ≠ -1
    · rw [if_pos hc] at h ⊢
      exact ih (sub_big u a b) b r f2 h (by omega)
    · rw [if_neg hc] at h ⊢
      exact h

theorem mod_outer_mono (u : Digits) (lim lim2 : Nat) (hlim : lim ≤ lim2) (ob : Bigint)
    (fuel : Nat) : ∀ (a b r : Bigint) (fuel2 : Nat),
    mod_outer u lim ob fuel a b = some r → fuel ≤ fuel2 →
    mod_outer u lim2 ob fuel2 a b = some r := by
  induction fuel with
  | zero =>
    intro a b r fuel2 h _
    exact absurd h (by simp [mod_outer])
  | succ fuel ih =>
    intro a b r fuel2 h hle
    obtain ⟨f2, rfl⟩ : ∃ f2, fuel2 = f2 + 1 := ⟨fuel2 - 1, by omega⟩
    rw [mod_outer_succ] at h ⊢
    by_cases hc : compare_big b ob ≠ -1
    · rw [if_pos hc] at h ⊢
      cases hi : mod_inner u lim a b with
      | none => rw [hi] at h; exact absurd h (by simp)
      | some a1 =>
        rw [hi] at h
        rw [mod_inner_mono u lim a b a1 lim2 hi hlim]
        exact ih a1 (shift_left b) r f2 h (by omega)
    · rw [if_neg hc] at h ⊢
      exact h

theorem mod_big_mono (u : Digits) (fuel fuel2 : Nat) (a b r : Bigint)
    (h : mod_big u fuel a b = some r) (hle : fuel ≤ fuel2) :
    mod_big u fuel2 a b = some r := by
  rw [mod_big_eq] at h ⊢
  cases hs : mod_scale fuel a b with
  | none => rw [hs] at h; exact absurd h (by simp)
  | some b1 =>
    rw [hs] at h
    rw [mod_scale_mono fuel a b b1 fuel2 hs hle]
    exact mod_outer_mono u fuel fuel2 hle b fuel a (shift_left b1) r fuel2 h hle

/-! ## digit_to_big -/

theorem digit_to_big_n (u : Digits) (d : Int) : (digit_to_big u d).n = 1 := rfl

theorem digit_to_big_get (u : Digits) (d : Int) : (digit_to_big u d).digits.get 0 = d :=
  get_store_same _ _ _ (by decide)

theorem digit_to_big_value (u : Digits) (d : Int) : value (digit_to_big u d) = d := by
  unfold value
  rw [digit_to_big_n]
  simp [digitsVal, digit_to_big_get]

theorem digit_to_big_wellFormed (u : Digits) (d : Int) (h0 : 0 ≤ d) (h9 : d ≤ 9) :
    wellFormed (digit_to_big u d) := by
  refine ⟨le_refl _, (by decide : 1 ≤ MAX_DIGITS), fun i hi => ?_⟩
  rw [digit_to_big_n] at hi
  have : i = 0 := by omega
  subst this
  rw [digit_to_big_get]
  exact ⟨h0, h9⟩

theorem digit_to_big_normalised (u : Digits) (d : Int) : normalised (digit_to_big u d) := by
  intro h
  rw [digit_to_big_n] at h
  omega

/-! ## pow_big -/

theorem pow_big_one (u : Digits) (a : Bigint) : pow_big u a 1 = a := rfl

theorem pow_big_succ (u : Digits) (a : Bigint) (p : Nat) (hp : 1 ≤ p) :
    pow_big u a (p + 1) = mult_big u (pow_big u a p) a := by
  obtain ⟨q, rfl⟩ : ∃ q, p = q + 1 := ⟨p - 1, by omega⟩
  rfl

/-- Correctness of `pow_big` when every product formed on the way is allocated
within the capacity. -/
theorem pow_big_spec (u : Digits) (a : Bigint) (ha : wellFormed a) (p : Nat) (hp : 1 ≤ p)
    (hcap : ∀ k, 1 ≤ k → k < p → (pow_big u a k).n + a.n ≤ MAX_DIGITS) :
    wellFormed (pow_big u a p) ∧ (normalised a → normalised (pow_big u a p)) ∧
    value (pow_big u a p) = value a ^ p := by
  induction p with
  | zero => omega
  | succ p ih =>
    rcases Nat.eq_zero_or_pos p with h0 | h0
    · subst h0
      rw [pow_big_one]
      exact ⟨ha, fun h => h, by simp⟩
    · obtain ⟨h1, _, h3⟩ := ih h0 (fun k hk1 hk2 => hcap k hk1 (by omega))
      rw [pow_big_succ u a p h0]
      obtain ⟨m1, m2, m3⟩ := mult_big_spec u (pow_big u a p) a h1 ha (hcap p h0 (by omega))
      refine ⟨m1, fun _ => m2, ?_⟩
      rw [m3, h3, pow_succ]

/-- The powers of two built by `pow_big` while they stay below `10^(MAX_DIGITS - 1)`. -/
theorem pow_two_spec (u : Digits) (p : Nat) (hp : 1 ≤ p)
    (hcap : (2 : Int) ^ (p - 1) < 10 ^ (MAX_DIGITS - 1)) :
    wellFormed (pow_big u (digit_to_big u 2) p) ∧ normalised (pow_big u (digit_to_big u 2) p) ∧
    value (pow_big u (digit_to_big u 2) p) = 2 ^ p := by
  have hw := digit_to_big_wellFormed u 2 (by norm_num) (by norm_num)
  induction p with
  | zero => omega
  | succ p ih =>
    rcases Nat.eq_zero_or_pos p with h0 | h0
    · subst h0
      rw [pow_big_one]
      exact ⟨hw, digit_to_big_normalised u 2, by rw [digit_to_big_value]; norm_num⟩
    · have e : p + 1 - 1 = (p - 1) + 1 := by omega
      have hcap2 : (2 : Int) ^ (p - 1) < 10 ^ (MAX_DIGITS - 1) := by
        rw [e, pow_succ] at hcap
        have : (0 : Int) < 2 ^ (p - 1) := by positivity
        linarith
      obtain ⟨h1, h2, h3⟩ := ih h0 hcap2
      have hlt : value (pow_big u (digit_to_big u 2) p) < 10 ^ (MAX_DIGITS - 1) := by
        rw [h3]
        have e2 : p + 1 - 1 = p := by omega
        rw [e2] at hcap
        exact hcap
      have hn := n_le_of_value_lt _ h1 h2 (MAX_DIGITS - 1) (by decide) hlt
      rw [pow_big_succ u _ p h0]
      obtain ⟨m1, m2, m3⟩ := mult_big_spec u (pow_big u (digit_to_big u 2) p) (digit_to_big u 2)
        h1 hw (by rw [digit_to_big_n]; have : MAX_DIGITS = 350 := rfl; omega)
      refine ⟨m1, m2, ?_⟩
      rw [m3, h3, digit_to_big_value, pow_succ]

/-- The Mersenne number built by `LLT`: `sub_big(pow_big(two, p), one)`. -/
theorem mersenne_spec (u : Digits) (p : Nat) (hp : 1 ≤ p)
    (hcap : (2 : Int) ^ (p - 1) < 10 ^ (MAX_DIGITS - 1)) :
    wellFormed (sub_big u (pow_big u (digit_to_big u 2) p) (digit_to_big u 1)) ∧
    normalised (sub_big u (pow_big u (digit_to_big u 2) p) (digit_to_big u 1)) ∧
    value (sub_big u (pow_big u (digit_to_big u 2) p) (digit_to_big u 1)) = 2 ^ p - 1 := by
  obtain ⟨h1, _, h3⟩ := pow_two_spec u p hp hcap
  have hone := digit_to_big_wellFormed u 1 (by norm_num) (by norm_num)
  have hge : (1 : Int) ≤ 2 ^ p := one_le_pow₀ (by norm_num)
  obtain ⟨s1, s2, s3⟩ := sub_big_spec u _ (digit_to_big u 1) h1 hone
    (digit_to_big_normalised u 1) (by rw [digit_to_big_value, h3]; exact hge)
  refine ⟨s1, s2, ?_⟩
  rw [s3, h3, digit_to_big_value]

theorem sub_big_n_le (u : Digits) (a b : Bigint) : (sub_big u a b).n ≤ a.n := by
  rw [sub_big_eq]
  exact compress_n_le _

/-! ## LLT -/

theorem modv_le (x M : Int) (hM : 0 < M) : modv x M ≤ M := by
  unfold modv
  by_cases h : x = M
  · rw [if_pos h, h]
  · rw [if_neg h]
    exact le_of_lt (Int.emod_lt_of_pos x hM)

theorem LLT_loop_succ (u : Digits) (fuel : Nat) (two Mp : Bigint) (k : Nat) (s : Bigint) :
    LLT_loop u fuel two Mp (k + 1) s =
      match LLT_loop u fuel two Mp k s with
      | none => none
      | some s1 => mod_big u fuel (sub_big u (mult_big u s1 s1) two) Mp := rfl

theorem llt_iter_succ (M : Int) (k : Nat) (s : Int) :
    llt_iter M (k + 1) s =
      match llt_iter M k s with
      | none => none
      | some s1 => if 2 ≤ s1 * s1 then some (modv (s1 * s1 - 2) M) else none := rfl

/-- The loop of `LLT` follows `llt_iter` on the values, for numbers below `10^174`. -/
theorem LLT_loop_sim (u : Digits) (two Mp : Bigint) (M : Int)
    (hMw : wellFormed Mp) (hMn : normalised Mp) (hMv : value Mp = M) (hM0 : 0 < M)
    (hMc : M < 10 ^ 174)
    (htw : wellFormed two) (htn : normalised two) (htv : value two = 2)
    (fuel : Nat) (hf : MAX_DIGITS + 12 ≤ fuel)
    (s0 : Bigint) (hsw : wellFormed s0) (hsn : normalised s0) (hsc : value s0 < 10 ^ 174)
    (k : Nat) : ∀ r, llt_iter M k (value s0) = some r →
    ∃ s, LLT_loop u fuel two Mp k s0 = some s ∧ wellFormed s ∧ normalised s ∧
      value s = r ∧ r < 10 ^ 174 := by
  have hmax : MAX_DIGITS = 350 := rfl
  induction k with
  | zero =>
    intro r hr
    have e : llt_iter M 0 (value s0) = some (value s0) := rfl
    rw [e] at hr
    have hr2 : value s0 = r := Option.some.inj hr
    exact ⟨s0, rfl, hsw, hsn, hr2, by rw [← hr2]; exact hsc⟩
  | succ k ih =>
    intro r hr
    rw [llt_iter_succ] at hr
    cases h1 : llt_iter M k (value s0) with
    | none => rw [h1] at hr; exact absurd hr (by simp)
    | some r1 =>
      rw [h1] at hr
      simp only at hr
      by_cases h2 : 2 ≤ r1 * r1
      · rw [if_pos h2] at hr
        have hr2 : modv (r1 * r1 - 2) M = r := Option.some.inj hr
        obtain ⟨s1, q1, q2, q3, q4, q5⟩ := ih r1 h1
        rw [LLT_loop_succ, q1]
        have hn1 : s1.n ≤ 174 :=
          n_le_of_value_lt s1 q2 q3 174 (by norm_num) (by rw [q4]; exact q5)
        obtain ⟨m1, m2, m3⟩ := mult_big_spec u s1 s1 q2 q2 (by omega)
        have mn := mult_big_n_le u s1 s1
        obtain ⟨b1, b2, b3⟩ := sub_big_spec u (mult_big u s1 s1) two m1 htw htn
          (by rw [htv, m3, q4]; exact h2)
        have bn := sub_big_n_le u (mult_big u s1 s1) two
        obtain ⟨t, t1, t2, t3, t4⟩ := mod_big_spec u (sub_big u (mult_big u s1 s1) two) Mp
          b1 b2 hMw hMn (by rw [hMv]; exact hM0) (by omega) fuel (by omega)
        refine ⟨t, t1, t2, t3, ?_, ?_⟩
        · rw [t4, b3, m3, q4, htv, hMv, hr2]
        · rw [← hr2]
          exact lt_of_le_of_lt (modv_le _ _ hM0) hMc
      · rw [if_neg h2] at hr
        exact absurd hr (by simp)

theorem LLT_eq (u : Digits) (fuel p : Nat) :
    LLT u fuel p =
      match LLT_loop u fuel (digit_to_big u 2)
        (sub_big u (pow_big u (digit_to_big u 2) p) (digit_to_big u 1)) (p - 2)
        (digit_to_big u 4) with
      | none => none
      | some s1 => if compare_big s1 (digit_to_big u 0) = 0 then some 1 else some 0 := rfl

theorem two_pow_lt_of_le (p : Nat) (h : (2 : Int) ^ p ≤ 10 ^ 174) :
    (2 : Int) ^ (p - 1) < 10 ^ (MAX_DIGITS - 1) := by
  have h1 : (2 : Int) ^ (p - 1) ≤ 2 ^ p := pow_le_pow_right₀ (by norm_num) (by omega)
  have h2 : (10 : Int) ^ 174 < 10 ^ (MAX_DIGITS - 1) :=
    pow_lt_pow_right₀ (by norm_num) (by decide)
  linarith

/-- `LLT(p)` returns the verdict computed on values, for `2^p ≤ 10^174`. -/
theorem LLT_sim (u : Digits) (p : Nat) (hp : 1 ≤ p) (hcap : (2 : Int) ^ p ≤ 10 ^ 174)
    (v : Int) (hv : llt_verdict p = some v) (fuel : Nat) (hf : MAX_DIGITS + 12 ≤ fuel) :
    LLT u fuel p = some v := by
  obtain ⟨w1, w2, w3⟩ := mersenne_spec u p hp (two_pow_lt_of_le p hcap)
  have hge : (2 : Int) ≤ 2 ^ p := by
    calc (2 : Int) = 2 ^ 1 := by norm_num
      _ ≤ 2 ^ p := pow_le_pow_right₀ (by norm_num) hp
  unfold llt_verdict at hv
  cases h1 : llt_iter (2 ^ p - 1) (p - 2) 4 with
  | none => rw [h1] at hv; exact absurd hv (by simp)
  | some r =>
    rw [h1] at hv
    have hv2 : (if r = 0 then (1 : Int) else 0) = v := Option.some.inj hv
    have h4 : value (digit_to_big u 4) = 4 := digit_to_big_value u 4
    obtain ⟨s, q1, q2, q3, q4, _⟩ := LLT_loop_sim u (digit_to_big u 2) _ (2 ^ p - 1) w1 w2 w3
      (by omega) (by omega)
      (digit_to_big_wellFormed u 2 (by norm_num) (by norm_num)) (digit_to_big_normalised u 2)
      (digit_to_big_value u 2) fuel hf (digit_to_big u 4)
      (digit_to_big_wellFormed u 4 (by norm_num) (by norm_num)) (digit_to_big_normalised u 4)
      (by rw [h4]; norm_num) (p - 2) r (by rw [h4]; exact h1)
    rw [LLT_eq, q1]
    simp only
    rw [compare_big_eq_cmp s _ q2 q3 (digit_to_big_wellFormed u 0 (by norm_num) (by norm_num))
      (digit_to_big_normalised u 0), digit_to_big_value, q4, ← hv2]
    by_cases hr : r = 0
    · rw [if_pos ((cmp_eq_zero_iff _ _).2 hr), if_pos hr]
    · rw [if_neg (fun h => hr ((cmp_eq_zero_iff _ _).1 h)), if_neg hr]

theorem Returns_unique {α : Type} (f : Nat → Option α) (a b : α) (ha : Returns f a)
    (hb : Returns f b) : a = b := by
  obtain ⟨N1, h1⟩ := ha
  obtain ⟨N2, h2⟩ := hb
  have e1 := h1 (max N1 N2) (le_max_left _ _)
  have e2 := h2 (max N1 N2) (le_max_right _ _)
  rw [e1] at e2
  exact Option.some.inj e2

theorem LLT_returns (u : Digits) (p : Nat) (hp : 1 ≤ p) (hcap : (2 : Int) ^ p ≤ 10 ^ 174)
    (v : Int) (hv : llt_verdict p = some v) : Returns (fun fuel => LLT u fuel p) v :=
  ⟨MAX_DIGITS + 12, fun fuel hf => LLT_sim u p hp hcap v hv fuel hf⟩

/-! ## The value-level table of verdicts for `p ≤ 127` -/

set_option maxRecDepth 1000000 in
theorem llt_table : ∀ p, p < 128 → 2 ≤ p → (llt_verdict p).isSome = true ∧
    ((is_small_prime p = 1 ∧ (p = 2 ∨ llt_verdict p = some 1)) ↔
      p ∈ [2, 3, 5, 7, 13, 17, 19, 31, 61, 89, 107, 127]) := by
  decide

theorem two_pow_le_of_le_127 (p : Nat) (hp : p ≤ 127) : (2 : Int) ^ p ≤ 10 ^ 174 := by
  have h1 : (2 : Int) ^ p ≤ 2 ^ 127 := pow_le_pow_right₀ (by norm_num) hp
  have h2 : (2 : Int) ^ 127 ≤ 10 ^ 174 := by norm_num
  exact le_trans h1 h2

/-- For `p ≤ 127`, `LLT(p)` returns 1 exactly when the value-level verdict is 1. -/
theorem LLT_returns_one_iff (u : Digits) (p : Nat) (h2 : 2 ≤ p) (h127 : p ≤ 127) :
    Returns (fun fuel => LLT u fuel p) 1 ↔ llt_verdict p = some 1 := by
  have hs := (llt_table p (by omega) h2).1
  obtain ⟨v, hv⟩ := Option.isSome_iff_exists.1 hs
  have hr := LLT_returns u p (by omega) (two_pow_le_of_le_127 p h127) v hv
  constructor
  · intro h1
    rw [hv, Returns_unique _ _ _ hr h1]
  · intro h1
    rw [hv] at h1
    rw [← Option.some.inj h1]
    exact hr

/-! ## The claims -/

/-- C1: for well-formed Bigints `a` and `b` with `a.n + b.n <= MAX_DIGITS`,
`mult_big(a, b)` represents exactly `value(a) * value(b)`. -/
theorem mult_big_correct (u : Digits) (a b : Bigint) (ha : wellFormed a)
    (hb : wellFormed b) (hcap : a.n + b.n ≤ MAX_DIGITS) :
    value (mult_big u a b) = value a * value b :=
  (mult_big_spec u a b ha hb hcap).2.2

theorem mult_big_correct_witness :
    wellFormed (ofDigits [9, 9, 9]) ∧ wellFormed (ofDigits [1, 9]) ∧
    (ofDigits [9, 9, 9]).n + (ofDigits [1, 9]).n ≤ MAX_DIGITS ∧
    value (mult_big zeros (ofDigits [9, 9, 9]) (ofDigits [1, 9]))
      = value (ofDigits [9, 9, 9]) * value (ofDigits [1, 9]) :=
  ⟨by decide, by decide, by decide,
    mult_big_correct zeros (ofDigits [9, 9, 9]) (ofDigits [1, 9]) (by decide) (by decide)
      (by decide)⟩

/-- C2: for well-formed, normalised Bigints `a` and `b` with `value(a) >= value(b)`,
`sub_big(a, b)` represents exactly `value(a) - value(b)`, that is
`value(sub_big(a, b)) + value(b) = value(a)`; and `sub_big(x, x)` is the zero
Bigint with `n = 1` and `digits[0] = 0`. -/
theorem sub_big_correct (u : Digits) :
    (∀ a b : Bigint, wellFormed a → normalised a → wellFormed b → normalised b →
      value a ≥ value b →
      value (sub_big u a b) = value a - value b ∧
      value (sub_big u a b) + value b = value a) ∧
    (∀ x : Bigint, wellFormed x → normalised x →
      (sub_big u x x).n = 1 ∧ (sub_big u x x).digits.get 0 = 0) := by
  constructor
  · intro a b ha _ hb hbn hv
    have h := (sub_big_spec u a b ha hb hbn hv).2.2
    exact ⟨h, by rw [h]; ring⟩
  · intro x hx hxn
    obtain ⟨h1, h2, h3⟩ := sub_big_spec u x x hx hx hxn (le_refl _)
    exact zero_of_value_eq_zero _ h1 h2 (by rw [h3]; ring)

theorem sub_big_correct_witness :
    (value (sub_big zeros (ofDigits [0, 0, 5, 7]) (ofDigits [9, 9, 4, 7]))
        = value (ofDigits [0, 0, 5, 7]) - value (ofDigits [9, 9, 4, 7]) ∧
      value (sub_big zeros (ofDigits [0, 0, 5, 7]) (ofDigits [9, 9, 4, 7]))
        + value (ofDigits [9, 9, 4, 7]) = value (ofDigits [0, 0, 5, 7])) ∧
    ((sub_big zeros (ofDigits [3, 1]) (ofDigits [3, 1])).n = 1 ∧
      (sub_big zeros (ofDigits [3, 1]) (ofDigits [3, 1])).digits.get 0 = 0) :=
  ⟨(sub_big_correct zeros).1 (ofDigits [0, 0, 5, 7]) (ofDigits [9, 9, 4, 7]) (by decide)
      (by decide) (by decide) (by decide) (by decide),
    (sub_big_correct zeros).2 (ofDigits [3, 1]) (by decide) (by decide)⟩

/-- C3 (evaluation at the failing input): on equal arguments, here `7` and `7`,
`mod_big` returns its first argument, of value 7, while `7 mod 7 = 0`; this
holds for every bound on the loop iterations that lets the function return. -/
theorem mod_big_equal_arguments :
    ∀ fuel : Nat,
      (mod_big zeros (fuel + 1) (digit_to_big zeros 7) (digit_to_big zeros 7)).map value
        = some 7 := by
  intro fuel
  rw [mod_big_of_not_gt zeros fuel _ _ (by decide) (by decide)]
  show some (value (digit_to_big zeros 7)) = some 7
  rw [digit_to_big_value]

/-- C4: for well-formed, normalised Bigints `a` and `b`, `compare_big(a, b)`
returns -1 exactly when `value(a) < value(b)`, 0 exactly when the values are
equal, and 1 exactly when `value(a) > value(b)`. -/
theorem compare_big_correct (a b : Bigint) (ha : wellFormed a) (han : normalised a)
    (hb : wellFormed b) (hbn : normalised b) :
    (compare_big a b = -1 ↔ value a < value b) ∧
    (compare_big a b = 0 ↔ value a = value b) ∧
    (compare_big a b = 1 ↔ value a > value b) := by
  rw [compare_big_eq_cmp a b ha han hb hbn]
  exact ⟨cmp_eq_neg_one_iff _ _, cmp_eq_zero_iff _ _, cmp_eq_one_iff _ _⟩

theorem compare_big_correct_witness :
    (compare_big (ofDigits [9, 9, 4, 7]) (ofDigits [0, 0, 5, 7]) = -1 ↔
      value (ofDigits [9, 9, 4, 7]) < value (ofDigits [0, 0, 5, 7])) ∧
    (compare_big (ofDigits [9, 9, 4, 7]) (ofDigits [0, 0, 5, 7]) = 0 ↔
      value (ofDigits [9, 9, 4, 7]) = value (ofDigits [0, 0, 5, 7])) ∧
    (compare_big (ofDigits [9, 9, 4, 7]) (ofDigits [0, 0, 5, 7]) = 1 ↔
      value (ofDigits [9, 9, 4, 7]) > value (ofDigits [0, 0, 5, 7])) :=
  compare_big_correct (ofDigits [9, 9, 4, 7]) (ofDigits [0, 0, 5, 7]) (by decide) (by decide)
    (by decide) (by decide)

/-- C5 (as stated, refuted): the one-digit Bigint 7 has `n = 1`, and after
`shift_left` it is not the case that the length is 1 with `digits[0] = 0`. -/
theorem shift_left_one_digit_length_counterexample :
    (digit_to_big zeros 7).n = 1 ∧
    ¬ ((shift_left (digit_to_big zeros 7)).n = 1 ∧
        (shift_left (digit_to_big zeros 7)).digits.get 0 = 0) := by
  decide

/-- C5 (amended): for every Bigint `x` with `n = 1`, `shift_left(x)` sets
`digits[0]` to 0 and decrements the length to 0. -/
theorem shift_left_one_digit (x : Bigint) (h : x.n = 1) :
    (shift_left x).n = 0 ∧ (shift_left x).digits.get 0 = 0 := by
  refine ⟨by rw [shift_left_n, h], ?_⟩
  have := shift_left_get_top x (by omega) (by rw [h]; decide)
  rw [h] at this
  exact this

theorem shift_left_one_digit_witness :
    (digit_to_big zeros 7).n = 1 ∧
    (shift_left (digit_to_big zeros 7)).n = 0 ∧
    (shift_left (digit_to_big zeros 7)).digits.get 0 = 0 :=
  ⟨rfl, shift_left_one_digit (digit_to_big zeros 7) rfl⟩

/-- C6 (as stated, refuted): the zero Bigint is well-formed, and `shift_right`
of it does not compare equal to its product with ten; the same happens for the
well-formed Bigint with digits `[5, 0]`, which is not normalised. -/
theorem shift_right_zero_counterexample :
    (wellFormed (digit_to_big zeros 0) ∧
      compare_big (shift_right (digit_to_big zeros 0))
        (mult_big zeros (digit_to_big zeros 0) (ofDigits [0, 1])) ≠ 0) ∧
    (wellFormed (ofDigits [5, 0]) ∧
      compare_big (shift_right (ofDigits [5, 0]))
        (mult_big zeros (ofDigits [5, 0]) (ofDigits [0, 1])) ≠ 0) := by
  decide

/-- C6 (amended): for every well-formed, normalised Bigint `x` of non-zero value
with `x.n + 2 <= MAX_DIGITS`, and `ten` the Bigint with digits `[0, 1]`,
`compare_big(shift_right(x), mult_big(x, ten)) = 0`. -/
theorem shift_right_eq_mult_ten (u : Digits) (x ten : Bigint) (hx : wellFormed x)
    (hxn : normalised x) (hv : value x ≠ 0) (hcap : x.n + 2 ≤ MAX_DIGITS)
    (hn : ten.n = 2) (h0 : ten.digits.get 0 = 0) (h1 : ten.digits.get 1 = 1) :
    compare_big (shift_right x) (mult_big u x ten) = 0 := by
  have hpos : 0 < value x := lt_of_le_of_ne (value_nonneg x hx) (Ne.symm hv)
  have hten : wellFormed ten := by
    refine ⟨by omega, by rw [hn]; decide, fun i hi => ?_⟩
    have : i = 0 ∨ i = 1 := by omega
    rcases this with r | r
    · rw [r, h0]; norm_num
    · rw [r, h1]; norm_num
  have htv : value ten = 10 := by
    unfold value
    rw [hn]
    simp [digitsVal, h0, h1]
  obtain ⟨m1, m2, m3⟩ := mult_big_spec u x ten hx hten (by rw [hn]; exact hcap)
  have hlt : x.n < MAX_DIGITS := by omega
  rw [compare_big_eq_cmp _ _ (shift_right_wellFormed x hx hlt)
    (shift_right_normalised x hx hxn hpos hlt) m1 m2]
  rw [cmp_eq_zero_iff, shift_right_value x hlt, m3, htv]
  ring

theorem shift_right_eq_mult_ten_witness :
    wellFormed (ofDigits [3, 7]) ∧ normalised (ofDigits [3, 7]) ∧
    value (ofDigits [3, 7]) ≠ 0 ∧
    compare_big (shift_right (ofDigits [3, 7]))
      (mult_big zeros (ofDigits [3, 7]) (ofDigits [0, 1])) = 0 :=
  ⟨by decide, by decide, by decide,
    shift_right_eq_mult_ten zeros (ofDigits [3, 7]) (ofDigits [0, 1]) (by decide) (by decide)
      (by decide) (by decide) (by decide) (by decide) (by decide)⟩

/-- C7: for every Bigint `x` with `n < MAX_DIGITS`, `shift_right` followed by
`shift_left` gives back the length `n` and every active digit `digits[0..n-1]`. -/
theorem shift_left_shift_right (x : Bigint) (h : x.n < MAX_DIGITS) :
    (shift_left (shift_right x)).n = x.n ∧
    ∀ i, i < x.n → (shift_left (shift_right x)).digits.get i = x.digits.get i := by
  refine ⟨by rw [shift_left_n, shift_right_n]; omega, fun i hi => ?_⟩
  rw [shift_left_get (shift_right x) (by rw [shift_right_n]; omega)
    (by rw [shift_right_n]; omega) i (by rw [shift_right_n]; omega)]
  exact shift_right_get_succ x h i hi

theorem shift_left_shift_right_witness :
    (ofDigits [1, 2, 3, 4, 5, 6, 7]).n < MAX_DIGITS ∧
    (shift_left (shift_right (ofDigits [1, 2, 3, 4, 5, 6, 7]))).n
      = (ofDigits [1, 2, 3, 4, 5, 6, 7]).n ∧
    ∀ i, i < (ofDigits [1, 2, 3, 4, 5, 6, 7]).n →
      (shift_left (shift_right (ofDigits [1, 2, 3, 4, 5, 6, 7]))).digits.get i
        = (ofDigits [1, 2, 3, 4, 5, 6, 7]).digits.get i :=
  ⟨by decide, shift_left_shift_right (ofDigits [1, 2, 3, 4, 5, 6, 7]) (by decide)⟩

/-- C8: for every well-formed Bigint `a` and every `p >= 1` whose products fit
the capacity (each `mult_big(b, a)` formed on the way has `b.n + a.n <= MAX_DIGITS`),
`pow_big(a, p)` represents `value(a)^p`; in particular
`sub_big(pow_big(digit_to_big(2), p), digit_to_big(1))` represents `2^p - 1`
while `2^(p-1) < 10^(MAX_DIGITS - 1)`, which is 3, 7, 15, 31, 63, 127, 255,
511, 1023 for `p = 2..10`. -/
theorem pow_big_correct (u : Digits) :
    (∀ (a : Bigint) (p : Nat), wellFormed a → 1 ≤ p →
      (∀ k, 1 ≤ k → k < p → (pow_big u a k).n + a.n ≤ MAX_DIGITS) →
      value (pow_big u a p) = value a ^ p) ∧
    (∀ p : Nat, 1 ≤ p → (2 : Int) ^ (p - 1) < 10 ^ (MAX_DIGITS - 1) →
      value (sub_big u (pow_big u (digit_to_big u 2) p) (digit_to_big u 1)) = 2 ^ p - 1) ∧
    List.map (fun p => value (sub_big u (pow_big u (digit_to_big u 2) p) (digit_to_big u 1)))
      [2, 3, 4, 5, 6, 7, 8, 9, 10] = [3, 7, 15, 31, 63, 127, 255, 511, 1023] := by
  have hM : ∀ p : Nat, 1 ≤ p → (2 : Int) ^ (p - 1) < 10 ^ (MAX_DIGITS - 1) →
      value (sub_big u (pow_big u (digit_to_big u 2) p) (digit_to_big u 1)) = 2 ^ p - 1 :=
    fun p hp hc => (mersenne_spec u p hp hc).2.2
  have hsmall : ∀ p : Nat, 1 ≤ p → p ≤ 10 →
      value (sub_big u (pow_big u (digit_to_big u 2) p) (digit_to_big u 1)) = 2 ^ p - 1 := by
    intro p hp h10
    apply hM p hp
    have h1 : (2 : Int) ^ (p - 1) ≤ 2 ^ 10 := pow_le_pow_right₀ (by norm_num) (by omega)
    have h2 : (2 : Int) ^ 10 < 10 ^ (MAX_DIGITS - 1) := by
      have : MAX_DIGITS - 1 = 349 := rfl
      rw [this]
      norm_num
    exact lt_of_le_of_lt h1 h2
  refine ⟨fun a p ha hp hcap => (pow_big_spec u a ha p hp hcap).2.2, hM, ?_⟩
  simp only [List.map_cons, List.map_nil]
  rw [hsmall 2 (by norm_num) (by norm_num), hsmall 3 (by norm_num) (by norm_num),
    hsmall 4 (by norm_num) (by norm_num), hsmall 5 (by norm_num) (by norm_num),
    hsmall 6 (by norm_num) (by norm_num), hsmall 7 (by norm_num) (by norm_num),
    hsmall 8 (by norm_num) (by norm_num), hsmall 9 (by norm_num) (by norm_num),
    hsmall 10 (by norm_num) (by norm_num)]
  norm_num

set_option maxRecDepth 100000 in
theorem pow_big_correct_witness :
    wellFormed (ofDigits [3, 1]) ∧
    value (pow_big zeros (ofDigits [3, 1]) 3) = value (ofDigits [3, 1]) ^ 3 ∧
    value (sub_big zeros (pow_big zeros (digit_to_big zeros 2) 5) (digit_to_big zeros 1))
      = 2 ^ 5 - 1 :=
  ⟨by decide,
    (pow_big_correct zeros).1 (ofDigits [3, 1]) 3 (by decide) (by decide) (by decide),
    (pow_big_correct zeros).2.1 5 (by decide) (by decide)⟩

/-- C9: every Bigint returned by `digit_to_big` (for `d` in 0..9), `mult_big`,
`sub_big` (with `a >= b`), `pow_big` (`p >= 1`) and `mod_big` (`b > 0`), given
well-formed, normalised arguments within capacity, is well-formed and
normalised: `n >= 1`, every digit below `n` is in 0..9, and `digits[n-1] != 0`
when `n > 1`.  Within capacity means: for `mult_big`, `a.n + b.n <= MAX_DIGITS`;
for `pow_big`, the same for each product formed; for `mod_big`, the scaled
denominator fits, `value(a) <= value(b) * 10^(MAX_DIGITS - b.n)`, which holds
whenever `a.n < MAX_DIGITS`. -/
theorem producers_wellFormed_normalised (u : Digits) :
    (∀ d : Int, 0 ≤ d → d ≤ 9 →
      wellFormed (digit_to_big u d) ∧ normalised (digit_to_big u d)) ∧
    (∀ a b : Bigint, wellFormed a → normalised a → wellFormed b → normalised b →
      a.n + b.n ≤ MAX_DIGITS →
      wellFormed (mult_big u a b) ∧ normalised (mult_big u a b)) ∧
    (∀ a b : Bigint, wellFormed a → normalised a → wellFormed b → normalised b →
      value a ≥ value b →
      wellFormed (sub_big u a b) ∧ normalised (sub_big u a b)) ∧
    (∀ (a : Bigint) (p : Nat), wellFormed a → normalised a → 1 ≤ p →
      (∀ k, 1 ≤ k → k < p → (pow_big u a k).n + a.n ≤ MAX_DIGITS) →
      wellFormed (pow_big u a p) ∧ normalised (pow_big u a p)) ∧
    (∀ a b : Bigint, wellFormed a → normalised a → wellFormed b → normalised b →
      0 < value b → (a.n < MAX_DIGITS ∨ value a ≤ value b * 10 ^ (MAX_DIGITS - b.n)) →
      ∃ r, Returns (fun fuel => mod_big u fuel a b) r ∧ wellFormed r ∧ normalised r) := by
  refine ⟨fun d h0 h9 => ⟨digit_to_big_wellFormed u d h0 h9, digit_to_big_normalised u d⟩,
    fun a b ha _ hb _ hcap => ?_, fun a b ha _ hb hbn hv => ?_,
    fun a p ha han hp hcap => ?_, fun a b ha han hb hbn hv hcap => ?_⟩
  · obtain ⟨h1, h2, _⟩ := mult_big_spec u a b ha hb hcap
    exact ⟨h1, h2⟩
  · obtain ⟨h1, h2, _⟩ := sub_big_spec u a b ha hb hbn hv
    exact ⟨h1, h2⟩
  · obtain ⟨h1, h2, _⟩ := pow_big_spec u a ha p hp hcap
    exact ⟨h1, h2 han⟩
  · have hfit : value a ≤ value b * 10 ^ (MAX_DIGITS - b.n) := by
      rcases hcap with h | h
      · exact scaled_fits_of_lt a b ha hb hbn hv h
      · exact h
    obtain ⟨r, h1, h2, h3, _⟩ := mod_big_spec_gen u a b ha han hb hbn hv hfit (a.n + 12)
      (le_refl _)
    exact ⟨r, ⟨a.n + 12, fun fuel hf => mod_big_mono u (a.n + 12) fuel a b r h1 hf⟩, h2, h3⟩

set_option maxRecDepth 100000 in
theorem producers_wellFormed_normalised_witness :
    (wellFormed (digit_to_big zeros 7) ∧ normalised (digit_to_big zeros 7)) ∧
    (wellFormed (mult_big zeros (ofDigits [9, 9, 9]) (ofDigits [1, 9])) ∧
      normalised (mult_big zeros (ofDigits [9, 9, 9]) (ofDigits [1, 9]))) ∧
    (wellFormed (sub_big zeros (ofDigits [0, 0, 5, 7]) (ofDigits [9, 9, 4, 7])) ∧
      normalised (sub_big zeros (ofDigits [0, 0, 5, 7]) (ofDigits [9, 9, 4, 7]))) ∧
    (wellFormed (pow_big zeros (ofDigits [3, 1]) 3) ∧
      normalised (pow_big zeros (ofDigits [3, 1]) 3)) ∧
    (∃ r, Returns (fun fuel => mod_big zeros fuel (ofDigits [0, 0, 0, 0, 4]) (ofDigits [0, 3])) r ∧
      wellFormed r ∧ normalised r) :=
  ⟨(producers_wellFormed_normalised zeros).1 7 (by decide) (by decide),
    (producers_wellFormed_normalised zeros).2.1 (ofDigits [9, 9, 9]) (ofDigits [1, 9])
      (by decide) (by decide) (by decide) (by decide) (by decide),
    (producers_wellFormed_normalised zeros).2.2.1 (ofDigits [0, 0, 5, 7]) (ofDigits [9, 9, 4, 7])
      (by decide) (by decide) (by decide) (by decide) (by decide),
    (producers_wellFormed_normalised zeros).2.2.2.1 (ofDigits [3, 1]) 3
      (by decide) (by decide) (by decide) (by decide),
    (producers_wellFormed_normalised zeros).2.2.2.2 (ofDigits [0, 0, 0, 0, 4]) (ofDigits [0, 3])
      (by decide) (by decide) (by decide) (by decide) (by decide) (Or.inl (by decide))⟩

set_option maxRecDepth 100000 in
/-- C10: for every `p` with `2 <= p <= 127` the driver reports a Mersenne prime
(`is_small_prime(p) = 1` and either `p = 2` or `LLT(p) = 1`) exactly when `p` is
one of 2, 3, 5, 7, 13, 17, 19, 31, 61, 89, 107, 127; and
`LLT(3) = LLT(5) = LLT(7) = LLT(13) = LLT(61) = 1`, `LLT(11) = LLT(23) = 0`. -/
theorem driver_mersenne_exponents (u : Digits) :
    (∀ p : Nat, 2 ≤ p → p ≤ 127 →
      ((is_small_prime p = 1 ∧ (p = 2 ∨ Returns (fun fuel => LLT u fuel p) 1)) ↔
        p ∈ [2, 3, 5, 7, 13, 17, 19, 31, 61, 89, 107, 127])) ∧
    Returns (fun fuel => LLT u fuel 3) 1 ∧ Returns (fun fuel => LLT u fuel 5) 1 ∧
    Returns (fun fuel => LLT u fuel 7) 1 ∧ Returns (fun fuel => LLT u fuel 13) 1 ∧
    Returns (fun fuel => LLT u fuel 61) 1 ∧
    Returns (fun fuel => LLT u fuel 11) 0 ∧ Returns (fun fuel => LLT u fuel 23) 0 := by
  have hv := fun p (h2 : 2 ≤ p) (h127 : p ≤ 127) (v : Int) (h : llt_verdict p = some v) =>
    LLT_returns u p (by omega) (two_pow_le_of_le_127 p h127) v h
  refine ⟨fun p h2 h127 => ?_, hv 3 (by norm_num) (by norm_num) 1 (by decide),
    hv 5 (by norm_num) (by norm_num) 1 (by decide),
    hv 7 (by norm_num) (by norm_num) 1 (by decide),
    hv 13 (by norm_num) (by norm_num) 1 (by decide),
    hv 61 (by norm_num) (by norm_num) 1 (by decide),
    hv 11 (by norm_num) (by norm_num) 0 (by decide),
    hv 23 (by norm_num) (by norm_num) 0 (by decide)⟩
  rw [LLT_returns_one_iff u p h2 h127]
  exact (llt_table p (by omega) h2).2

theorem driver_mersenne_exponents_witness :
    is_small_prime 31 = 1 ∧ (31 = 2 ∨ Returns (fun fuel => LLT zeros fuel 31) 1) :=
  ((driver_mersenne_exponents zeros).1 31 (by decide) (by decide)).2 (by decide)

/-! ## is_small_prime -/

theorem is_small_prime_loop_succ (p k i : Nat) :
    is_small_prime_loop p (k + 1) i =
      if p % i = 0 then 0 else is_small_prime_loop p k (i + 1) := rfl

theorem is_small_prime_loop_zero_or_one (p k : Nat) : ∀ i,
    is_small_prime_loop p k i = 0 ∨ is_small_prime_loop p k i = 1 := by
  induction k with
  | zero => intro i; exact Or.inr rfl
  | succ k ih =>
    intro i
    rw [is_small_prime_loop_succ]
    by_cases h : p % i = 0
    · rw [if_pos h]; exact Or.inl rfl
    · rw [if_neg h]; exact ih (i + 1)

/-- The trial-division loop returns 1 exactly when no tried `d` divides `p`. -/
theorem is_small_prime_loop_eq_one_iff (p k : Nat) : ∀ i,
    is_small_prime_loop p k i = 1 ↔ ∀ d, i ≤ d → d < i + k → p % d ≠ 0 := by
  induction k with
  | zero =>
    intro i
    exact ⟨fun _ d h1 h2 => by omega, fun _ => rfl⟩
  | succ k ih =>
    intro i
    rw [is_small_prime_loop_succ]
    by_cases h : p % i = 0
    · rw [if_pos h]
      constructor
      · intro h01
        exact absurd h01 (by decide)
      · intro hall
        exact absurd h (hall i (le_refl _) (by omega))
    · rw [if_neg h, ih (i + 1)]
      constructor
      · intro hall d h1 h2
        by_cases hd : d = i
        · rw [hd]; exact h
        · exact hall d (by omega) (by omega)
      · intro hall d h1 h2
        exact hall d (by omega) (by omega)

/-- For `p ≥ 2`, `is_small_prime` returns 1 exactly on the primes. -/
theorem is_small_prime_eq_one_iff (p : Nat) (hp : 2 ≤ p) :
    is_small_prime p = 1 ↔ Nat.Prime p := by
  unfold is_small_prime
  rw [is_small_prime_loop_eq_one_iff, Nat.prime_def_lt]
  constructor
  · intro hall
    refine ⟨hp, fun m hm hdvd => ?_⟩
    by_contra hne
    have hm0 : m ≠ 0 := by
      intro h0
      rw [h0] at hdvd
      have := Nat.eq_zero_of_zero_dvd hdvd
      omega
    by_cases hlast : m = p - 1
    · have h1 : m ∣ p - m := Nat.dvd_sub' hdvd (dvd_refl m)
      have h2 : p - m = 1 := by omega
      rw [h2] at h1
      have := Nat.eq_one_of_dvd_one h1
      exact hne this
    · exact hall m (by omega) (by omega) (Nat.mod_eq_zero_of_dvd hdvd)
  · intro hprime d h1 h2 hmod
    have hdvd : d ∣ p := Nat.dvd_of_mod_eq_zero hmod
    have := hprime.2 d (by omega) hdvd
    omega

theorem is_small_prime_eq_zero_iff (p : Nat) (hp : 2 ≤ p) :
    is_small_prime p = 0 ↔ ¬ Nat.Prime p := by
  rw [← is_small_prime_eq_one_iff p hp]
  rcases is_small_prime_loop_zero_or_one p (p - 1 - 2) 2 with h | h
  · unfold is_small_prime
    rw [h]
    exact ⟨fun _ => by decide, fun _ => rfl⟩
  · unfold is_small_prime
    rw [h]
    exact ⟨fun h01 => absurd h01 (by decide), fun hn => absurd rfl hn⟩

/-! ## main -/

theorem main_body_eq (u : Digits) (fuel p : Nat) :
    main_body u fuel p =
      if is_small_prime p ≠ 0 then
        match main_test u fuel p with
        | none => none
        | some t => some ("Testing p = " ++ toString p ++ " " ++ t)
      else some "" := rfl

/-! ## The bound on `val` in mult_big -/

theorem mult_val_at_bounds (u : Digits) (a b : Bigint) (ha : wellFormed a) (hb : wellFormed b)
    (hN : a.n + b.n ≤ MAX_DIGITS) (i t : Nat) (hi : i < b.n) (ht : t < a.n) :
    0 ≤ mult_val_at u a b i t ∧ mult_val_at u a b i t ≤ 99 := by
  obtain ⟨h1, _, _⟩ := mult_outer_spec u a b hN ha.2.2 hb.2.2 i (by omega)
  have hbi := hb.2.2 i hi
  obtain ⟨g1, g2, _, _⟩ := mult_inner_spec a (b.digits.get i) i (a.n + b.n) _ hN (by omega)
    ha.2.2 hbi h1 t (by omega)
  unfold mult_val_at mult_val
  generalize forUp (mult_step a (b.digits.get i) i) t
    (forUp (mult_row a b) i (forUp (fun i c => store c i 0) (a.n + b.n) u), 0) = s at g1 g2
  have e : i + t - i = t := by omega
  rw [e]
  have hat := ha.2.2 t ht
  have hc := g1 (i + t) (by omega)
  have hp0 : 0 ≤ b.digits.get i * a.digits.get t := mul_nonneg hbi.1 hat.1
  have hp1 : b.digits.get i * a.digits.get t ≤ 81 := by
    nlinarith [hbi.1, hbi.2, hat.1, hat.2]
  constructor
  · linarith [hc.1, g2.1]
  · linarith [hc.2, g2.2]

/-! ## The denominator of mod_big on entry to the outer loop -/

theorem mod_prepare_eq (fuel : Nat) (a b : Bigint) :
    mod_prepare fuel a b =
      match mod_scale fuel a b with
      | none => none
      | some b1 => some (shift_left b1) := rfl

/-- After the scaling loop and the `shift_left` that follows it, for `a > b0`:
the denominator is `b0 * 10^k`, below `a`, and `a` is at most ten times it. -/
theorem mod_prepare_spec (a b0 : Bigint) (ha : wellFormed a) (han : normalised a)
    (hb : wellFormed b0) (hbn : normalised b0) (hv : 0 < value b0)
    (hcap : value a ≤ value b0 * 10 ^ (MAX_DIGITS - b0.n)) (hgt : value b0 < value a) :
    ∃ b k, (∀ fuel, a.n + 2 ≤ fuel → mod_prepare fuel a b0 = some b) ∧
      wellFormed b ∧ normalised b ∧ value b = value b0 * 10 ^ k ∧ b.n = b0.n + k ∧
      value b < value a ∧ value a ≤ 10 * value b := by
  obtain ⟨b1, k, h1, h2, h3, h4, h5, h6, h7⟩ :=
    mod_scale_spec a ha han (a.n + 2) b0 hb hbn hv hcap (by omega) (by have := hb.1; omega)
  have hk : 0 < k := by
    rcases Nat.eq_zero_or_pos k with h0 | h0
    · subst h0
      have : value a ≤ value b0 := by simpa [h4] using h6
      omega
    · exact h0
  have h7 : value b0 * 10 ^ (k - 1) < value a := by
    rcases h7 with r | r
    · omega
    · exact r
  have e : k = (k - 1) + 1 := by omega
  have hb2 : 2 ≤ b1.n := by have := hb.1; omega
  obtain ⟨s1, s2, _⟩ := shift_left_spec b1 h2 hb2
  have s3 : value (shift_left b1) = value b0 * 10 ^ (k - 1) :=
    shift_left_value_of_mul b1 h2 hb2 _ (by rw [h4]; nth_rewrite 1 [e]; rw [pow_succ]; ring)
  refine ⟨shift_left b1, k - 1, fun fuel hf => ?_, s1, s2 h3, s3,
    by rw [shift_left_n]; omega, by rw [s3]; exact h7, ?_⟩
  · rw [mod_prepare_eq, mod_scale_mono (a.n + 2) a b0 b1 fuel h1 hf]
  · rw [s3]
    rw [h4] at h6
    nth_rewrite 1 [e] at h6
    rw [pow_succ] at h6
    linarith

/-- Each `shift_left` of the outer loop of `mod_big` lowers the power of ten by one. -/
theorem shift_left_scaled (b c : Bigint) (hb : wellFormed b) (hc : wellFormed c) (j : Nat)
    (hv : value c = value b * 10 ^ (j + 1)) (hn : c.n = b.n + (j + 1)) :
    value (shift_left c) = value b * 10 ^ j ∧ (shift_left c).n = b.n + j := by
  have h2 : 2 ≤ c.n := by have := hb.1; omega
  refine ⟨shift_left_value_of_mul c hc h2 _ (by rw [hv, pow_succ]; ring), ?_⟩
  rw [shift_left_n]
  omega

/-- `mod_big` returns: its result does not depend on the bound once the bound
is at least `a.n + 12`. -/
theorem mod_big_returns (u : Digits) (a b : Bigint) (ha : wellFormed a) (han : normalised a)
    (hb : wellFormed b) (hbn : normalised b) (hv : 0 < value b)
    (hcap : value a ≤ value b * 10 ^ (MAX_DIGITS - b.n)) :
    ∃ r, (∀ fuel, a.n + 12 ≤ fuel → mod_big u fuel a b = some r) ∧ wellFormed r ∧
      normalised r ∧ value r = modv (value a) (value b) := by
  obtain ⟨r, h1, h2, h3, h4⟩ := mod_big_spec_gen u a b ha han hb hbn hv hcap (a.n + 12)
    (le_refl _)
  exact ⟨r, fun fuel hf => mod_big_mono u (a.n + 12) fuel a b r h1 hf, h2, h3, h4⟩

theorem capacity_cases (a b : Bigint) (ha : wellFormed a) (hb : wellFormed b)
    (hbn : normalised b) (hv : 0 < value b)
    (hcap : a.n < MAX_DIGITS ∨ value a ≤ value b * 10 ^ (MAX_DIGITS - b.n)) :
    value a ≤ value b * 10 ^ (MAX_DIGITS - b.n) := by
  rcases hcap with h | h
  · exact scaled_fits_of_lt a b ha hb hbn hv h
  · exact h

/-! ## The loop of LLT, one round at a time -/

theorem LLT_loop_mono (u : Digits) (two Mp : Bigint) (fuel fuel2 : Nat) (hle : fuel ≤ fuel2)
    (s0 : Bigint) (k : Nat) : ∀ r, LLT_loop u fuel two Mp k s0 = some r →
    LLT_loop u fuel2 two Mp k s0 = some r := by
  induction k with
  | zero => intro r h; exact h
  | succ k ih =>
    intro r h
    rw [LLT_loop_succ] at h ⊢
    cases h1 : LLT_loop u fuel two Mp k s0 with
    | none => rw [h1] at h; exact absurd h (by simp)
    | some s1 =>
      rw [h1] at h
      rw [ih s1 h1]
      exact mod_big_mono u fuel fuel2 _ _ r h hle

/-- One round of the loop of `LLT` on a number below `10^174` whose square is at
least 2: the result has value `modv (s * s - 2) M`. -/
theorem LLT_round_spec (u : Digits) (two Mp s : Bigint)
    (hMw : wellFormed Mp) (hMn : normalised Mp) (hM0 : 0 < value Mp)
    (htw : wellFormed two) (htn : normalised two) (htv : value two = 2)
    (hsw : wellFormed s) (hsn : normalised s) (hsc : value s < 10 ^ 174)
    (hpre : value two ≤ value (mult_big u s s))
    (fuel : Nat) (hf : MAX_DIGITS + 12 ≤ fuel) :
    ∃ t, mod_big u fuel (sub_big u (mult_big u s s) two) Mp = some t ∧ wellFormed t ∧
      normalised t ∧ value t = modv (value s * value s - 2) (value Mp) := by
  have hmax : MAX_DIGITS = 350 := rfl
  have hn1 : s.n ≤ 174 := n_le_of_value_lt s hsw hsn 174 (by norm_num) hsc
  obtain ⟨m1, m2, m3⟩ := mult_big_spec u s s hsw hsw (by omega)
  have mn := mult_big_n_le u s s
  obtain ⟨b1, b2, b3⟩ := sub_big_spec u (mult_big u s s) two m1 htw htn hpre
  have bn := sub_big_n_le u (mult_big u s s) two
  obtain ⟨t, t1, t2, t3, t4⟩ := mod_big_spec u (sub_big u (mult_big u s s) two) Mp
    b1 b2 hMw hMn hM0 (by omega) fuel (by omega)
  exact ⟨t, t1, t2, t3, by rw [t4, b3, m3, htv]⟩

theorem llt_iter_succ_some (M : Int) (k : Nat) (s r : Int)
    (h : llt_iter M (k + 1) s = some r) :
    ∃ r1, llt_iter M k s = some r1 ∧ 2 ≤ r1 * r1 ∧ r = modv (r1 * r1 - 2) M := by
  rw [llt_iter_succ] at h
  cases h1 : llt_iter M k s with
  | none => rw [h1] at h; exact absurd h (by simp)
  | some r1 =>
    rw [h1] at h
    simp only at h
    by_cases h2 : 2 ≤ r1 * r1
    · rw [if_pos h2] at h
      exact ⟨r1, rfl, h2, (Option.some.inj h).symm⟩
    · rw [if_neg h2] at h
      exact absurd h (by simp)

theorem llt_iter_prefix (M : Int) (s : Int) (n : Nat) : ∀ r, llt_iter M n s = some r →
    ∀ k, k ≤ n → ∃ rk, llt_iter M k s = some rk := by
  induction n with
  | zero =>
    intro r h k hk
    have : k = 0 := by omega
    subst this
    exact ⟨r, h⟩
  | succ n ih =>
    intro r h k hk
    by_cases hkn : k = n + 1
    · subst hkn
      exact ⟨r, h⟩
    · obtain ⟨r1, h1, _, _⟩ := llt_iter_succ_some M n s r h
      exact ih r1 h1 k (by omega)

theorem two_pow_le_of_lt_550 (p : Nat) (hp : p < 550) : (2 : Int) ^ p ≤ 10 ^ 174 := by
  have h1 : (2 : Int) ^ p ≤ 2 ^ 549 := pow_le_pow_right₀ (by norm_num) (by omega)
  have h2 : (2 : Int) ^ 549 ≤ 10 ^ 174 := by norm_num
  exact le_trans h1 h2

set_option maxRecDepth 1000000 in
set_option maxHeartbeats 0 in
/-- For every `p < 550` that passes `is_small_prime`, the value-level loop of
`LLT` never squares a number whose square is below 2. -/
theorem llt_pre_table :
    ∀ p, p < 550 → is_small_prime p = 1 → (llt_verdict p).isSome = true := by
  decide

theorem llt_iter_of_verdict (p : Nat) (h : (llt_verdict p).isSome = true) :
    ∃ r, llt_iter (2 ^ p - 1) (p - 2) 4 = some r := by
  unfold llt_verdict at h
  cases h1 : llt_iter (2 ^ p - 1) (p - 2) 4 with
  | none => rw [h1] at h; exact absurd h (by simp)
  | some r => exact ⟨r, rfl⟩

/-- On the run of `LLT(p)` for a `p` with `2^p ≤ 10^174` whose value-level run
succeeds, every state that is squared has a square of at least 2. -/
theorem LLT_pre_of_iter (u : Digits) (p : Nat) (hp : 1 ≤ p) (hcap : (2 : Int) ^ p ≤ 10 ^ 174)
    (r : Int) (hr : llt_iter (2 ^ p - 1) (p - 2) 4 = some r)
    (fuel k : Nat) (s : Bigint) (hk : k < p - 2)
    (hs : LLT_loop u fuel (digit_to_big u 2)
      (sub_big u (pow_big u (digit_to_big u 2) p) (digit_to_big u 1)) k (digit_to_big u 4)
        = some s) :
    wellFormed s ∧ normalised s ∧ 2 ≤ value s * value s ∧
    value (digit_to_big u 2) ≤ value (mult_big u s s) := by
  obtain ⟨w1, w2, w3⟩ := mersenne_spec u p hp (two_pow_lt_of_le p hcap)
  have hge : (2 : Int) ≤ 2 ^ p := by
    calc (2 : Int) = 2 ^ 1 := by norm_num
      _ ≤ 2 ^ p := pow_le_pow_right₀ (by norm_num) hp
  have h4 : value (digit_to_big u 4) = 4 := digit_to_big_value u 4
  obtain ⟨r2, hr2⟩ := llt_iter_prefix _ 4 (p - 2) r hr (k + 1) (by omega)
  obtain ⟨r1, hr1, hsq, _⟩ := llt_iter_succ_some _ k 4 r2 hr2
  obtain ⟨s1, q1, q2, q3, q4, q5⟩ := LLT_loop_sim u (digit_to_big u 2) _ (2 ^ p - 1) w1 w2 w3
    (by omega) (by omega)
    (digit_to_big_wellFormed u 2 (by norm_num) (by norm_num)) (digit_to_big_normalised u 2)
    (digit_to_big_value u 2) (max fuel (MAX_DIGITS + 12)) (le_max_right _ _) (digit_to_big u 4)
    (digit_to_big_wellFormed u 4 (by norm_num) (by norm_num)) (digit_to_big_normalised u 4)
    (by rw [h4]; norm_num) k r1 (by rw [h4]; exact hr1)
  have hs2 := LLT_loop_mono u _ _ fuel (max fuel (MAX_DIGITS + 12)) (le_max_left _ _) _ k s hs
  rw [q1] at hs2
  have e : s1 = s := Option.some.inj hs2
  subst e
  have hn1 : s1.n ≤ 174 := n_le_of_value_lt s1 q2 q3 174 (by norm_num) (by rw [q4]; exact q5)
  have hmax : MAX_DIGITS = 350 := rfl
  obtain ⟨_, _, m3⟩ := mult_big_spec u s1 s1 q2 q2 (by omega)
  refine ⟨q2, q3, by rw [q4]; exact hsq, ?_⟩
  rw [digit_to_big_value, m3, q4]
  exact hsq

/-- The precondition of `sub_big` on the run of `LLT(p)` for prime `p` below 550. -/
theorem LLT_pre_of_prime (u : Digits) (p : Nat) (hp : Nat.Prime p) (h550 : p < 550)
    (fuel k : Nat) (s : Bigint) (hk : k < p - 2)
    (hs : LLT_loop u fuel (digit_to_big u 2)
      (sub_big u (pow_big u (digit_to_big u 2) p) (digit_to_big u 1)) k (digit_to_big u 4)
        = some s) :
    wellFormed s ∧ normalised s ∧ 2 ≤ value s * value s ∧
    value (digit_to_big u 2) ≤ value (mult_big u s s) := by
  have h2 := hp.two_le
  obtain ⟨r, hr⟩ := llt_iter_of_verdict p
    (llt_pre_table p h550 ((is_small_prime_eq_one_iff p h2).2 hp))
  exact LLT_pre_of_iter u p (by omega) (two_pow_le_of_lt_550 p h550) r hr fuel k s hk hs

/-! ## `2^p + 1` is a square only for `p = 3` -/

theorem two_pow_ne_three (j : Nat) : 2 ^ j ≠ 3 := by
  rcases j with _ | _ | j
  · norm_num
  · norm_num
  · rw [pow_succ, pow_succ]
    omega

theorem sq_eq_two_pow_add_one (p r : Nat) (h : r * r = 2 ^ p + 1) : p = 3 ∧ r = 3 := by
  have hpos : 0 < 2 ^ p := Nat.pow_pos (by norm_num)
  have hr : 1 ≤ r := by
    rcases Nat.eq_zero_or_pos r with h0 | h0
    · rw [h0] at h; omega
    · exact h0
  obtain ⟨t, rfl⟩ : ∃ t, r = t + 1 := ⟨r - 1, by omega⟩
  have hfac : t * (t + 2) = 2 ^ p := by
    have : (t + 1) * (t + 1) = t * (t + 2) + 1 := by ring
    omega
  have hd1 : t ∣ 2 ^ p := Dvd.intro _ hfac
  have hd2 : t + 2 ∣ 2 ^ p := Dvd.intro_left _ hfac
  obtain ⟨i, _, hi⟩ := (Nat.dvd_prime_pow Nat.prime_two).1 hd1
  obtain ⟨j, _, hj⟩ := (Nat.dvd_prime_pow Nat.prime_two).1 hd2
  have hij : 2 ^ j = 2 ^ i + 2 := by omega
  rcases i with _ | _ | i
  · rw [pow_zero] at hij
    exact absurd hij (two_pow_ne_three j)
  · rw [pow_one] at hij hi
    subst hi
    have h8 : 2 ^ p = 2 ^ 3 := by rw [← hfac]; norm_num
    have := Nat.pow_right_injective (le_refl 2) h8
    exact ⟨this, rfl⟩
  · rcases j with _ | _ | j
    · rw [pow_zero] at hij
      omega
    · rw [pow_one] at hij
      have : 0 < 2 ^ (i + 1 + 1) := Nat.pow_pos (by norm_num)
      omega
    · rw [pow_succ, pow_succ] at hij
      rw [pow_succ 2 (i + 1), pow_succ 2 i] at hij
      omega

/-- For `p ≥ 4` no integer square minus 2 is the Mersenne number `2^p - 1`. -/
theorem sq_sub_two_ne_mersenne (p : Nat) (x : Int) (hx : 0 ≤ x)
    (h : x * x - 2 = 2 ^ p - 1) : p = 3 ∧ x = 3 := by
  obtain ⟨r, rfl⟩ := Int.eq_ofNat_of_zero_le hx
  have h2 : r * r = 2 ^ p + 1 := by
    have : ((r * r : Nat) : Int) = ((2 ^ p + 1 : Nat) : Int) := by
      push_cast
      linarith
    exact_mod_cast this
  obtain ⟨h3, h4⟩ := sq_eq_two_pow_add_one p r h2
  exact ⟨h3, by rw [h4]; rfl⟩

/-! ## LLT against the Lucas-Lehmer residues -/

theorem ll_residue_succ (M : Int) (k : Nat) :
    ll_residue M (k + 1) = (ll_residue M k * ll_residue M k - 2) % M := rfl

theorem ll_residue_bounds (M : Int) (hM : 7 ≤ M) (k : Nat) :
    0 ≤ ll_residue M k ∧ ll_residue M k < M := by
  cases k with
  | zero =>
    have : ll_residue M 0 = 4 := rfl
    rw [this]
    omega
  | succ k =>
    rw [ll_residue_succ]
    exact ⟨Int.emod_nonneg _ (by omega), Int.emod_lt_of_pos _ (by omega)⟩

/-- When the precondition of `sub_big` holds on the run, the loop of `LLT`
computes the Lucas-Lehmer residues. -/
theorem LLT_loop_residue (u : Digits) (p : Nat) (h3 : 3 ≤ p) (hcap : (2 : Int) ^ p ≤ 10 ^ 174)
    (fuel : Nat) (hf : MAX_DIGITS + 12 ≤ fuel)
    (hpre : ∀ (k : Nat) (s : Bigint), k < p - 2 →
      LLT_loop u fuel (digit_to_big u 2)
        (sub_big u (pow_big u (digit_to_big u 2) p) (digit_to_big u 1)) k (digit_to_big u 4)
          = some s →
      value (digit_to_big u 2) ≤ value (mult_big u s s))
    (k : Nat) (hk : k ≤ p - 2) :
    ∃ s, LLT_loop u fuel (digit_to_big u 2)
        (sub_big u (pow_big u (digit_to_big u 2) p) (digit_to_big u 1)) k (digit_to_big u 4)
          = some s ∧
      wellFormed s ∧ normalised s ∧ value s = ll_residue (2 ^ p - 1) k := by
  obtain ⟨w1, w2, w3⟩ := mersenne_spec u p (by omega) (two_pow_lt_of_le p hcap)
  have h8 : (8 : Int) ≤ 2 ^ p := by
    calc (8 : Int) = 2 ^ 3 := by norm_num
      _ ≤ 2 ^ p := pow_le_pow_right₀ (by norm_num) h3
  induction k with
  | zero =>
    exact ⟨digit_to_big u 4, rfl, digit_to_big_wellFormed u 4 (by norm_num) (by norm_num),
      digit_to_big_normalised u 4, digit_to_big_value u 4⟩
  | succ k ih =>
    obtain ⟨s, q1, q2, q3, q4⟩ := ih (by omega)
    have hb := ll_residue_bounds (2 ^ p - 1) (by omega) k
    have hpk := hpre k s (by omega) q1
    obtain ⟨t, t1, t2, t3, t4⟩ := LLT_round_spec u (digit_to_big u 2) _ s w1 w2
      (by rw [w3]; omega)
      (digit_to_big_wellFormed u 2 (by norm_num) (by norm_num)) (digit_to_big_normalised u 2)
      (digit_to_big_value u 2) q2 q3 (by rw [q4]; omega) hpk fuel hf
    rw [LLT_loop_succ, q1]
    refine ⟨t, t1, t2, t3, ?_⟩
    rw [t4, w3, q4, ll_residue_succ]
    unfold modv
    by_cases he : ll_residue (2 ^ p - 1) k * ll_residue (2 ^ p - 1) k - 2 = 2 ^ p - 1
    · exfalso
      obtain ⟨e1, e2⟩ := sq_sub_two_ne_mersenne p _ hb.1 he
      have hk0 : k = 0 := by omega
      rw [hk0] at e2
      have : ll_residue (2 ^ p - 1) 0 = 4 := rfl
      omega
    · rw [if_neg he]

/-- `LLT(p)` returns 1 when the residue `s_(p-2)` is 0 and 0 otherwise, provided
the precondition of `sub_big` holds on the run. -/
theorem LLT_residue_verdict (u : Digits) (p : Nat) (h3 : 3 ≤ p)
    (hcap : (2 : Int) ^ p ≤ 10 ^ 174)
    (hpre : ∀ (fuel k : Nat) (s : Bigint), k < p - 2 →
      LLT_loop u fuel (digit_to_big u 2)
        (sub_big u (pow_big u (digit_to_big u 2) p) (digit_to_big u 1)) k (digit_to_big u 4)
          = some s →
      value (digit_to_big u 2) ≤ value (mult_big u s s)) :
    Returns (fun fuel => LLT u fuel p)
      (if ll_residue (2 ^ p - 1) (p - 2) = 0 then 1 else 0) := by
  refine ⟨MAX_DIGITS + 12, fun fuel hf => ?_⟩
  obtain ⟨s, q1, q2, q3, q4⟩ := LLT_loop_residue u p h3 hcap fuel hf (hpre fuel) (p - 2)
    (le_refl _)
  show LLT u fuel p = _
  rw [LLT_eq, q1]
  simp only
  rw [compare_big_eq_cmp s _ q2 q3 (digit_to_big_wellFormed u 0 (by norm_num) (by norm_num))
    (digit_to_big_normalised u 0), digit_to_big_value, q4]
  by_cases hr : ll_residue (2 ^ p - 1) (p - 2) = 0
  · rw [if_pos ((cmp_eq_zero_iff _ _).2 hr), if_pos hr]
  · rw [if_neg (fun h => hr ((cmp_eq_zero_iff _ _).1 h)), if_neg hr]

/-! ## The checked model agrees with the model while accesses stay in bounds -/

theorem rd_of_lt (d : Digits) (i : Nat) (h : i < MAX_DIGITS) : rd d i = some (d.get i) :=
  if_pos h

theorem wr_of_lt (d : Digits) (i : Nat) (v : Int) (h : i < MAX_DIGITS) :
    wr d i v = some (store d i v) :=
  if_pos h

theorem mk_big_of_le (n : Nat) (d : Digits) (h : n ≤ MAX_DIGITS) :
    mk_big n d = some (Bigint.mk n d) :=
  if_pos h

theorem forUpM_succ {σ : Type} (body : Nat → σ → Option σ) (k : Nat) (s : σ) :
    forUpM body (k + 1) s = (forUpM body k s).bind (body k) := rfl

/-- A checked loop whose body succeeds on every state of the unchecked loop. -/
theorem forUpM_eq_some {σ : Type} (body : Nat → σ → Option σ) (body2 : Nat → σ → σ)
    (s : σ) (k : Nat)
    (h : ∀ t, t < k → body t (forUp body2 t s) = some (body2 t (forUp body2 t s))) :
    forUpM body k s = some (forUp body2 k s) := by
  induction k with
  | zero => rfl
  | succ k ih =>
    rw [forUpM_succ, ih (fun t ht => h t (by omega)), Option.some_bind, forUp_succ]
    exact h k (by omega)

theorem compress_loop_chk_eq (k : Nat) : ∀ a : Bigint, k ≤ MAX_DIGITS →
    compress_loop_chk k a = some (compress_loop k a) := by
  induction k with
  | zero => intro a _; rfl
  | succ i ih =>
    intro a hk
    have e1 : compress_loop_chk (i + 1) a = (rd a.digits i).bind fun x =>
        if x = 0 ∧ i ≠ 0 then compress_loop_chk i { a with n := a.n - 1 } else some a := rfl
    have e2 : compress_loop (i + 1) a =
        if a.digits.get i = 0 ∧ i ≠ 0 then compress_loop i { a with n := a.n - 1 } else a := rfl
    rw [e1, e2, rd_of_lt _ _ (by omega), Option.some_bind]
    by_cases hc : a.digits.get i = 0 ∧ i ≠ 0
    · rw [if_pos hc, if_pos hc]
      exact ih _ (by omega)
    · rw [if_neg hc, if_neg hc]

theorem compress_chk_eq (a : Bigint) (h : a.n ≤ MAX_DIGITS) :
    compress_chk a = some (compress a) :=
  compress_loop_chk_eq a.n a h

theorem digit_to_big_chk_eq (u : Digits) (d : Int) :
    digit_to_big_chk u d = some (digit_to_big u d) := by
  unfold digit_to_big_chk
  rw [wr_of_lt _ _ _ (by decide), Option.some_bind, mk_big_of_le _ _ (by decide)]
  rfl

/-! ### mult_big -/

theorem mult_step_chk_eq (a b : Bigint) (i t : Nat) (s : Digits × Int)
    (h : i + t < MAX_DIGITS) :
    mult_step_chk a b i t s = some (mult_step a (b.digits.get i) i t s) := by
  unfold mult_step_chk
  rw [rd_of_lt _ _ h, Option.some_bind, rd_of_lt _ _ (by omega), Option.some_bind,
    rd_of_lt _ _ (by omega), Option.some_bind, wr_of_lt _ _ _ h, Option.some_bind]
  rfl

theorem mult_row_chk_eq (a b : Bigint) (i : Nat) (c : Digits) (h : i + a.n < MAX_DIGITS) :
    mult_row_chk a b i c = some (mult_row a b i c) := by
  unfold mult_row_chk
  rw [forUpM_eq_some (mult_step_chk a b i) (mult_step a (b.digits.get i) i) (c, 0) a.n
    (fun t ht => mult_step_chk_eq a b i t _ (by omega)), Option.some_bind]
  have e : mult_row a b i c =
      if (forUp (mult_step a (b.digits.get i) i) a.n (c, 0)).2 > 0 then
        store (forUp (mult_step a (b.digits.get i) i) a.n (c, 0)).1 (i + a.n)
          (Int.tmod ((forUp (mult_step a (b.digits.get i) i) a.n (c, 0)).1.get (i + a.n)
            + (forUp (mult_step a (b.digits.get i) i) a.n (c, 0)).2) 10)
      else (forUp (mult_step a (b.digits.get i) i) a.n (c, 0)).1 := rfl
  rw [e]
  by_cases hc : (forUp (mult_step a (b.digits.get i) i) a.n (c, 0)).2 > 0
  · rw [if_pos hc, if_pos hc, rd_of_lt _ _ h, Option.some_bind, wr_of_lt _ _ _ h]
  · rw [if_neg hc, if_neg hc]

theorem mult_big_chk_eq (u : Digits) (a b : Bigint) (h : a.n + b.n ≤ MAX_DIGITS) :
    mult_big_chk u a b = some (mult_big u a b) := by
  unfold mult_big_chk
  rw [mk_big_of_le _ _ h, Option.some_bind]
  show (forUpM (fun i d => wr d i 0) (a.n + b.n) u).bind _ = _
  rw [forUpM_eq_some (fun i d => wr d i 0) (fun i c => store c i 0) u (a.n + b.n)
    (fun t ht => wr_of_lt _ _ _ (by omega)), Option.some_bind,
    forUpM_eq_some (mult_row_chk a b) (mult_row a b) _ b.n
      (fun t ht => mult_row_chk_eq a b t _ (by omega)), Option.some_bind]
  show compress_chk (Bigint.mk (a.n + b.n) _) = _
  rw [compress_chk_eq _ h, mult_big_eq]

/-! ### sub_big -/

theorem sub_step1_chk_eq (b : Bigint) (j : Nat) (s : Digits × Digits)
    (h : j + 1 < MAX_DIGITS) : sub_step1_chk b j s = some (sub_step1 b j s) := by
  unfold sub_step1_chk
  rw [rd_of_lt _ _ (by omega), Option.some_bind, rd_of_lt _ _ (by omega), Option.some_bind,
    sub_step1_eq]
  by_cases hc : b.digits.get j > s.1.get j
  · rw [if_pos hc, if_pos hc, rd_of_lt _ _ h, Option.some_bind, wr_of_lt _ _ _ h,
      Option.some_bind, wr_of_lt _ _ _ (by omega), Option.some_bind]
  · rw [if_neg hc, if_neg hc, wr_of_lt _ _ _ (by omega), Option.some_bind]

theorem sub_step2_chk_eq (off t : Nat) (s : Digits × Digits)
    (h : off + t + 1 < MAX_DIGITS) : sub_step2_chk off t s = some (sub_step2 off t s) := by
  unfold sub_step2_chk
  rw [rd_of_lt _ _ (by omega), Option.some_bind, sub_step2_eq]
  by_cases hc : s.1.get (off + t) < 0
  · rw [if_pos hc, if_pos hc, wr_of_lt _ _ _ (by omega), Option.some_bind,
      rd_of_lt _ _ h, Option.some_bind, wr_of_lt _ _ _ h, Option.some_bind,
      rd_of_lt _ _ (by omega), Option.some_bind, wr_of_lt _ _ _ (by omega), Option.some_bind]
  · rw [if_neg hc, if_neg hc, Option.some_bind, rd_of_lt _ _ (by omega), Option.some_bind,
      wr_of_lt _ _ _ (by omega), Option.some_bind]

theorem sub_big_chk_eq (u : Digits) (a b : Bigint) (ha : a.n < MAX_DIGITS) (hba : b.n ≤ a.n) :
    sub_big_chk u a b = some (sub_big u a b) := by
  unfold sub_big_chk
  rw [mk_big_of_le _ _ (by omega), Option.some_bind]
  show (forUpM (sub_step1_chk b) b.n (a.digits, u)).bind _ = _
  rw [forUpM_eq_some (sub_step1_chk b) (sub_step1 b) _ b.n
    (fun t ht => sub_step1_chk_eq b t _ (by omega)), Option.some_bind,
    forUpM_eq_some (sub_step2_chk b.n) (sub_step2 b.n) _ (a.n - b.n)
      (fun t ht => sub_step2_chk_eq b.n t _ (by omega)), Option.some_bind]
  show compress_chk (Bigint.mk a.n _) = _
  rw [compress_chk_eq _ (by show a.n ≤ MAX_DIGITS; omega), sub_big_eq]

/-- The result of `sub_big` is well-formed and normalised also when `a < b`,
as long as `b` is not longer than `a`. -/
theorem sub_big_wellFormed_of_le (u : Digits) (a b : Bigint) (ha : wellFormed a)
    (hb : wellFormed b) (hba : b.n ≤ a.n) :
    wellFormed (sub_big u a b) ∧ normalised (sub_big u a b) := by
  have h1 := sub_loop1_inv u a b ha hb hba b.n (le_refl _)
  have h2 := sub_loop2_inv a b.n _ _ ha h1 (a.n - b.n) (by omega)
  have e : b.n + (a.n - b.n) = a.n := by omega
  rw [e] at h2
  obtain ⟨β, _, -, -, h3, _⟩ := h2
  rw [sub_big_eq]
  exact ⟨compress_wellFormed _ ha.1 ha.2.1 h3, compress_normalised _⟩

/-! ### compare_big, shift_right, shift_left -/

theorem compare_loop_chk_eq (a b : Bigint) (k : Nat) (h : k ≤ MAX_DIGITS) :
    compare_loop_chk a b k = some (compare_loop a b k) := by
  induction k with
  | zero => rfl
  | succ i ih =>
    have e1 : compare_loop_chk a b (i + 1) = (rd a.digits i).bind fun x =>
        (rd b.digits i).bind fun y =>
          if x > y then some 1 else if x < y then some (-1) else compare_loop_chk a b i := rfl
    have e2 : compare_loop a b (i + 1) =
        if a.digits.get i > b.digits.get i then 1
        else if a.digits.get i < b.digits.get i then -1 else compare_loop a b i := rfl
    rw [e1, e2, rd_of_lt _ _ (by omega), Option.some_bind, rd_of_lt _ _ (by omega),
      Option.some_bind]
    by_cases h1 : a.digits.get i > b.digits.get i
    · rw [if_pos h1, if_pos h1]
    · rw [if_neg h1, if_neg h1]
      by_cases h2 : a.digits.get i < b.digits.get i
      · rw [if_pos h2, if_pos h2]
      · rw [if_neg h2, if_neg h2]
        exact ih (by omega)

theorem compare_big_chk_eq (a b : Bigint) (h : a.n ≤ MAX_DIGITS) :
    compare_big_chk a b = some (compare_big a b) := by
  unfold compare_big_chk compare_big
  by_cases h1 : a.n < b.n
  · rw [if_pos h1, if_pos h1]
  · rw [if_neg h1, if_neg h1]
    by_cases h2 : a.n > b.n
    · rw [if_pos h2, if_pos h2]
    · rw [if_neg h2, if_neg h2]
      exact compare_loop_chk_eq a b a.n h

theorem shift_right_loop_chk_eq (n : Nat) : ∀ d : Digits, n < MAX_DIGITS →
    shift_right_loop_chk n d = some (shift_right_loop n d) := by
  induction n with
  | zero => intro d _; rfl
  | succ i ih =>
    intro d h
    have e1 : shift_right_loop_chk (i + 1) d = (rd d i).bind fun x =>
        (wr d (i + 1) x).bind fun d1 => shift_right_loop_chk i d1 := rfl
    have e2 : shift_right_loop (i + 1) d = shift_right_loop i (store d (i + 1) (d.get i)) := rfl
    rw [e1, e2, rd_of_lt _ _ (by omega), Option.some_bind, wr_of_lt _ _ _ h, Option.some_bind]
    exact ih _ (by omega)

theorem shift_right_chk_eq (a : Bigint) (h : a.n < MAX_DIGITS) :
    shift_right_chk a = some (shift_right a) := by
  unfold shift_right_chk
  rw [shift_right_loop_chk_eq a.n a.digits h, Option.some_bind, wr_of_lt _ _ _ (by decide),
    Option.some_bind, mk_big_of_le _ _ (by omega)]
  rfl

theorem shift_left_chk_eq (a : Bigint) (h : a.n ≤ MAX_DIGITS) :
    shift_left_chk a = some (shift_left a) := by
  unfold shift_left_chk
  by_cases h0 : a.n = 0
  · rw [if_pos h0]
    unfold shift_left
    rw [if_pos h0]
  · rw [if_neg h0, forUpM_eq_some (fun i d => (rd d (i + 1)).bind fun x => wr d i x)
      (fun i d => store d i (d.get (i + 1))) a.digits (a.n - 1)
      (fun t ht => by
        show (rd _ (t + 1)).bind _ = _
        rw [rd_of_lt _ _ (by omega), Option.some_bind, wr_of_lt _ _ _ (by omega)]),
      Option.some_bind, wr_of_lt _ _ _ (by omega), Option.some_bind,
      mk_big_of_le _ _ (by omega), shift_left_eq a h0]

/-! ### mod_big -/

theorem mod_scale_chk_succ (fuel : Nat) (a b : Bigint) :
    mod_scale_chk (fuel + 1) a b = (compare_big_chk a b).bind fun c =>
      if c = 1 then (shift_right_chk b).bind fun b1 => mod_scale_chk fuel a b1 else some b := rfl

theorem mod_inner_chk_succ (u : Digits) (fuel : Nat) (a b : Bigint) :
    mod_inner_chk u (fuel + 1) a b = (compare_big_chk a b).bind fun c =>
      if c ≠ -1 then (sub_big_chk u a b).bind fun a1 => mod_inner_chk u fuel a1 b
      else some a := rfl

theorem mod_outer_chk_succ (u : Digits) (lim : Nat) (ob : Bigint) (fuel : Nat) (a b : Bigint) :
    mod_outer_chk u lim ob (fuel + 1) a b = (compare_big_chk b ob).bind fun c =>
      if c ≠ -1 then
        (mod_inner_chk u lim a b).bind fun a1 =>
        (shift_left_chk b).bind fun b1 => mod_outer_chk u lim ob fuel a1 b1
      else some a := rfl

/-- The checked scaling loop agrees with the scaling loop while the scaled
denominator fits the array. -/
theorem mod_scale_chk_eq (a : Bigint) (ha : wellFormed a) (han : normalised a)
    (fuel : Nat) : ∀ b : Bigint, wellFormed b → normalised b → 0 < value b →
    value a ≤ value b * 10 ^ (MAX_DIGITS - b.n) →
    mod_scale_chk fuel a b = mod_scale fuel a b := by
  induction fuel with
  | zero => intro b _ _ _ _; rfl
  | succ fuel ih =>
    intro b hb hbn hv hcap
    rw [mod_scale_chk_succ, mod_scale_succ, compare_big_chk_eq a b ha.2.1, Option.some_bind]
    by_cases hc : compare_big a b = 1
    · rw [if_pos hc, if_pos hc]
      rw [compare_big_eq_cmp a b ha han hb hbn] at hc
      have hlt := (cmp_eq_one_iff _ _).1 hc
      have hbm : b.n < MAX_DIGITS := by
        by_contra hge
        have e : MAX_DIGITS - b.n = 0 := by omega
        rw [e] at hcap
        simp at hcap
        omega
      have hsv := shift_right_value b hbm
      have hcap2 : value a ≤ value (shift_right b) * 10 ^ (MAX_DIGITS - (shift_right b).n) := by
        have e : MAX_DIGITS - b.n = (MAX_DIGITS - (b.n + 1)) + 1 := by omega
        rw [e, pow_succ] at hcap
        rw [hsv, shift_right_n]
        linarith
      rw [shift_right_chk_eq b hbm, Option.some_bind]
      exact ih (shift_right b) (shift_right_wellFormed b hb hbm)
        (shift_right_normalised b hb hbn hv hbm) (by rw [hsv]; omega) hcap2
    · rw [if_neg hc, if_neg hc]

/-- The checked subtraction loop agrees with the subtraction loop. -/
theorem mod_inner_chk_eq (u : Digits) (b : Bigint) (hb : wellFormed b) (hbn : normalised b)
    (fuel : Nat) : ∀ a : Bigint, wellFormed a → normalised a → a.n < MAX_DIGITS →
    mod_inner_chk u fuel a b = mod_inner u fuel a b := by
  induction fuel with
  | zero => intro a _ _ _; rfl
  | succ fuel ih =>
    intro a ha han hcap
    rw [mod_inner_chk_succ, mod_inner_succ, compare_big_chk_eq a b ha.2.1, Option.some_bind]
    by_cases hc : compare_big a b ≠ -1
    · rw [if_pos hc, if_pos hc]
      rw [compare_big_eq_cmp a b ha han hb hbn] at hc
      have hle := (cmp_ne_neg_one_iff _ _).1 hc
      have hn := n_le_of_value_le b a hb hbn ha hle
      obtain ⟨s1, s2, _⟩ := sub_big_spec u a b ha hb hbn hle
      have sn := sub_big_n_le u a b
      rw [sub_big_chk_eq u a b hcap hn, Option.some_bind]
      exact ih (sub_big u a b) s1 s2 (by omega)
    · rw [if_neg hc, if_neg hc]

/-- What the subtraction loop returns is well-formed, normalised and not longer
than its argument. -/
theorem mod_inner_inv (u : Digits) (b : Bigint) (hb : wellFormed b) (hbn : normalised b)
    (fuel : Nat) : ∀ a r : Bigint, wellFormed a → normalised a →
    mod_inner u fuel a b = some r → wellFormed r ∧ normalised r ∧ r.n ≤ a.n := by
  induction fuel with
  | zero =>
    intro a r _ _ h
    exact absurd h (by simp [mod_inner])
  | succ fuel ih =>
    intro a r ha han h
    rw [mod_inner_succ] at h
    by_cases hc : compare_big a b ≠ -1
    · rw [if_pos hc] at h
      rw [compare_big_eq_cmp a b ha han hb hbn] at hc
      have hle := (cmp_ne_neg_one_iff _ _).1 hc
      obtain ⟨s1, s2, _⟩ := sub_big_spec u a b ha hb hbn hle
      have sn := sub_big_n_le u a b
      obtain ⟨r1, r2, r3⟩ := ih (sub_big u a b) r s1 s2 h
      exact ⟨r1, r2, by omega⟩
    · rw [if_neg hc] at h
      have e : a = r := Option.some.inj h
      subst e
      exact ⟨ha, han, le_refl _⟩

theorem mod_outer_chk_exit (u : Digits) (lim : Nat) (ob : Bigint) (fuel : Nat) (a b : Bigint)
    (hn : b.n < ob.n) :
    mod_outer_chk u lim ob fuel a b = mod_outer u lim ob fuel a b := by
  cases fuel with
  | zero => rfl
  | succ f =>
    have hc : compare_big b ob = -1 := by
      unfold compare_big
      rw [if_pos hn]
    have hc2 : compare_big_chk b ob = some (-1) := by
      unfold compare_big_chk
      rw [if_pos hn]
    rw [mod_outer_chk_succ, mod_outer_succ, hc2, Option.some_bind, hc, if_neg (by decide),
      if_neg (by decide)]

/-- The checked outer loop agrees with the outer loop, entered with `b = ob * 10^j`. -/
theorem mod_outer_chk_eq (u : Digits) (lim : Nat) (ob : Bigint) (hob : wellFormed ob)
    (j : Nat) : ∀ (fuel : Nat) (a b : Bigint), wellFormed a → normalised a →
    a.n < MAX_DIGITS → wellFormed b → normalised b → value b = value ob * 10 ^ j →
    b.n = ob.n + j →
    mod_outer_chk u lim ob fuel a b = mod_outer u lim ob fuel a b := by
  induction j with
  | zero =>
    intro fuel a b ha han hcap hb hbn hbv hbl
    cases fuel with
    | zero => rfl
    | succ f =>
      rw [mod_outer_chk_succ, mod_outer_succ, compare_big_chk_eq b ob hb.2.1, Option.some_bind]
      by_cases hc : compare_big b ob ≠ -1
      · rw [if_pos hc, if_pos hc, mod_inner_chk_eq u b hb hbn lim a ha han hcap]
        cases hi : mod_inner u lim a b with
        | none => rfl
        | some a1 =>
          rw [Option.some_bind, shift_left_chk_eq b hb.2.1, Option.some_bind]
          exact mod_outer_chk_exit u lim ob f a1 (shift_left b)
            (by rw [shift_left_n]; have := hob.1; omega)
      · rw [if_neg hc, if_neg hc]
  | succ j ih =>
    intro fuel a b ha han hcap hb hbn hbv hbl
    cases fuel with
    | zero => rfl
    | succ f =>
      rw [mod_outer_chk_succ, mod_outer_succ, compare_big_chk_eq b ob hb.2.1, Option.some_bind]
      by_cases hc : compare_big b ob ≠ -1
      · rw [if_pos hc, if_pos hc, mod_inner_chk_eq u b hb hbn lim a ha han hcap]
        cases hi : mod_inner u lim a b with
        | none => rfl
        | some a1 =>
          rw [Option.some_bind, shift_left_chk_eq b hb.2.1, Option.some_bind]
          obtain ⟨r1, r2, r3⟩ := mod_inner_inv u b hb hbn lim a a1 ha han hi
          have hb2 : 2 ≤ b.n := by have := hob.1; omega
          obtain ⟨s1, s2, _⟩ := shift_left_spec b hb hb2
          obtain ⟨s3, s4⟩ := shift_left_scaled ob b hob hb j hbv hbl
          exact ih f a1 (shift_left b) r1 r2 (by omega) s1 (s2 hbn) s3 s4
      · rw [if_neg hc, if_neg hc]

/-- The checked `mod_big` agrees with `mod_big` on well-formed, normalised
arguments with `b > 0` when `a` is shorter than the array. -/
theorem mod_big_chk_eq (u : Digits) (a b : Bigint) (ha : wellFormed a) (han : normalised a)
    (hb : wellFormed b) (hbn : normalised b) (hv : 0 < value b) (hcap : a.n < MAX_DIGITS)
    (fuel : Nat) (hf : a.n + 2 ≤ fuel) :
    mod_big_chk u fuel a b = mod_big u fuel a b := by
  have hfit := scaled_fits_of_lt a b ha hb hbn hv hcap
  obtain ⟨b1, k, h1, h2, h3, h4, h5, _, _⟩ :=
    mod_scale_spec a ha han fuel b hb hbn hv hfit (by omega) (by have := hb.1; omega)
  unfold mod_big_chk
  rw [mod_scale_chk_eq a ha han fuel b hb hbn hv hfit, h1, Option.some_bind,
    shift_left_chk_eq b1 h2.2.1, Option.some_bind, mod_big_eq, h1]
  show mod_outer_chk u fuel b fuel a (shift_left b1) = mod_outer u fuel b fuel a (shift_left b1)
  rcases Nat.eq_zero_or_pos k with hk | hk
  · subst hk
    exact mod_outer_chk_exit u fuel b fuel a (shift_left b1)
      (by rw [shift_left_n]; have := hb.1; omega)
  · have e : k = (k - 1) + 1 := by omega
    have hb2 : 2 ≤ b1.n := by have := hb.1; omega
    obtain ⟨s1, s2, _⟩ := shift_left_spec b1 h2 hb2
    obtain ⟨s3, s4⟩ := shift_left_scaled b b1 hb h2 (k - 1)
      (by rw [h4]; nth_rewrite 1 [e]; rfl) (by omega)
    exact mod_outer_chk_eq u fuel b hb (k - 1) fuel a (shift_left b1) ha han hcap s1 (s2 h3)
      s3 s4

/-! ### pow_big and LLT -/

theorem pow_big_eq_forUp (u : Digits) (a : Bigint) (t : Nat) :
    forUp (fun _ b => mult_big u b a) t a = pow_big u a (t + 1) := rfl

theorem pow_two_chk_eq (u : Digits) (p : Nat)
    (hcap : (2 : Int) ^ (p - 1) < 10 ^ (MAX_DIGITS - 1)) :
    pow_big_chk u (digit_to_big u 2) p = some (pow_big u (digit_to_big u 2) p) := by
  unfold pow_big_chk
  have hmax : MAX_DIGITS = 350 := rfl
  rw [forUpM_eq_some (fun _ b => mult_big_chk u b (digit_to_big u 2))
    (fun _ b => mult_big u b (digit_to_big u 2)) (digit_to_big u 2) (p - 1) (fun t ht => ?_)]
  · rfl
  · rw [pow_big_eq_forUp]
    have h1 : (2 : Int) ^ t ≤ 2 ^ (p - 1) := pow_le_pow_right₀ (by norm_num) (by omega)
    obtain ⟨w1, w2, w3⟩ := pow_two_spec u (t + 1) (by omega) (by
      have e : t + 1 - 1 = t := by omega
      rw [e]
      exact lt_of_le_of_lt h1 hcap)
    have hlt : value (pow_big u (digit_to_big u 2) (t + 1)) < 10 ^ (MAX_DIGITS - 1) := by
      rw [w3]
      have h2 : (2 : Int) ^ (t + 1) ≤ 2 ^ (p - 1) := pow_le_pow_right₀ (by norm_num) (by omega)
      exact lt_of_le_of_lt h2 hcap
    have hn := n_le_of_value_lt _ w1 w2 (MAX_DIGITS - 1) (by decide) hlt
    exact mult_big_chk_eq u _ _ (by rw [digit_to_big_n]; omega)

theorem LLT_loop_chk_succ (u : Digits) (fuel : Nat) (two Mp : Bigint) (k : Nat) (s : Bigint) :
    LLT_loop_chk u fuel two Mp (k + 1) s =
      (LLT_loop_chk u fuel two Mp k s).bind fun s1 =>
      (mult_big_chk u s1 s1).bind fun s2 =>
      (sub_big_chk u s2 two).bind fun s3 => mod_big_chk u fuel s3 Mp := rfl

/-- Every state of the loop of `LLT` is well-formed, normalised and below
`10^174`, and the checked loop reaches the same state. -/
theorem LLT_loop_chk_inv (u : Digits) (two Mp : Bigint)
    (hMw : wellFormed Mp) (hMn : normalised Mp) (hM0 : 0 < value Mp)
    (hMc : value Mp < 10 ^ 174)
    (htw : wellFormed two) (htn : two.n = 1)
    (fuel : Nat) (hf : MAX_DIGITS + 12 ≤ fuel)
    (s0 : Bigint) (hsw : wellFormed s0) (hsn : normalised s0) (hsc : value s0 < 10 ^ 174)
    (k : Nat) :
    ∃ s, LLT_loop_chk u fuel two Mp k s0 = some s ∧ LLT_loop u fuel two Mp k s0 = some s ∧
      wellFormed s ∧ normalised s ∧ value s < 10 ^ 174 := by
  have hmax : MAX_DIGITS = 350 := rfl
  induction k with
  | zero => exact ⟨s0, rfl, rfl, hsw, hsn, hsc⟩
  | succ k ih =>
    obtain ⟨s, q1, q2, q3, q4, q5⟩ := ih
    have hn1 : s.n ≤ 174 := n_le_of_value_lt s q3 q4 174 (by norm_num) q5
    obtain ⟨m1, m2, _⟩ := mult_big_spec u s s q3 q3 (by omega)
    have mn := mult_big_n_le u s s
    have hle : two.n ≤ (mult_big u s s).n := by rw [htn]; exact m1.1
    obtain ⟨b1, b2⟩ := sub_big_wellFormed_of_le u (mult_big u s s) two m1 htw hle
    have bn := sub_big_n_le u (mult_big u s s) two
    obtain ⟨t, t1, t2, t3, t4⟩ := mod_big_spec u (sub_big u (mult_big u s s) two) Mp
      b1 b2 hMw hMn hM0 (by omega) fuel (by omega)
    refine ⟨t, ?_, ?_, t2, t3, ?_⟩
    · rw [LLT_loop_chk_succ, q1, Option.some_bind, mult_big_chk_eq u s s (by omega),
        Option.some_bind, sub_big_chk_eq u _ two (by omega) hle, Option.some_bind,
        mod_big_chk_eq u _ Mp b1 b2 hMw hMn hM0 (by omega) fuel (by omega)]
      exact t1
    · rw [LLT_loop_succ, q2]
      exact t1
    · rw [t4]
      exact lt_of_le_of_lt (modv_le _ _ hM0) hMc

theorem LLT_chk_eq (u : Digits) (fuel p : Nat) :
    LLT_chk u fuel p =
      (digit_to_big_chk u 0).bind fun zero =>
      (digit_to_big_chk u 1).bind fun one =>
      (digit_to_big_chk u 2).bind fun two =>
      (pow_big_chk u two p).bind fun Mp0 =>
      (sub_big_chk u Mp0 one).bind fun Mp =>
      (digit_to_big_chk u 4).bind fun s =>
      (LLT_loop_chk u fuel two Mp (p - 2) s).bind fun s1 =>
      (compare_big_chk s1 zero).bind fun c => if c = 0 then some 1 else some 0 := rfl

/-- For `2^p ≤ 10^174` no access of `LLT(p)` leaves the array and no length
exceeds the capacity: the checked `LLT` returns what `LLT` returns. -/
theorem LLT_chk_safe (u : Digits) (p : Nat) (hp : 1 ≤ p) (hcap : (2 : Int) ^ p ≤ 10 ^ 174) :
    ∃ v, Returns (fun fuel => LLT_chk u fuel p) v ∧ Returns (fun fuel => LLT u fuel p) v := by
  have hmax : MAX_DIGITS = 350 := rfl
  have hc2 := two_pow_lt_of_le p hcap
  obtain ⟨w1, w2, w3⟩ := mersenne_spec u p hp hc2
  obtain ⟨x1, x2, x3⟩ := pow_two_spec u p hp hc2
  have hpn : (pow_big u (digit_to_big u 2) p).n < MAX_DIGITS := by
    have hlt : value (pow_big u (digit_to_big u 2) p) < 10 ^ 174 + 1 := by rw [x3]; omega
    have h175 : (10 : Int) ^ 174 + 1 ≤ 10 ^ 175 := by norm_num
    have := n_le_of_value_lt _ x1 x2 175 (by norm_num) (lt_of_lt_of_le hlt h175)
    omega
  have hge : (2 : Int) ≤ 2 ^ p := by
    calc (2 : Int) = 2 ^ 1 := by norm_num
      _ ≤ 2 ^ p := pow_le_pow_right₀ (by norm_num) hp
  have h4 : value (digit_to_big u 4) = 4 := digit_to_big_value u 4
  have htw := digit_to_big_wellFormed u 2 (by norm_num) (by norm_num)
  have h4w := digit_to_big_wellFormed u 4 (by norm_num) (by norm_num)
  have h0w := digit_to_big_wellFormed u 0 (by norm_num) (by norm_num)
  have key : ∀ fuel, MAX_DIGITS + 12 ≤ fuel →
      ∃ s, LLT_loop_chk u fuel (digit_to_big u 2)
          (sub_big u (pow_big u (digit_to_big u 2) p) (digit_to_big u 1)) (p - 2)
          (digit_to_big u 4) = some s ∧
        LLT_loop u fuel (digit_to_big u 2)
          (sub_big u (pow_big u (digit_to_big u 2) p) (digit_to_big u 1)) (p - 2)
          (digit_to_big u 4) = some s ∧ wellFormed s ∧ normalised s ∧ value s < 10 ^ 174 :=
    fun fuel hf => LLT_loop_chk_inv u (digit_to_big u 2) _ w1 w2 (by rw [w3]; omega)
      (by rw [w3]; omega) htw (digit_to_big_n u 2) fuel hf (digit_to_big u 4) h4w
      (digit_to_big_normalised u 4) (by rw [h4]; norm_num) (p - 2)
  obtain ⟨s0, a1, a2, a3, a4, a5⟩ := key (MAX_DIGITS + 12) (le_refl _)
  have hboth : ∀ fuel, MAX_DIGITS + 12 ≤ fuel →
      LLT_chk u fuel p = some (if compare_big s0 (digit_to_big u 0) = 0 then 1 else 0) ∧
      LLT u fuel p = some (if compare_big s0 (digit_to_big u 0) = 0 then 1 else 0) := by
    intro fuel hf
    obtain ⟨s, b1, b2, b3, b4, b5⟩ := key fuel hf
    have hm := LLT_loop_mono u _ _ (MAX_DIGITS + 12) fuel hf _ (p - 2) s0 a2
    rw [b2] at hm
    have e : s = s0 := Option.some.inj hm
    subst e
    constructor
    · rw [LLT_chk_eq, digit_to_big_chk_eq, Option.some_bind, digit_to_big_chk_eq,
        Option.some_bind, digit_to_big_chk_eq, Option.some_bind, pow_two_chk_eq u p hc2,
        Option.some_bind, sub_big_chk_eq u _ _ hpn (by rw [digit_to_big_n]; exact x1.1),
        Option.some_bind, digit_to_big_chk_eq, Option.some_bind, b1, Option.some_bind,
        compare_big_chk_eq s _ b3.2.1, Option.some_bind]
      by_cases hc : compare_big s (digit_to_big u 0) = 0
      · rw [if_pos hc, if_pos hc]
      · rw [if_neg hc, if_neg hc]
    · rw [LLT_eq, b2]
      show (if compare_big s (digit_to_big u 0) = 0 then some (1 : Int) else some 0) = _
      by_cases hc : compare_big s (digit_to_big u 0) = 0
      · rw [if_pos hc, if_pos hc]
      · rw [if_neg hc, if_neg hc]
  exact ⟨_, ⟨MAX_DIGITS + 12, fun fuel hf => (hboth fuel hf).1⟩,
    ⟨MAX_DIGITS + 12, fun fuel hf => (hboth fuel hf).2⟩⟩

/-- C11: for every `p` with `3 <= p < 550`, the run of `LLT(p)` never reads or
writes a digit index that reaches `MAX_DIGITS = 350` and never builds a Bigint of
length above `MAX_DIGITS`: the checked `LLT`, which fails on the first such
access or length, returns a verdict, the one `LLT` returns. -/
theorem LLT_within_capacity (u : Digits) (p : Nat) (h3 : 3 ≤ p) (h550 : p < 550) :
    ∃ v, Returns (fun fuel => LLT_chk u fuel p) v ∧ Returns (fun fuel => LLT u fuel p) v :=
  LLT_chk_safe u p (by omega) (two_pow_le_of_lt_550 p h550)

theorem LLT_within_capacity_witness :
    ∃ v, Returns (fun fuel => LLT_chk zeros fuel 5) v ∧ Returns (fun fuel => LLT zeros fuel 5) v :=
  LLT_within_capacity zeros 5 (by decide) (by decide)

/-- C12: for every `p >= 2`, `is_small_prime(p)` returns 1 exactly when `p` is
prime and 0 exactly when `p` is composite; so the driver writes nothing for a
composite `p` and writes the heading and the test result for a prime `p`. -/
theorem is_small_prime_correct (p : Nat) (hp : 2 ≤ p) :
    (is_small_prime p = 1 ↔ Nat.Prime p) ∧ (is_small_prime p = 0 ↔ ¬ Nat.Prime p) ∧
    (¬ Nat.Prime p → ∀ (u : Digits) (fuel : Nat), main_body u fuel p = some "") ∧
    (Nat.Prime p → ∀ (u : Digits) (fuel : Nat), main_body u fuel p =
      (main_test u fuel p).map (fun t => "Testing p = " ++ toString p ++ " " ++ t)) := by
  refine ⟨is_small_prime_eq_one_iff p hp, is_small_prime_eq_zero_iff p hp, ?_, ?_⟩
  · intro hn u fuel
    rw [main_body_eq, (is_small_prime_eq_zero_iff p hp).2 hn, if_neg (by decide)]
  · intro hpr u fuel
    rw [main_body_eq, (is_small_prime_eq_one_iff p hp).2 hpr, if_pos (by decide)]
    cases main_test u fuel p <;> rfl

theorem is_small_prime_correct_witness :
    (is_small_prime 91 = 1 ↔ Nat.Prime 91) ∧ (is_small_prime 91 = 0 ↔ ¬ Nat.Prime 91) ∧
    (¬ Nat.Prime 91 → ∀ (u : Digits) (fuel : Nat), main_body u fuel 91 = some "") ∧
    (Nat.Prime 91 → ∀ (u : Digits) (fuel : Nat), main_body u fuel 91 =
      (main_test u fuel 91).map (fun t => "Testing p = " ++ toString 91 ++ " " ++ t)) :=
  is_small_prime_correct 91 (by decide)

/-- C13 (as stated, refuted): the text written for `p = 2` is not
`Testing p = 2found prime p = 2` followed by a newline. -/
theorem main_two_no_space_counterexample :
    main_body zeros 0 2 ≠ some "Testing p = 2found prime p = 2\n" := by
  decide

/-- C13 (amended): for `p = 2` the text the driver writes is exactly
`Testing p = 2 found prime p = 2` followed by a newline, with one space between
the printed exponent and the word `found`. -/
theorem main_two_text (u : Digits) (fuel : Nat) :
    main_body u fuel 2 = some "Testing p = 2 found prime p = 2\n" := by
  rfl

/-- C14 (as stated, refuted): for `d = 10`, outside 0..9, `digit_to_big` yields a
Bigint, with `n = 1` and `digits[0] = 10`. -/
theorem digit_to_big_ten_counterexample :
    ∃ b : Bigint, digit_to_big zeros 10 = b ∧ b.n = 1 ∧ b.digits.get 0 = 10 :=
  ⟨digit_to_big zeros 10, rfl, by decide, by decide⟩

/-- C14 (amended): `digit_to_big(d)` never fails: for every integer `d` it yields
a Bigint with `n = 1` and `digits[0] = d`, which is well-formed exactly when `d`
is in 0..9. -/
theorem digit_to_big_total (u : Digits) (d : Int) :
    (digit_to_big u d).n = 1 ∧ (digit_to_big u d).digits.get 0 = d ∧
    (wellFormed (digit_to_big u d) ↔ 0 ≤ d ∧ d ≤ 9) := by
  refine ⟨rfl, digit_to_big_get u d, fun h => ?_, fun h => digit_to_big_wellFormed u d h.1 h.2⟩
  have := h.2.2 0 (by rw [digit_to_big_n]; decide)
  rw [digit_to_big_get] at this
  exact this

/-- C17 (as stated, refuted): in `mult_big(999, 91)`, at row 1 and column 2, the
value `val` is 99, above 98; both arguments are well-formed. -/
theorem mult_val_counterexample :
    wellFormed (ofDigits [9, 9, 9]) ∧ wellFormed (ofDigits [1, 9]) ∧
    mult_val_at zeros (ofDigits [9, 9, 9]) (ofDigits [1, 9]) 1 1 = 99 := by
  decide

/-- C17 (amended): for all well-formed Bigints `a` and `b` with
`a.n + b.n <= MAX_DIGITS`, every value `val` computed in the inner loop of
`mult_big` (row `i < b.n`, column `i + t` with `t < a.n`) is at least 0 and at
most 99. -/
theorem mult_val_le (u : Digits) (a b : Bigint) (ha : wellFormed a) (hb : wellFormed b)
    (hcap : a.n + b.n ≤ MAX_DIGITS) (i t : Nat) (hi : i < b.n) (ht : t < a.n) :
    0 ≤ mult_val_at u a b i t ∧ mult_val_at u a b i t ≤ 99 :=
  mult_val_at_bounds u a b ha hb hcap i t hi ht

theorem mult_val_le_witness :
    0 ≤ mult_val_at zeros (ofDigits [9, 9, 9]) (ofDigits [1, 9]) 1 1 ∧
    mult_val_at zeros (ofDigits [9, 9, 9]) (ofDigits [1, 9]) 1 1 ≤ 99 :=
  mult_val_le zeros (ofDigits [9, 9, 9]) (ofDigits [1, 9]) (by decide) (by decide) (by decide)
    1 1 (by decide) (by decide)

/-- C18 (as stated, refuted): for `a = 5` and `b0 = 7`, both well-formed and
normalised, the denominator after the scaling loop and the `shift_left` has
value 0, so `value(b) <= value(a) < 10 * value(b)` fails. -/
theorem mod_prepare_counterexample :
    wellFormed (ofDigits [5]) ∧ normalised (ofDigits [5]) ∧
    wellFormed (ofDigits [7]) ∧ normalised (ofDigits [7]) ∧ 0 < value (ofDigits [7]) ∧
    (mod_prepare 1 (ofDigits [5]) (ofDigits [7])).map value = some 0 ∧
    ¬ ((0 : Int) ≤ value (ofDigits [5]) ∧ value (ofDigits [5]) < 10 * 0) := by
  decide

/-- C18 (amended): for every well-formed, normalised `a` and `b0` with
`value(b0) > 0`, `value(a) > value(b0)` and `value(a)` not `value(b0)` times a power
of ten (scaled denominator within capacity), after the scaling loop and the
`shift_left` that follows it the working denominator `b` satisfies
`value(b) = 10^k * value(b0)` for some `k >= 0` and
`value(b) <= value(a) < 10 * value(b)`. -/
theorem mod_prepare_invariant (a b0 : Bigint) (ha : wellFormed a) (han : normalised a)
    (hb : wellFormed b0) (hbn : normalised b0) (hv : 0 < value b0)
    (hcap : a.n < MAX_DIGITS ∨ value a ≤ value b0 * 10 ^ (MAX_DIGITS - b0.n))
    (hgt : value b0 < value a) (hne : ∀ j : Nat, value a ≠ value b0 * 10 ^ j) :
    ∃ b, Returns (fun fuel => mod_prepare fuel a b0) b ∧
      ∃ k : Nat, value b = 10 ^ k * value b0 ∧ value b ≤ value a ∧ value a < 10 * value b := by
  obtain ⟨b, k, h1, _, _, h4, _, h6, h7⟩ := mod_prepare_spec a b0 ha han hb hbn hv
    (capacity_cases a b0 ha hb hbn hv hcap) hgt
  refine ⟨b, ⟨a.n + 2, h1⟩, k, by rw [h4]; ring, le_of_lt h6, ?_⟩
  have hk := hne (k + 1)
  rw [pow_succ] at hk
  rw [h4] at h7 ⊢
  have : value a ≠ 10 * (value b0 * 10 ^ k) := by
    intro h
    apply hk
    rw [h]
    ring
  omega

theorem mod_prepare_invariant_witness :
    ∃ b, Returns (fun fuel => mod_prepare fuel (ofDigits [0, 0, 0, 0, 4]) (ofDigits [0, 3])) b ∧
      ∃ k : Nat, value b = 10 ^ k * value (ofDigits [0, 3]) ∧
        value b ≤ value (ofDigits [0, 0, 0, 0, 4]) ∧
        value (ofDigits [0, 0, 0, 0, 4]) < 10 * value b :=
  mod_prepare_invariant (ofDigits [0, 0, 0, 0, 4]) (ofDigits [0, 3]) (by decide) (by decide)
    (by decide) (by decide) (by decide) (Or.inl (by decide)) (by decide)
    (by
      intro j h
      have h1 : value (ofDigits [0, 0, 0, 0, 4]) = 40000 := by decide
      have h2 : value (ofDigits [0, 3]) = 30 := by decide
      rw [h1, h2] at h
      have h3 : (3 : Int) ∣ 30 * 10 ^ j := Dvd.dvd.mul_right (by norm_num) _
      rw [← h] at h3
      omega)

/-- C19: for every well-formed, normalised `a` and `b` with `value(b) > 0`
(scaled denominator within capacity), `mod_big(a, b)` terminates: the scaling
loop returns after at most `a.n + 2` tests, the whole function returns when each
loop is allowed `a.n + 12` tests, every inner subtraction loop on well-formed
numbers returns, and each `shift_left` of the outer loop lowers the power-of-ten
exponent of the denominator by one. -/
theorem mod_big_terminates (u : Digits) (a b : Bigint) (ha : wellFormed a)
    (han : normalised a) (hb : wellFormed b) (hbn : normalised b) (hv : 0 < value b)
    (hcap : a.n < MAX_DIGITS ∨ value a ≤ value b * 10 ^ (MAX_DIGITS - b.n)) :
    (∃ b1, ∀ fuel, a.n + 2 ≤ fuel → mod_scale fuel a b = some b1) ∧
    (∃ r, ∀ fuel, a.n + 12 ≤ fuel → mod_big u fuel a b = some r) ∧
    (∀ c d : Bigint, wellFormed c → normalised c → wellFormed d → normalised d →
      0 < value d → ∃ r, Returns (fun fuel => mod_inner u fuel c d) r) ∧
    (∀ (c : Bigint) (j : Nat), wellFormed c → value c = value b * 10 ^ (j + 1) →
      c.n = b.n + (j + 1) →
      value (shift_left c) = value b * 10 ^ j ∧ (shift_left c).n = b.n + j) := by
  have hfit := capacity_cases a b ha hb hbn hv hcap
  refine ⟨?_, ?_, ?_, fun c j hc h1 h2 => shift_left_scaled b c hb hc j h1 h2⟩
  · obtain ⟨b1, k, h1, _⟩ :=
      mod_scale_spec a ha han (a.n + 2) b hb hbn hv hfit (by omega) (by have := hb.1; omega)
    exact ⟨b1, fun fuel hf => mod_scale_mono (a.n + 2) a b b1 fuel h1 hf⟩
  · obtain ⟨r, h1, _⟩ := mod_big_returns u a b ha han hb hbn hv hfit
    exact ⟨r, h1⟩
  · intro c d hc hcn hd hdn hdv
    have hc0 := value_nonneg c hc
    obtain ⟨r, h1, _⟩ := mod_inner_spec u d hd hdn ((value c).toNat + 1) c hc hcn (by
      have e : (((value c).toNat + 1 : Nat) : Int) = value c + 1 := by
        push_cast
        rw [Int.toNat_of_nonneg hc0]
      rw [e]
      nlinarith)
    exact ⟨r, (value c).toNat + 1, fun fuel hf => mod_inner_mono u _ c d r fuel h1 hf⟩

theorem mod_big_terminates_witness :
    (∃ b1, ∀ fuel, (ofDigits [0, 0, 0, 0, 4]).n + 2 ≤ fuel →
      mod_scale fuel (ofDigits [0, 0, 0, 0, 4]) (ofDigits [0, 3]) = some b1) ∧
    (∃ r, ∀ fuel, (ofDigits [0, 0, 0, 0, 4]).n + 12 ≤ fuel →
      mod_big zeros fuel (ofDigits [0, 0, 0, 0, 4]) (ofDigits [0, 3]) = some r) :=
  ⟨(mod_big_terminates zeros (ofDigits [0, 0, 0, 0, 4]) (ofDigits [0, 3]) (by decide)
      (by decide) (by decide) (by decide) (by decide) (Or.inl (by decide))).1,
    (mod_big_terminates zeros (ofDigits [0, 0, 0, 0, 4]) (ofDigits [0, 3]) (by decide)
      (by decide) (by decide) (by decide) (by decide) (Or.inl (by decide))).2.1⟩

/-- C20: for every well-formed, normalised `a` and `b` with `value(b) > 0` (scaled
denominator within capacity): when `value(a) != value(b)`, `mod_big(a, b)` returns
the well-formed, normalised Bigint of value `value(a) mod value(b)`; when
`value(a) = value(b)`, the scaling loop runs zero times, the outer loop is not
entered, and `mod_big(a, b)` returns `a` unchanged. -/
theorem mod_big_behaviour (u : Digits) (a b : Bigint) (ha : wellFormed a)
    (han : normalised a) (hb : wellFormed b) (hbn : normalised b) (hv : 0 < value b)
    (hcap : a.n < MAX_DIGITS ∨ value a ≤ value b * 10 ^ (MAX_DIGITS - b.n)) :
    (value a ≠ value b →
      ∃ r, Returns (fun fuel => mod_big u fuel a b) r ∧ wellFormed r ∧ normalised r ∧
        value r = value a % value b) ∧
    (value a = value b →
      (∀ fuel, mod_scale (fuel + 1) a b = some b) ∧
      (∀ fuel lim, mod_outer u lim b (fuel + 1) a (shift_left b) = some a) ∧
      Returns (fun fuel => mod_big u fuel a b) a) := by
  have hfit := capacity_cases a b ha hb hbn hv hcap
  constructor
  · intro hne
    obtain ⟨r, h1, h2, h3, h4⟩ := mod_big_returns u a b ha han hb hbn hv hfit
    refine ⟨r, ⟨a.n + 12, h1⟩, h2, h3, ?_⟩
    rw [h4]
    unfold modv
    rw [if_neg hne]
  · intro he
    have hc : compare_big a b ≠ 1 := by
      rw [compare_big_eq_cmp a b ha han hb hbn, he, cmp_self]
      decide
    refine ⟨fun fuel => ?_, fun fuel lim => ?_, 1, fun fuel hf => ?_⟩
    · rw [mod_scale_succ, if_neg hc]
    · exact mod_outer_exit u lim b (fuel + 1) a (shift_left b) (by omega)
        (by rw [shift_left_n]; have := hb.1; omega)
    · obtain ⟨f, rfl⟩ : ∃ f, fuel = f + 1 := ⟨fuel - 1, by omega⟩
      exact mod_big_of_not_gt u f a b hc hb.1

theorem mod_big_behaviour_witness :
    (value (ofDigits [0, 0, 0, 0, 4]) ≠ value (ofDigits [0, 3]) ∧
      ∃ r, Returns (fun fuel => mod_big zeros fuel (ofDigits [0, 0, 0, 0, 4]) (ofDigits [0, 3])) r ∧
        wellFormed r ∧ normalised r ∧
        value r = value (ofDigits [0, 0, 0, 0, 4]) % value (ofDigits [0, 3])) ∧
    (value (ofDigits [7]) = value (ofDigits [7]) ∧
      Returns (fun fuel => mod_big zeros fuel (ofDigits [7]) (ofDigits [7])) (ofDigits [7])) :=
  ⟨⟨by decide,
      (mod_big_behaviour zeros (ofDigits [0, 0, 0, 0, 4]) (ofDigits [0, 3]) (by decide)
        (by decide) (by decide) (by decide) (by decide) (Or.inl (by decide))).1 (by decide)⟩,
    ⟨rfl,
      ((mod_big_behaviour zeros (ofDigits [7]) (ofDigits [7]) (by decide) (by decide)
        (by decide) (by decide) (by decide) (Or.inl (by decide))).2 rfl).2.2⟩⟩

/-- C15: for every `p` with `3 <= p < 550` on whose run every call
`sub_big(s*s, 2)` meets its precondition (`value(mult_big(s, s)) >= 2` for every
state `s` the loop squares), `LLT(p)` returns 1 exactly when the Lucas-Lehmer
residue `s_(p-2)` is 0, where `s_0 = 4` and `s_(k+1) = (s_k^2 - 2) mod (2^p - 1)`,
and returns 0 exactly when it is not 0. -/
theorem LLT_refines_lucas_lehmer (u : Digits) (p : Nat) (h3 : 3 ≤ p) (h550 : p < 550)
    (hpre : ∀ (fuel k : Nat) (s : Bigint), k < p - 2 →
      LLT_loop u fuel (digit_to_big u 2)
        (sub_big u (pow_big u (digit_to_big u 2) p) (digit_to_big u 1)) k (digit_to_big u 4)
          = some s →
      2 ≤ value (mult_big u s s)) :
    (Returns (fun fuel => LLT u fuel p) 1 ↔ ll_residue (2 ^ p - 1) (p - 2) = 0) ∧
    (Returns (fun fuel => LLT u fuel p) 0 ↔ ll_residue (2 ^ p - 1) (p - 2) ≠ 0) := by
  have hr := LLT_residue_verdict u p h3 (two_pow_le_of_lt_550 p h550)
    (fun fuel k s hk hs => by rw [digit_to_big_value]; exact hpre fuel k s hk hs)
  by_cases h0 : ll_residue (2 ^ p - 1) (p - 2) = 0
  · rw [if_pos h0] at hr
    refine ⟨⟨fun _ => h0, fun _ => hr⟩, ⟨fun h => ?_, fun h => absurd h0 h⟩⟩
    exact absurd (Returns_unique _ _ _ hr h) (by decide)
  · rw [if_neg h0] at hr
    refine ⟨⟨fun h => ?_, fun h => absurd h h0⟩, ⟨fun _ => h0, fun _ => hr⟩⟩
    exact absurd (Returns_unique _ _ _ hr h) (by decide)

theorem LLT_refines_lucas_lehmer_witness :
    (Returns (fun fuel => LLT zeros fuel 5) 1 ↔ ll_residue (2 ^ 5 - 1) (5 - 2) = 0) ∧
    (Returns (fun fuel => LLT zeros fuel 5) 0 ↔ ll_residue (2 ^ 5 - 1) (5 - 2) ≠ 0) :=
  LLT_refines_lucas_lehmer zeros 5 (by decide) (by decide)
    (fun fuel k s hk hs => by
      have h := (LLT_pre_of_prime zeros 5 (by norm_num) (by decide) fuel k s hk hs).2.2.2
      rw [digit_to_big_value] at h
      exact h)

/-- C16: for every odd prime `p` with `3 <= p < 550` and every iteration of the
loop in `LLT(p)`, the state `s` that is squared is neither 0 nor 1 and the value
of `mult_big(s, s)` passed to `sub_big` is at least 2, so the precondition
`a >= b` of `sub_big(mult_big(s, s), two)` holds. -/
theorem LLT_sub_big_precondition (u : Digits) (p : Nat) :
    Nat.Prime p → 3 ≤ p → p < 550 → ∀ (fuel k : Nat) (s : Bigint), k < p - 2 →
    LLT_loop u fuel (digit_to_big u 2)
      (sub_big u (pow_big u (digit_to_big u 2) p) (digit_to_big u 1)) k (digit_to_big u 4)
        = some s →
    value s ≠ 0 ∧ value s ≠ 1 ∧ 2 ≤ value (mult_big u s s) ∧
    value (mult_big u s s) ≥ value (digit_to_big u 2) := by
  intro hp _ h550 fuel k s hk hs
  obtain ⟨_, _, g1, g2⟩ := LLT_pre_of_prime u p hp h550 fuel k s hk hs
  have g3 := g2
  rw [digit_to_big_value] at g3
  refine ⟨fun h => ?_, fun h => ?_, g3, g2⟩
  · rw [h] at g1; omega
  · rw [h] at g1; omega

set_option maxRecDepth 100000 in
theorem LLT_sub_big_precondition_witness :
    ∃ s, LLT_loop zeros 30 (digit_to_big zeros 2)
        (sub_big zeros (pow_big zeros (digit_to_big zeros 2) 5) (digit_to_big zeros 1)) 1
        (digit_to_big zeros 4) = some s ∧
      value s ≠ 0 ∧ value s ≠ 1 ∧ 2 ≤ value (mult_big zeros s s) ∧
      value (mult_big zeros s s) ≥ value (digit_to_big zeros 2) := by
  have h : (LLT_loop zeros 30 (digit_to_big zeros 2)
      (sub_big zeros (pow_big zeros (digit_to_big zeros 2) 5) (digit_to_big zeros 1)) 1
      (digit_to_big zeros 4)).isSome = true := by decide
  obtain ⟨s, hs⟩ := Option.isSome_iff_exists.1 h
  exact ⟨s, hs, LLT_sub_big_precondition zeros 5 (by norm_num) (by decide) (by decide) 30 1 s
    (by decide) hs⟩

end MersenneScan
